import Mathlib

/-!
# LVM2 extent allocator and device cache

A shallow embedding of `lib/metadata/lv_manip.c` (the extent allocator behind
`lv_create`) and of `lib/dev-mgr/dev-manager.c` (the device cache), followed by
theorems about them.

Conventions of the embedding

* `uint32_t` values are natural numbers below `U32`; every 32-bit operation of
  the source that can wrap carries an explicit `% U32`.
* A C pointer to a pool-allocated record is a handle (a natural number); `NULL`
  is `none`.
* A singly or doubly linked list is the Lean list of its members in link order;
  `list_del` while iterating leaves the successor link of the removed element
  intact, so the iteration goes on with the next member.
* Collaborators whose code is not part of the two files (the pool allocator,
  `create_pv_maps`, `stat`, `scandir`, `hash`) are inputs of the functions that
  call them.
* The records are declared in headers that are not among the sources
  (`metadata.h`, `pv_map.h`, `dev-manager.h`); they have the fields the two
  files read and write.
-/

/-! ## C integers -/

/-- Number of values of a `uint32_t` (and of an `unsigned int`). -/
def U32 : Nat := 4294967296

/-- The conversion of a 32-bit unsigned value to `int` (two's complement). -/
def to_int (c : Nat) : Int :=
  if c < 2147483648 then (c : Int) else (c : Int) - 4294967296

/-- The statement `allocated += r` for a `uint32_t allocated` and an `int r`. -/
def add_int (allocated : Nat) (r : Int) : Nat :=
  (((allocated : Int) + r) % 4294967296).toNat

namespace LvManip

/-! ## Data model of `lv_manip.c` -/

/-- A `struct pv_area`: a run of `count` free physical extents beginning at
`start`.  Both fields are 32-bit. -/
structure pv_area where
  start : Nat
  count : Nat
deriving DecidableEq, Repr

/-- A `struct pv_map`: a physical volume (its handle) with the list of its
free areas. -/
structure pv_map where
  pv : Nat
  areas : List pv_area
deriving DecidableEq, Repr

/-- One entry of `lv->map`: the physical volume (`none` is the `NULL` left by
`pool_zalloc`) and the physical extent on it. -/
structure pe_specifier where
  pv : Option Nat
  pe : Nat
deriving DecidableEq, Repr

/-- The fields of `struct logical_volume` that `lv_create` sets.  The back
pointer `lv->vg` is not represented. -/
structure logical_volume where
  uuid : String
  name : String
  status : Nat
  read_ahead : Nat
  stripes : Nat
  size : Nat
  le_count : Nat
  map : List pe_specifier
deriving DecidableEq, Repr

/-- Modelled from the spec: `struct volume_group` is declared in `metadata.h`,
which is not among the sources; the fields are those the spec's data model
lists and `lv_create` uses, the counters being natural numbers (the spec gives
them no width).  `lvs` is the list headed by `vg->lvs`. -/
structure volume_group where
  extent_size : Nat
  free_count : Nat
  max_lv : Nat
  lv_count : Nat
  lvs : List logical_volume
deriving DecidableEq, Repr

/-- The messages `lv_manip.c` hands to the logger; `stack` is the `stack;`
trace macro. -/
inductive log_msg where
  | stack
  | zero_extents
  | insufficient_free_extents_in_vg
  | max_lvs_reached
  | no_extent_mappings
  | striped_not_implemented
  | contiguous_not_implemented
  | insufficient_free_extents_to_allocate
  | extent_allocation_failed
deriving DecidableEq, Repr

/-! ## `_alloc_area` -/

/-- The loop `for (i = 0; i < count; i++) { lv->map[i + index] = (pv, start + i) }`
after `n` iterations.  A write outside the array is dropped. -/
def fill_map (index pv start : Nat) : Nat → List pe_specifier → List pe_specifier
  | 0, m => m
  | n + 1, m =>
    (fill_map index pv start n m).set ((n + index) % U32)
      { pv := some pv, pe := (start + n) % U32 }

/-- What `_alloc_area` leaves behind: the volume, the area (`none` when it was
unlinked by `list_del`, the shrunk area otherwise) and the returned `int`, the
conversion of the `uint32_t count`. -/
structure area_result where
  lv : logical_volume
  pva : Option pv_area
  ret : Int
deriving DecidableEq, Repr

/-- The function `_alloc_area(lv, index, pv, pva)`. -/
def _alloc_area (lv : logical_volume) (index pv : Nat) (pva : pv_area) : area_result :=
  let start := pva.start
  let count := pva.count
  let remaining := (lv.le_count + U32 - index) % U32
  if remaining < count then
    -- split the area
    let count := remaining
    { lv := { lv with map := fill_map index pv start count lv.map }
      pva := some { start := (pva.start + count) % U32
                    count := (pva.count + U32 - count) % U32 }
      ret := to_int count }
  else
    -- unlink the area
    { lv := { lv with map := fill_map index pv start count lv.map }
      pva := none
      ret := to_int count }

/-! ## `_alloc_striped`, `_alloc_contiguous`, `_alloc_simple` -/

/-- What an allocation policy leaves behind: the volume, the area maps, the
returned `int` and the messages logged. -/
structure alloc_result where
  lv : logical_volume
  pvms : List pv_map
  r : Nat
  log : List log_msg
deriving DecidableEq, Repr

/-- The function `_alloc_striped`. -/
def _alloc_striped (lv : logical_volume) (pvms : List pv_map) : alloc_result :=
  { lv := lv, pvms := pvms, r := 0, log := [log_msg.striped_not_implemented] }

/-- The function `_alloc_contiguous`. -/
def _alloc_contiguous (lv : logical_volume) (pvms : List pv_map) : alloc_result :=
  { lv := lv, pvms := pvms, r := 0, log := [log_msg.contiguous_not_implemented] }

/-- State of the loops of `_alloc_simple`: the volume, `allocated`, and what is
left of the list being walked. -/
structure loop_state (α : Type) where
  lv : logical_volume
  allocated : Nat
  rest : List α

/-- The inner loop of `_alloc_simple`, `list_iterate (tmp2, &pvm->areas)`, over
the areas of the physical volume `pv`, with its `break`. -/
def _alloc_simple_areas (pv : Nat) :
    List pv_area → logical_volume → Nat → loop_state pv_area
  | [], lv, allocated => { lv := lv, allocated := allocated, rest := [] }
  | pva :: tl, lv, allocated =>
    let r := _alloc_area lv allocated pv pva
    let allocated1 := add_int allocated r.ret
    if allocated1 = r.lv.le_count then
      { lv := r.lv, allocated := allocated1, rest := r.pva.toList ++ tl }
    else
      let t := _alloc_simple_areas pv tl r.lv allocated1
      { lv := t.lv, allocated := t.allocated, rest := r.pva.toList ++ t.rest }

/-- The outer loop of `_alloc_simple`, `list_iterate (tmp1, pvms)`, with its
`break`. -/
def _alloc_simple_maps :
    List pv_map → logical_volume → Nat → loop_state pv_map
  | [], lv, allocated => { lv := lv, allocated := allocated, rest := [] }
  | pvm :: tl, lv, allocated =>
    let t := _alloc_simple_areas pvm.pv pvm.areas lv allocated
    let pvm1 : pv_map := { pv := pvm.pv, areas := t.rest }
    if t.allocated = t.lv.le_count then
      { lv := t.lv, allocated := t.allocated, rest := pvm1 :: tl }
    else
      let u := _alloc_simple_maps tl t.lv t.allocated
      { lv := u.lv, allocated := u.allocated, rest := pvm1 :: u.rest }

/-- The function `_alloc_simple`. -/
def _alloc_simple (lv : logical_volume) (pvms : List pv_map) : alloc_result :=
  let t := _alloc_simple_maps pvms lv 0
  if t.allocated ≠ t.lv.le_count then
    { lv := t.lv, pvms := t.rest, r := 0
      log := [log_msg.insufficient_free_extents_to_allocate] }
  else
    { lv := t.lv, pvms := t.rest, r := 1, log := [] }

/-! ## `lv_create` -/

/-- What the collaborators of `lv_create` do during one call: whether each
pool request succeeds, what `create_pv_maps(scratch, vg)` returns (`none` is
`NULL`), and the value of the constant `ALLOC_CONTIGUOUS` of `metadata.h`. -/
structure env where
  pool_create_ok : Bool
  ll_zalloc_ok : Bool
  name_strdup_ok : Bool
  map_zalloc_ok : Bool
  pv_maps : Option (List pv_map)
  ALLOC_CONTIGUOUS : Nat

/-- What a call of `lv_create` leaves behind: the returned volume (`none` is
`NULL`), the volume group, the area maps if they were built, and the messages
logged. -/
structure create_result where
  lv : Option logical_volume
  vg : volume_group
  pvms : Option (List pv_map)
  log : List log_msg
deriving DecidableEq, Repr

/-- The volume `lv_create` has set up when it calls the allocation policy:
`pool_zalloc` zero-fills the map. -/
def new_lv (name : String) (status stripes extents : Nat) (vg : volume_group) :
    logical_volume :=
  { uuid := ""
    name := name
    status := status
    read_ahead := 0
    stripes := stripes
    size := extents * vg.extent_size
    le_count := extents
    map := List.replicate extents { pv := none, pe := 0 } }

/-- The choice of the allocation policy in `lv_create`:
`if (stripes > 1) ... else if (status & ALLOC_CONTIGUOUS) ... else ...`. -/
def alloc_by_policy (e : env) (status stripes : Nat) (lv : logical_volume)
    (pvms : List pv_map) : alloc_result :=
  if stripes > 1 then _alloc_striped lv pvms
  else if status &&& e.ALLOC_CONTIGUOUS ≠ 0 then _alloc_contiguous lv pvms
  else _alloc_simple lv pvms

/-- The function `lv_create(ios, name, status, stripes, stripe_size, extents, vg,
acceptable_pvs)`.  `ios` is represented by the pool outcomes of `e`;
`acceptable_pvs` is not used by the source.  `list_add(&ll->list, &vg->lvs)` puts
the new volume at the end of the list, as the spec has it. -/
def lv_create (e : env) (name : String) (status stripes stripe_size extents : Nat)
    (vg : volume_group) : create_result :=
  if ¬ e.pool_create_ok then
    { lv := none, vg := vg, pvms := none, log := [log_msg.stack] }
  else if extents = 0 then
    { lv := none, vg := vg, pvms := none, log := [log_msg.zero_extents] }
  else if vg.free_count < extents then
    { lv := none, vg := vg, pvms := none, log := [log_msg.insufficient_free_extents_in_vg] }
  else if vg.max_lv = vg.lv_count then
    { lv := none, vg := vg, pvms := none, log := [log_msg.max_lvs_reached] }
  else if ¬ e.ll_zalloc_ok then
    { lv := none, vg := vg, pvms := none, log := [log_msg.stack] }
  else if ¬ e.name_strdup_ok then
    { lv := none, vg := vg, pvms := none, log := [log_msg.stack] }
  else if ¬ e.map_zalloc_ok then
    { lv := none, vg := vg, pvms := none, log := [log_msg.stack] }
  else
    match e.pv_maps with
    | none => { lv := none, vg := vg, pvms := none, log := [log_msg.no_extent_mappings] }
    | some pvms =>
      let lv := new_lv name status stripes extents vg
      let a := alloc_by_policy e status stripes lv pvms
      if a.r = 0 then
        { lv := none, vg := vg, pvms := some a.pvms
          log := a.log ++ [log_msg.extent_allocation_failed] }
      else
        { lv := some a.lv
          vg := { vg with lvs := vg.lvs ++ [a.lv]
                          lv_count := vg.lv_count + 1
                          free_count := vg.free_count - extents }
          pvms := some a.pvms
          log := a.log }

/-! ## Vocabulary of the statements -/

/-- The failure kinds of the spec's error-handling section. -/
inductive failure_kind where
  | ParameterError
  | CapacityError
  | LimitError
  | PolicyUnimplemented
  | AllocationError
deriving DecidableEq, Repr

/-- The failure kind a logged message stands for, if any (`stack` and the
closing "Extent allocation failed." stand for none). -/
def kind_of_msg : log_msg → Option failure_kind
  | log_msg.zero_extents => some failure_kind.ParameterError
  | log_msg.insufficient_free_extents_in_vg => some failure_kind.CapacityError
  | log_msg.insufficient_free_extents_to_allocate => some failure_kind.CapacityError
  | log_msg.max_lvs_reached => some failure_kind.LimitError
  | log_msg.striped_not_implemented => some failure_kind.PolicyUnimplemented
  | log_msg.contiguous_not_implemented => some failure_kind.PolicyUnimplemented
  | log_msg.no_extent_mappings => some failure_kind.AllocationError
  | log_msg.stack => none
  | log_msg.extent_allocation_failed => none

/-- A call fails with kind `k`: it returns `NULL` and the messages it logged
stand for `k` and no other kind. -/
def fails_with (r : create_result) (k : failure_kind) : Prop :=
  r.lv = none ∧ r.log.filterMap kind_of_msg = [k]

instance (r : create_result) (k : failure_kind) : Decidable (fails_with r k) := by
  unfold fails_with; infer_instance

/-- Sum of `count` over a list of areas. -/
def areas_total : List pv_area → Nat
  | [] => 0
  | a :: tl => a.count + areas_total tl

/-- Sum of `count` over all areas of all maps. -/
def maps_total : List pv_map → Nat
  | [] => 0
  | m :: tl => areas_total m.areas + maps_total tl

/-- The physical extents `(pv, start), (pv, start + 1), ..., (pv, start + count - 1)`
of one area. -/
def area_extents (pv : Nat) (a : pv_area) : List (Nat × Nat) :=
  (List.range a.count).map fun j => (pv, a.start + j)

/-- The extents of a list of areas of one physical volume, area by area. -/
def areas_extents (pv : Nat) : List pv_area → List (Nat × Nat)
  | [] => []
  | a :: tl => area_extents pv a ++ areas_extents pv tl

/-- The extents of all maps, map by map in list order. -/
def maps_extents : List pv_map → List (Nat × Nat)
  | [] => []
  | m :: tl => areas_extents m.pv m.areas ++ maps_extents tl

/-- The map entry the allocator writes for the physical extent `p`: the
extent number is stored in 32 bits. -/
def entry_of (p : Nat × Nat) : pe_specifier :=
  { pv := some p.1, pe := p.2 % U32 }

/-- Every area has a 32-bit `count`. -/
def areas_u32 (areas : List pv_area) : Prop :=
  ∀ a ∈ areas, a.count < U32

/-- Every area of every map has a 32-bit `count`. -/
def maps_u32 (pvms : List pv_map) : Prop :=
  ∀ m ∈ pvms, areas_u32 m.areas

/-- A map with all its areas unlinked. -/
def emptied (m : pv_map) : pv_map :=
  { pv := m.pv, areas := [] }

/-- What is left of the area `a` once `k` extents are taken from its front:
nothing when `k` is the whole area, the shrunk area otherwise. -/
def shrunk (a : pv_area) (k : Nat) : List pv_area :=
  if k < a.count then [{ start := (a.start + k) % U32, count := a.count - k }] else []

/-! ## Vocabulary of the loop lemmas -/

/-- The number of extents `_alloc_area` takes from the area `a` when `A` extents
of the volume are allocated already. -/
def taken (lv : logical_volume) (A : Nat) (a : pv_area) : Nat :=
  min a.count (lv.le_count - A)

/-- The volume after `_alloc_area` has written the extents it takes from `a`. -/
def lv_filled (lv : logical_volume) (A pv : Nat) (a : pv_area) : logical_volume :=
  { lv with map := fill_map A pv a.start (taken lv A a) lv.map }

/-- What the inner loop of `_alloc_simple` does to the area list `areas` when it
starts with `A` extents allocated out of `W`: either the list runs out and every
area is unlinked, or the loop stops in the area `last`, of which the extents
still needed are taken, the areas before it being unlinked and those after it
left alone. -/
def areas_left (W A : Nat) (areas rest : List pv_area) : Prop :=
  (A + areas_total areas < W ∧ rest = []) ∨
  ∃ done last tail, areas = done ++ last :: tail ∧
    A + areas_total done < W ∧ W ≤ A + areas_total done + last.count ∧
    rest = shrunk last (W - (A + areas_total done)) ++ tail

/-- What `_alloc_simple` does to the list of maps when it starts with `A`
extents allocated out of `W`: either all maps run out and every area of every
map is unlinked, or the loops stop in the area `last` of the map `m`; the maps
before `m` are emptied, the areas of `m` before `last` unlinked, of `last` the
extents still needed are taken, and the areas and maps after it are left
alone. -/
def maps_left (W A : Nat) (pvms rest : List pv_map) : Prop :=
  (A + maps_total pvms < W ∧ rest = pvms.map emptied) ∨
  ∃ pre m post done last tail, pvms = pre ++ m :: post ∧ m.areas = done ++ last :: tail ∧
    A + maps_total pre + areas_total done < W ∧
    W ≤ A + maps_total pre + areas_total done + last.count ∧
    rest = pre.map emptied ++
      { pv := m.pv
        areas := shrunk last (W - (A + maps_total pre + areas_total done)) ++ tail } :: post

/-! ## Vocabulary of the `lv_create` theorems -/

/-- The four pool requests of `lv_create` succeed. -/
def pools_ok (e : env) : Prop :=
  e.pool_create_ok = true ∧ e.ll_zalloc_ok = true ∧ e.name_strdup_ok = true ∧
    e.map_zalloc_ok = true

/-- The call passes the three checks `lv_create` makes before it builds
anything: `extents` is not zero, `vg->free_count` is not below `extents`, and
`vg->max_lv` differs from `vg->lv_count`. -/
def passes_checks (extents : Nat) (vg : volume_group) : Prop :=
  extents ≠ 0 ∧ extents ≤ vg.free_count ∧ vg.max_lv ≠ vg.lv_count

/-- No area reaches past the last 32-bit extent number. -/
def maps_in_range (pvms : List pv_map) : Prop :=
  ∀ m ∈ pvms, ∀ a ∈ m.areas, a.start + a.count ≤ U32

/-- An environment in which every pool request succeeds and `create_pv_maps`
returns `pvms`; `ALLOC_CONTIGUOUS` is bit 12. -/
def env_with (pvms : List pv_map) : env :=
  { pool_create_ok := true, ll_zalloc_ok := true, name_strdup_ok := true
    map_zalloc_ok := true, pv_maps := some pvms, ALLOC_CONTIGUOUS := 4096 }

/-- An environment in which `pool_create` fails. -/
def env_without_pool (pvms : List pv_map) : env :=
  { pool_create_ok := false, ll_zalloc_ok := true, name_strdup_ok := true
    map_zalloc_ok := true, pv_maps := some pvms, ALLOC_CONTIGUOUS := 4096 }

/-- An environment in which every pool request succeeds and `create_pv_maps`
returns `NULL`. -/
def env_without_maps : env :=
  { pool_create_ok := true, ll_zalloc_ok := true, name_strdup_ok := true
    map_zalloc_ok := true, pv_maps := none, ALLOC_CONTIGUOUS := 4096 }

/-- One physical volume holding the single free area `(start = 0, count = 10)`. -/
def one_area : List pv_map := [{ pv := 7, areas := [{ start := 0, count := 10 }] }]

/-- A volume group with room for `free_count` extents and `max_lv` volumes,
`lv_count` of them in use. -/
def vg_with (free_count max_lv lv_count : Nat) : volume_group :=
  { extent_size := 8, free_count := free_count, max_lv := max_lv, lv_count := lv_count
    lvs := [] }

/-- The volume `lv_create` returns for four extents taken from `one_area`. -/
def four_extents_lv : logical_volume :=
  { uuid := "", name := "lv", status := 0, read_ahead := 0, stripes := 1, size := 32
    le_count := 4
    map := [{ pv := some 7, pe := 0 }, { pv := some 7, pe := 1 },
            { pv := some 7, pe := 2 }, { pv := some 7, pe := 3 }] }

/-! ## Vocabulary of the allocation invariants -/

/-- The areas are pairwise disjoint: the listing of the extents of all areas
names no pair (physical volume, physical extent) twice, so that no pair lies in
two areas. -/
def maps_disjoint (pvms : List pv_map) : Prop :=
  (maps_extents pvms).Nodup

/-- The map entry `e` names an extent of the area `a` of the physical volume
`pv`. -/
def in_area (pv : Nat) (a : pv_area) (e : pe_specifier) : Prop :=
  e.pv = some pv ∧ a.start ≤ e.pe ∧ e.pe < a.start + a.count

/-- One call `_alloc_area(lv, index, pv, pva)`. -/
structure area_call where
  lv : logical_volume
  index : Nat
  pv : Nat
  pva : pv_area
deriving DecidableEq, Repr

/-- The calls of `_alloc_area` that the inner loop of `_alloc_simple` makes, in
order: the loop of `_alloc_simple_areas` with each call written down. -/
def areas_calls (pv : Nat) : List pv_area → logical_volume → Nat → List area_call
  | [], _, _ => []
  | pva :: tl, lv, allocated =>
    let r := _alloc_area lv allocated pv pva
    let allocated1 := add_int allocated r.ret
    { lv := lv, index := allocated, pv := pv, pva := pva } ::
      (if allocated1 = r.lv.le_count then [] else areas_calls pv tl r.lv allocated1)

/-- The calls of `_alloc_area` that the loops of `_alloc_simple` make, in order:
the loop of `_alloc_simple_maps` with each call written down. -/
def maps_calls : List pv_map → logical_volume → Nat → List area_call
  | [], _, _ => []
  | pvm :: tl, lv, allocated =>
    let t := _alloc_simple_areas pvm.pv pvm.areas lv allocated
    areas_calls pvm.pv pvm.areas lv allocated ++
      (if t.allocated = t.lv.le_count then [] else maps_calls tl t.lv t.allocated)

/-- The calls of `_alloc_area` during `_alloc_simple(lv, pvms)`. -/
def _alloc_simple_calls (lv : logical_volume) (pvms : List pv_map) : List area_call :=
  maps_calls pvms lv 0

/-- The value of `remaining` in a call of `_alloc_area`:
`lv->le_count - index` in 32 bits. -/
def call_remaining (c : area_call) : Nat :=
  (c.lv.le_count + U32 - c.index) % U32

/-- The value of `count` when a call of `_alloc_area` reaches its loop, the
number of map entries it writes. -/
def call_count (c : area_call) : Nat :=
  if call_remaining c < c.pva.count then call_remaining c else c.pva.count

/-- The indices `i + index` of `lv->map` that a call of `_alloc_area` writes,
in 32 bits. -/
def call_indices (c : area_call) : List Nat :=
  (List.range (call_count c)).map fun i => (i + c.index) % U32

/-- Two maps of one physical volume each, the first with the areas `(0, 2)` and
`(5, 3)`, the second with the area `(0, 4)`. -/
def two_maps : List pv_map :=
  [{ pv := 7, areas := [{ start := 0, count := 2 }, { start := 5, count := 3 }] },
   { pv := 8, areas := [{ start := 0, count := 4 }] }]

/-- The volume `lv_create` returns for six extents taken from `two_maps`. -/
def six_extents_lv : logical_volume :=
  { uuid := "", name := "lv", status := 0, read_ahead := 0, stripes := 1, size := 48
    le_count := 6
    map := [{ pv := some 7, pe := 0 }, { pv := some 7, pe := 1 },
            { pv := some 7, pe := 5 }, { pv := some 7, pe := 6 },
            { pv := some 7, pe := 7 }, { pv := some 8, pe := 0 }] }

end LvManip

namespace DevMgr

/-! ## Data model of `dev-manager.c` -/

/-- A `struct device`: the path of a device node and its device number. -/
structure device where
  name : String
  dev : Nat
deriving DecidableEq, Repr

/-- The fields of `struct stat` that the device cache reads. -/
structure stat_t where
  st_mode : Nat
  st_rdev : Nat
deriving DecidableEq, Repr

/-- The macro `S_ISBLK` of `sys/stat.h`: `(mode & S_IFMT) == S_IFBLK`. -/
def S_ISBLK (mode : Nat) : Bool := mode &&& 0o170000 == 0o060000

/-- The macro `S_ISDIR` of `sys/stat.h`: `(mode & S_IFMT) == S_IFDIR`. -/
def S_ISDIR (mode : Nat) : Bool := mode &&& 0o170000 == 0o040000

/-- The macro `MAJOR` of `linux/kdev_t.h`, `dev >> 8`, converted to `int`. -/
def MAJOR (dev : Nat) : Int := to_int ((dev >>> 8) % U32)

/-- The constant `LOCAL_CHECK_NAME`. -/
def LOCAL_CHECK_NAME : Int := 2

/-- What the system and the pool do during one call into the cache.
`stat path` is `none` when `stat(2)` returns -1.  `scandir dir` is `none` when
`scandir(3)` returns -1, else the entry names in `alphasort` order.
`pool_alloc_ok n` tells whether `pool_alloc` yields a record when the pool
holds `n` of them, `pool_strdup_ok s` whether `pool_strdup` copies `s`. -/
structure world where
  stat : String → Option stat_t
  scandir : String → Option (List String)
  pool_alloc_ok : Nat → Bool
  pool_strdup_ok : String → Bool

/-- A `struct dev_mgr`.  `pool` holds the `struct dev_i` records in allocation
order, a record being `none` as long as its fields are not set; the handle of a
record is its position.  A hash chain (`dev_next`, `name_next`) and the list
`all` (`next`) are the lists of the handles on them, head first.
`dev_list` is the list of valid majors. -/
structure dev_mgr where
  has_scanned : Nat
  dev_list : List Int
  num_slots : Nat
  mask : Nat
  pool : List (Option device)
  dev_slots : List (List Nat)
  name_slots : List (List Nat)
  all : List Nat
  devdir : List String
deriving DecidableEq, Repr

/-- The record a handle points to, when its fields are set. -/
def deref (dm : dev_mgr) (c : Nat) : Option device :=
  (dm.pool.getD c none)

/-- The function `_hash_dev`: the cast `(unsigned int) d`. -/
def _hash_dev (d : Nat) : Nat := d % U32

/-- The function `_is_name_present`: the first record on the chain of slot
`hash(name) & (num_slots - 1)` whose name is `name`.  A slot outside the table
has no chain. -/
def _is_name_present (hash : String → Nat) (dm : dev_mgr) (name : String) : Option Nat :=
  let h := hash name &&& ((dm.num_slots + U32 - 1) % U32)
  (dm.name_slots.getD h []).find? fun c =>
    match deref dm c with
    | some d => d.name == name
    | none => false

/-- The function `_is_device_present`: the first record on the chain of slot
`_hash_dev(dev) & (num_slots - 1)` whose device number is `dev`. -/
def _is_device_present (dm : dev_mgr) (dev : Nat) : Option Nat :=
  let h := _hash_dev dev &&& ((dm.num_slots + U32 - 1) % U32)
  (dm.dev_slots.getD h []).find? fun c =>
    match deref dm c with
    | some d => d.dev == dev
    | none => false

/-- The assignment `c->d.dev = dev` to the record with handle `c`. -/
def set_dev (dm : dev_mgr) (c dev : Nat) : dev_mgr :=
  { dm with pool := dm.pool.modify (Option.map fun d => { d with dev := dev }) c }

/-- Linking the record `device` in front of the chain of slot `h`. -/
def push_slot (slots : List (List Nat)) (h device : Nat) : List (List Nat) :=
  slots.modify (fun chain => device :: chain) h

/-- The function `_name_insert`. -/
def _name_insert (hash : String → Nat) (dm : dev_mgr) (device : Nat) : dev_mgr :=
  match deref dm device with
  | none => dm
  | some d =>
    let h := hash d.name &&& (dm.mask % U32)
    match _is_name_present hash dm d.name with
    | some c => set_dev dm c d.dev
    | none => { dm with name_slots := push_slot dm.name_slots h device }

/-- The function `_dev_insert`. -/
def _dev_insert (dm : dev_mgr) (device : Nat) : dev_mgr :=
  match deref dm device with
  | none => dm
  | some d =>
    let h := _hash_dev d.dev &&& (dm.mask % U32)
    { dm with dev_slots := push_slot dm.dev_slots h device }

/-- The function `_list_insert`. -/
def _list_insert (dm : dev_mgr) (device : Nat) : dev_mgr :=
  { dm with all := device :: dm.all }

/-- The function `_check_dev`; `stat_b` is never `NULL` at its one call. -/
def _check_dev (dm : dev_mgr) (stat_b : stat_t) : Int :=
  let seek_major := MAJOR stat_b.st_rdev
  if ¬ S_ISBLK stat_b.st_mode then
    - LOCAL_CHECK_NAME
  else
    dm.dev_list.foldl (fun ret major => if major = seek_major then 0 else ret) 1

/-- The loop of `_collapse_slashes` over the characters of the string. -/
def collapse_chars : Bool → List Char → List Char
  | _, [] => []
  | was_slash, c :: cs =>
    if c = '/' then
      if was_slash then collapse_chars true cs else c :: collapse_chars true cs
    else c :: collapse_chars false cs

/-- The function `_collapse_slashes`. -/
def _collapse_slashes (str : String) : String :=
  String.mk (collapse_chars false str.data)

/-- The path `_add` builds: `snprintf(devpath, 128, "%s/%s", directory, devname)`
keeps at most 127 characters, then the slashes are collapsed. -/
def devpath_of (directory devname : String) : String :=
  _collapse_slashes (String.mk ((directory ++ "/" ++ devname).data.take 127))

/-- What `_add_named_device` and `_add` return: the cache and the returned
record (`none` is `NULL`). -/
structure add_result where
  dm : dev_mgr
  dev : Option Nat
deriving DecidableEq, Repr

/-- The body of `_add`, given what `_add_named_device` does. -/
def add_with (add_named : dev_mgr → String → Option add_result)
    (dm : dev_mgr) (directory devname : String) : Option add_result :=
  add_named dm (devpath_of directory devname)

/-- The loop of `_dir_scan` over the entries `scandir` returned. -/
def dir_scan_entries (add_named : dev_mgr → String → Option add_result)
    (dirname : String) : List String → dev_mgr → Option dev_mgr
  | [], dm => some dm
  | d_name :: tl, dm =>
    match add_with add_named dm dirname d_name with
    | none => none
    | some r => dir_scan_entries add_named dirname tl r.dm

/-- The body of `_dir_scan`, given what `_add_named_device` does; the function
always returns 1, so only the cache is kept. -/
def dir_scan_with (w : world) (add_named : dev_mgr → String → Option add_result)
    (dm : dev_mgr) (dirname : String) : Option dev_mgr :=
  match w.scandir dirname with
  | none => some dm
  | some entries => dir_scan_entries add_named dirname entries dm

/-- The body of `_add_named_device`, given what `_dir_scan` does. -/
def add_named_with (hash : String → Nat) (w : world)
    (dir_scan : dev_mgr → String → Option dev_mgr)
    (dm : dev_mgr) (devpath : String) : Option add_result :=
  match w.stat devpath with
  | none => some { dm := dm, dev := none }
  | some stat_b =>
    if _check_dev dm stat_b ≠ 0 then some { dm := dm, dev := none }
    else if S_ISDIR stat_b.st_mode then
      if devpath.data.head? ≠ some '.' then
        (dir_scan dm devpath).map fun dm1 => { dm := dm1, dev := none }
      else some { dm := dm, dev := none }
    else
      match _is_name_present hash dm devpath with
      | some dev => some { dm := set_dev dm dev stat_b.st_rdev, dev := some dev }
      | none =>
        if ¬ w.pool_alloc_ok dm.pool.length then some { dm := dm, dev := none }
        else
          let dev := dm.pool.length
          if ¬ w.pool_strdup_ok devpath then
            some { dm := { dm with pool := dm.pool ++ [none] }, dev := some dev }
          else
            let dm1 := { dm with
              pool := dm.pool ++ [some { name := devpath, dev := stat_b.st_rdev }] }
            let dm2 := _name_insert hash dm1 dev
            match _is_device_present dm2 stat_b.st_rdev with
            | some _ => some { dm := dm2, dev := some dev }
            | none => some { dm := _list_insert (_dev_insert dm2 dev) dev, dev := some dev }

/-- The function `_add_named_device`.  The first argument bounds the depth of
the recursion through `_dir_scan` and `_add`; the result is `none` when a
directory would be entered below that depth. -/
def _add_named_device (hash : String → Nat) (w : world) :
    Nat → dev_mgr → String → Option add_result
  | 0 => add_named_with hash w fun _ _ => none
  | depth + 1 =>
    add_named_with hash w (dir_scan_with w (_add_named_device hash w depth))

/-- The function `_dir_scan`, entering directories to the given depth. -/
def _dir_scan (hash : String → Nat) (w : world) (depth : Nat)
    (dm : dev_mgr) (dirname : String) : Option dev_mgr :=
  dir_scan_with w (_add_named_device hash w depth) dm dirname

/-- The function `_add`. -/
def _add (hash : String → Nat) (w : world) (depth : Nat)
    (dm : dev_mgr) (directory devname : String) : Option add_result :=
  add_with (_add_named_device hash w depth) dm directory devname

/-- The function `dev_by_name`; `_get_dev` of a record is the record itself. -/
def dev_by_name (hash : String → Nat) (w : world) (depth : Nat)
    (dm : dev_mgr) (name : String) : Option add_result :=
  match _is_name_present hash dm name with
  | some c => some { dm := dm, dev := some c }
  | none =>
    if dm.has_scanned = 0 then _add_named_device hash w depth dm name
    else some { dm := dm, dev := none }

/-- The function `dev_by_dev`. -/
def dev_by_dev (dm : dev_mgr) (d : Nat) : Option Nat :=
  _is_device_present dm d

/-- The loop of `_create_hash_table` that rounds the size hint up to a power of
two, `new_size` being an `unsigned`; `none` when it has not ended after the
given number of rounds. -/
def round_up (size_hint : Nat) : Nat → Nat → Option Nat
  | 0, _ => none
  | rounds + 1, new_size =>
    if new_size < size_hint then round_up size_hint rounds ((new_size * 2) % U32)
    else some new_size

/-- The function `_create_hash_table`, both `pool_zalloc` calls succeeding:
the two tables of `new_size` empty slots. -/
def _create_hash_table (dm : dev_mgr) (size_hint : Nat) : Option dev_mgr :=
  (round_up size_hint 64 16).map fun new_size =>
    { dm with
      num_slots := new_size
      mask := (new_size + U32 - 1) % U32
      dev_slots := List.replicate new_size []
      name_slots := List.replicate new_size [] }

/-- The cache `init_dev_manager` returns before `_scan_proc_dev` has filled the
list of valid majors: zeroed by `memset`, the base directory set, the hash
tables created for the size hint 128. -/
def init_tables (base_dir : String) : Option dev_mgr :=
  _create_hash_table
    { has_scanned := 0, dev_list := [], num_slots := 0, mask := 0, pool := []
      dev_slots := [], name_slots := [], all := [], devdir := [base_dir] } 128

/-- The device numbers carried by the records of a list of handles. -/
def numbers_of (dm : dev_mgr) (handles : List Nat) : List Nat :=
  handles.filterMap fun c => (deref dm c).map fun d => d.dev

/-- The paths carried by the records of a list of handles. -/
def names_of (dm : dev_mgr) (handles : List Nat) : List String :=
  handles.filterMap fun c => (deref dm c).map fun d => d.name

/-- The handles of the by-number index: all chains of `dev_slots`. -/
def by_number (dm : dev_mgr) : List Nat := dm.dev_slots.flatten

/-- The handles of the by-name index: all chains of `name_slots`. -/
def by_name (dm : dev_mgr) : List Nat := dm.name_slots.flatten

/-! ## Vocabulary of the device-cache theorems -/

/-- The tables of a cache are in order: the two tables have `num_slots` slots,
`mask` is `num_slots - 1`, and every handle on a chain or on the list `all` is
the handle of a record of the pool. -/
def wf (dm : dev_mgr) : Prop :=
  0 < dm.num_slots ∧ dm.num_slots ≤ U32 ∧ dm.mask + 1 = dm.num_slots ∧
  dm.name_slots.length = dm.num_slots ∧ dm.dev_slots.length = dm.num_slots ∧
  (∀ c ∈ by_name dm, c < dm.pool.length) ∧
  (∀ c ∈ by_number dm, c < dm.pool.length) ∧
  (∀ c ∈ dm.all, c < dm.pool.length)

/-- The path is accepted: `stat` succeeds on it with `st` and `_check_dev`
finds a block device with a valid major. -/
def accepted (w : world) (dm : dev_mgr) (path : String) (st : stat_t) : Prop :=
  w.stat path = some st ∧ _check_dev dm st = 0

instance (w : world) (dm : dev_mgr) (path : String) (st : stat_t) :
    Decidable (accepted w dm path st) := by
  unfold accepted; infer_instance

/-- The cache with a new record for `path` and `rdev` at the end of the pool,
not yet linked anywhere. -/
def with_record (dm : dev_mgr) (path : String) (rdev : Nat) : dev_mgr :=
  { dm with pool := dm.pool ++ [some { name := path, dev := rdev }] }

/-! ## A small system for the examples -/

/-- A stand-in for the external `hash`: the length of the string. -/
def name_hash (s : String) : Nat := s.length

/-- What `stat` reports for a block device node with device number `rdev`. -/
def blk (rdev : Nat) : stat_t := { st_mode := 0o060660, st_rdev := rdev }

/-- A system where `/dev/a` is the block device 8:1 and `/dev/b` is 8:2. -/
def fs1 : world :=
  { stat := fun p =>
      if p = "/dev/a" then some (blk 2049) else if p = "/dev/b" then some (blk 2050) else none
    scandir := fun _ => none
    pool_alloc_ok := fun _ => true
    pool_strdup_ok := fun _ => true }

/-- The same system after `/dev/b` has become a node of the device 8:1. -/
def fs2 : world :=
  { stat := fun p =>
      if p = "/dev/a" then some (blk 2049) else if p = "/dev/b" then some (blk 2049) else none
    scandir := fun _ => none
    pool_alloc_ok := fun _ => true
    pool_strdup_ok := fun _ => true }

/-- The empty cache for the base directory `/dev`, major 8 being valid. -/
def empty_cache : dev_mgr :=
  { has_scanned := 0, dev_list := [8], num_slots := 128, mask := 127, pool := []
    dev_slots := List.replicate 128 [], name_slots := List.replicate 128 [], all := []
    devdir := ["/dev"] }

/-- The cache after one discovery of `path` in the system `w`. -/
def discover (w : world) (dm : dev_mgr) (path : String) : dev_mgr :=
  match _add_named_device name_hash w 0 dm path with
  | some r => r.dm
  | none => dm

/-- The cache after `/dev/a` was discovered as 8:1. -/
def cache_a : dev_mgr := discover fs1 empty_cache "/dev/a"

/-- The cache after `/dev/a` was discovered as 8:1 and `/dev/b` as 8:2. -/
def cache_ab : dev_mgr := discover fs1 cache_a "/dev/b"

/-- The cache after `/dev/b` was then discovered again, now as 8:1. -/
def cache_abb : dev_mgr := discover fs2 cache_ab "/dev/b"

/-! ## `_full_dev_scan`, `init_dev_scan`, `next_device` -/

/-- The loop of `_full_dev_scan` over `dm->devdir`,
`ret = ret || _dir_scan(dm, dirname)`: with `ret` not zero the call is not
evaluated; `_dir_scan` returns 1. -/
def full_dev_scan_loop (dir_scan : dev_mgr → String → Option dev_mgr) :
    List String → dev_mgr → Nat → Option (dev_mgr × Nat)
  | [], dm, ret => some (dm, ret)
  | dirname :: tl, dm, ret =>
    if ret ≠ 0 then full_dev_scan_loop dir_scan tl dm 1
    else
      match dir_scan dm dirname with
      | none => none
      | some dm1 => full_dev_scan_loop dir_scan tl dm1 1

/-- What `_full_dev_scan` leaves behind: the cache and the returned `int`. -/
structure scan_result where
  dm : dev_mgr
  ret : Nat
deriving DecidableEq, Repr

/-- The function `_full_dev_scan`, entering directories to the given depth. -/
def _full_dev_scan (hash : String → Nat) (w : world) (depth : Nat) (dm : dev_mgr) :
    Option scan_result :=
  match full_dev_scan_loop (_dir_scan hash w depth) dm.devdir dm 0 with
  | none => none
  | some (dm1, ret) => some { dm := { dm1 with has_scanned := 1 }, ret := ret }

/-- What `init_dev_scan` leaves behind: the cache and the returned counter.  A
`dev_counter_t` is a pointer into the list `all`: the record it points to and
the records linked behind it, `[]` for `NULL`. -/
structure counter_result where
  dm : dev_mgr
  counter : List Nat
deriving DecidableEq, Repr

/-- The function `init_dev_scan`. -/
def init_dev_scan (hash : String → Nat) (w : world) (depth : Nat) (dm : dev_mgr) :
    Option counter_result :=
  if dm.has_scanned = 0 then
    match _full_dev_scan hash w depth dm with
    | none => none
    | some r => some { dm := r.dm, counter := r.dm.all }
  else some { dm := dm, counter := dm.all }

/-- The function `next_device`: the returned record (`none` is `NULL`) and the
counter after the call. -/
def next_device (counter : List Nat) : Option Nat × List Nat :=
  match counter with
  | [] => (none, [])
  | di :: next => (some di, next)

/-- The records returned by `n` calls of `next_device` in a row, and the counter
after them. -/
def next_devices : Nat → List Nat → List (Option Nat) × List Nat
  | 0, counter => ([], counter)
  | n + 1, counter =>
    ((next_device counter).1 :: (next_devices n (next_device counter).2).1,
     (next_devices n (next_device counter).2).2)

/-! ## Systems with directories, for the examples -/

/-- What `stat` reports for a directory. -/
def dir_stat : stat_t := { st_mode := 0o040755, st_rdev := 0 }

/-- What `stat` reports for a regular file. -/
def reg_stat : stat_t := { st_mode := 0o100644, st_rdev := 0 }

/-- A system with the directories `/dev` and `/dev2`: `/dev` holds the block
device `a` (8:1), the regular file `f`, the block device `x` of the major 3,
which is not valid, and the directory `sub`, which holds the block device `c`
(8:3); `/dev2` holds the block device `b` (8:2). -/
def fs_dirs : world :=
  { stat := fun p =>
      if p = "/dev" then some dir_stat
      else if p = "/dev/a" then some (blk 2049)
      else if p = "/dev/f" then some reg_stat
      else if p = "/dev/x" then some (blk 769)
      else if p = "/dev/sub" then some dir_stat
      else if p = "/dev/sub/c" then some (blk 2051)
      else if p = "/dev2" then some dir_stat
      else if p = "/dev2/b" then some (blk 2050)
      else none
    scandir := fun p =>
      if p = "/dev" then some ["a", "f", "sub", "x"]
      else if p = "/dev/sub" then some ["c"]
      else if p = "/dev2" then some ["b"]
      else none
    pool_alloc_ok := fun _ => true
    pool_strdup_ok := fun _ => true }

/-- A system where `/dev/a` has become the block device 8:2. -/
def fs3 : world :=
  { stat := fun p => if p = "/dev/a" then some (blk 2050) else none
    scandir := fun _ => none
    pool_alloc_ok := fun _ => true
    pool_strdup_ok := fun _ => true }

/-- The cache after `/dev/a` was discovered as 8:1 and then again as 8:2. -/
def cache_aa : dev_mgr := discover fs3 cache_a "/dev/a"

/-- The cache after `init_dev_scan` in the system `w`. -/
def scanned (w : world) (dm : dev_mgr) : dev_mgr :=
  match init_dev_scan name_hash w 0 dm with
  | some r => r.dm
  | none => dm

/-- The state of a cache during a scan of the system `w` with the valid majors
`majors`: the tables are in order, the majors are `majors`, every record of the
by-number index is on the list `all`, and every record carries the device
number `stat` reports for its path, a number that some record of the list
carries. -/
def scan_inv (w : world) (majors : List Int) (dm : dev_mgr) : Prop :=
  wf dm ∧ dm.dev_list = majors ∧
  (∀ c ∈ by_number dm, c ∈ dm.all) ∧
  (∀ c d, deref dm c = some d →
    (∃ st, w.stat d.name = some st ∧ st.st_rdev = d.dev) ∧
    d.dev ∈ numbers_of dm dm.all)

/-! ## The scan of `/proc/devices` -/

/-- The table `device_names`. -/
def device_names : List String :=
  ["ide", "sd", "md", "loop", "dasd", "dac960", "nbd", "ida", "cciss", "ubd"]

/-- The newline character. -/
def NL : Char := Char.ofNat 10

/-- The character that ends a C string. -/
def NUL : Char := Char.ofNat 0

/-- The buffers that the calls `fgets(line, 80, procdevices)` fill until `fgets`
returns `NULL`, for a file that holds the characters given first.  A call stores
at most 79 characters and stops after a newline; `room` is the number of
characters the running call may still store, `acc` what it has stored, last
character first.  At the end of the file a call that has stored nothing
returns `NULL`. -/
def fgets_lines : List Char → Nat → List Char → List (List Char)
  | [], _, acc => if acc.isEmpty then [] else [acc.reverse]
  | c :: cs, room, acc =>
    if c = NL ∨ room ≤ 1 then (c :: acc).reverse :: fgets_lines cs 79 []
    else fgets_lines cs (room - 1) (c :: acc)

/-- The C string in a buffer: the characters before the first `NUL`. -/
def c_str (buf : List Char) : List Char := buf.takeWhile fun c => c ≠ NUL

/-- The loop `while (line[i] == ' ' && line[i] != '\0') i++`, as the rest
`line + i` of the line it leaves. -/
def skip_blanks : List Char → List Char
  | [] => []
  | c :: cs => if c = ' ' then skip_blanks cs else c :: cs

/-- The loop `while (line[i] != ' ' && line[i] != '\0') i++`, as the rest
`line + i` of the line it leaves. -/
def skip_word : List Char → List Char
  | [] => []
  | c :: cs => if c ≠ ' ' then skip_word cs else c :: cs

/-- The loop over `device_names`: some name is no longer than the rest of the
line and `strncmp` finds it at the start of the rest. -/
def name_matches (rest : List Char) : Bool :=
  device_names.any fun name =>
    decide (name.data.length ≤ rest.length) && (rest.take name.data.length == name.data)

/-- The variables of `_scan_proc_dev` that live across lines: the list of valid
majors `dm->dev_list`, `blocksection` and `ret`. -/
structure proc_scan where
  dev_list : List Int
  blocksection : Int
  ret : Int
deriving DecidableEq, Repr

/-- One round of the `while` loop of `_scan_proc_dev`, for the C string `line`
that `fgets` has read.  `atoi` is the function of the C library.  The result of
`pool_alloc` is used unchecked: `pool_ok n` tells whether `pool_alloc` yields a
node when the list holds `n` of them, and the round has no result (`none`) when
it does not. -/
def scan_line (atoi : List Char → Int) (pool_ok : Nat → Bool)
    (s : proc_scan) (line : List Char) : Option proc_scan :=
  let rest := skip_blanks line
  let line_major := atoi rest
  if line_major = 0 then
    some { s with blocksection := if rest.head? = some 'B' then 1 else 0 }
  else if s.blocksection = 0 then some s
  else
    let name := skip_blanks (skip_word rest)
    if name_matches name then
      if pool_ok s.dev_list.length then
        some { s with dev_list := line_major :: s.dev_list
                      ret := to_int ((s.ret + 1) % 4294967296).toNat }
      else none
    else some s

/-- The `while` loop of `_scan_proc_dev` over the buffers that `fgets` fills. -/
def scan_lines (atoi : List Char → Int) (pool_ok : Nat → Bool) :
    List (List Char) → proc_scan → Option proc_scan
  | [], s => some s
  | buf :: tl, s =>
    match scan_line atoi pool_ok s (c_str buf) with
    | none => none
    | some s1 => scan_lines atoi pool_ok tl s1

/-- The function `_scan_proc_dev`: the cache with the majors found and the
count returned.  `procdevices` is what `/proc/devices` holds, `none` when
`fopen` fails. -/
def _scan_proc_dev (atoi : List Char → Int) (pool_ok : Nat → Bool) (dm : dev_mgr)
    (procdevices : Option (List Char)) : Option (dev_mgr × Int) :=
  match procdevices with
  | none => some (dm, 0)
  | some text =>
    match scan_lines atoi pool_ok (fgets_lines text 79 [])
        { dev_list := dm.dev_list, blocksection := 0, ret := 0 } with
    | none => none
    | some s => some ({ dm with dev_list := s.dev_list }, s.ret)

/-! ## The registry text as the specification reads it -/

/-- The lines of a text, each with the newline that ends it; `acc` holds the
line that has begun, last character first. -/
def text_lines : List Char → List Char → List (List Char)
  | [], acc => if acc.isEmpty then [] else [acc.reverse]
  | c :: cs, acc =>
    if c = NL then (c :: acc).reverse :: text_lines cs [] else text_lines cs (c :: acc)

/-- The lines of a registry text. -/
def lines_of (text : List Char) : List (List Char) := text_lines text []

/-- The number a line starts with, after its blanks, as `atoi` parses it. -/
def leading_number (atoi : List Char → Int) (line : List Char) : Int :=
  atoi (skip_blanks line)

/-- The first character of a line that is not a blank. -/
def first_nonspace (line : List Char) : Option Char := (skip_blanks line).head?

/-- The name token of a line: after the first word and the blanks that follow
it, the characters up to the next white space. -/
def name_token (line : List Char) : List Char :=
  (skip_blanks (skip_word (skip_blanks line))).takeWhile fun c => !c.isWhitespace

/-- Some entry of the whitelist is the start of the name token of the line. -/
def has_listed_name (line : List Char) : Prop :=
  ∃ name ∈ device_names, name.data <+: name_token line

/-- The lines `before` a line end in a block section: the last of them whose
leading number is zero has `B` as its first character that is not a blank. -/
def in_block_section (atoi : List Char → Int) (before : List (List Char)) : Prop :=
  ∃ p1 h p2, before = p1 ++ h :: p2 ∧ leading_number atoi h = 0 ∧
    first_nonspace h = some 'B' ∧ ∀ x ∈ p2, leading_number atoi x ≠ 0

/-- The text lists the major `m`: it has a line whose leading number is `m`, not
zero, that lies in a block section and has a name of the whitelist. -/
def lists_major (atoi : List Char → Int) (text : List Char) (m : Int) : Prop :=
  ∃ before line after, lines_of text = before ++ line :: after ∧
    leading_number atoi line = m ∧ m ≠ 0 ∧ in_block_section atoi before ∧
    has_listed_name line

/-! ## A registry text for the examples -/

/-- White space as `isspace` of the C library sees it. -/
def c_isspace (c : Char) : Bool := c = ' ' || (9 ≤ c.toNat && c.toNat ≤ 13)

/-- The value of the decimal digits a string starts with. -/
def digits_value : List Char → Nat → Nat
  | [], acc => acc
  | c :: cs, acc =>
    if c.isDigit then digits_value cs (acc * 10 + (c.toNat - 48)) else acc

/-- The function `atoi` of the C library where the number is in the range of
`int`: white space, a sign, decimal digits. -/
def c_atoi (s : List Char) : Int :=
  match s.dropWhile c_isspace with
  | '-' :: t => - (digits_value t 0 : Int)
  | '+' :: t => (digits_value t 0 : Int)
  | t => (digits_value t 0 : Int)

/-- A registry with a section of character devices that lists the major 1 and
a section of block devices that lists 8 `sd` and 9 `md`. -/
def registry : List Char :=
  "Character devices:\n  1 mem\n\nBlock devices:\n  8 sd\n  9 md\n".data

/-- The cache before `_scan_proc_dev`: no valid major yet. -/
def no_majors : dev_mgr := { empty_cache with dev_list := [] }

/-- The lines `ls` list the major `m` for a scan that meets them with
`blocksection` at `flag`: as `lists_major`, but a line that no line of leading
number zero precedes lies in a block section when `flag` is not zero. -/
def lists_major_from (atoi : List Char → Int) (flag : Int) (ls : List (List Char))
    (m : Int) : Prop :=
  ∃ before line after, ls = before ++ line :: after ∧
    leading_number atoi line = m ∧ m ≠ 0 ∧
    (in_block_section atoi before ∨
      (flag ≠ 0 ∧ ∀ x ∈ before, leading_number atoi x ≠ 0)) ∧
    has_listed_name line

/-- A registry whose line for the major 8 has 79 characters before its
newline. -/
def long_registry : List Char :=
  "Block devices:\n  8 sd".data ++ List.replicate 73 'x' ++ "\n  9 md\n".data

/-- A system where `/dev` holds the two nodes `a` and `c` of the block device
8:2. -/
def fs4 : world :=
  { stat := fun p =>
      if p = "/dev/a" then some (blk 2050) else if p = "/dev/c" then some (blk 2050) else none
    scandir := fun p => if p = "/dev" then some ["a", "c"] else none
    pool_alloc_ok := fun _ => true
    pool_strdup_ok := fun _ => true }

/-- The cache after `/dev/a` was discovered as 8:1, then again as 8:2, and
`/dev/c` was then discovered as 8:2. -/
def cache_aac : dev_mgr := discover fs4 cache_aa "/dev/c"

end DevMgr

/-! # Theorems -/

/-! ## C integers -/

theorem add_int_to_int (a c : Nat) :
    add_int a (to_int c) = (a + c) % U32 := by
  unfold add_int to_int U32
  split <;> omega

namespace LvManip

/-! ## Counting extents -/

theorem areas_total_append (xs ys : List pv_area) :
    areas_total (xs ++ ys) = areas_total xs + areas_total ys := by
  induction xs with
  | nil => simp [areas_total]
  | cons a tl ih => simp [areas_total, ih]; omega

theorem maps_total_append (xs ys : List pv_map) :
    maps_total (xs ++ ys) = maps_total xs + maps_total ys := by
  induction xs with
  | nil => simp [maps_total]
  | cons a tl ih => simp [maps_total, ih]; omega

theorem length_area_extents (pv : Nat) (a : pv_area) :
    (area_extents pv a).length = a.count := by
  simp [area_extents]

theorem length_areas_extents (pv : Nat) (areas : List pv_area) :
    (areas_extents pv areas).length = areas_total areas := by
  induction areas with
  | nil => simp [areas_extents, areas_total]
  | cons a tl ih => simp [areas_extents, areas_total, ih, length_area_extents]

theorem length_maps_extents (pvms : List pv_map) :
    (maps_extents pvms).length = maps_total pvms := by
  induction pvms with
  | nil => simp [maps_extents, maps_total]
  | cons a tl ih => simp [maps_extents, maps_total, ih, length_areas_extents]

theorem getElem?_area_extents (pv : Nat) (a : pv_area) (j : Nat) (hj : j < a.count) :
    (area_extents pv a)[j]? = some (pv, a.start + j) := by
  simp [area_extents, List.getElem?_map, List.getElem?_range hj]

/-! ## `fill_map` -/

theorem length_fill_map (index pv start n : Nat) (m : List pe_specifier) :
    (fill_map index pv start n m).length = m.length := by
  induction n with
  | zero => rfl
  | succ n ih => simp [fill_map, ih]

theorem getElem?_fill_map (index pv start : Nat) (m : List pe_specifier) (i : Nat) :
    ∀ n, index + n ≤ U32 →
      (fill_map index pv start n m)[i]? =
        if index ≤ i ∧ i < index + n ∧ i < m.length then
          some { pv := some pv, pe := (start + (i - index)) % U32 }
        else m[i]? := by
  intro n
  induction n with
  | zero =>
    intro _
    rw [if_neg (by omega)]
    rfl
  | succ n ih =>
    intro hn
    have hmod : (n + index) % U32 = n + index := Nat.mod_eq_of_lt (by omega)
    rw [fill_map, hmod, List.getElem?_set, ih (by omega), length_fill_map]
    by_cases h1 : n + index = i
    · subst h1
      rw [if_pos rfl]
      by_cases h2 : n + index < m.length
      · rw [if_pos h2, if_pos (by omega)]
        have : n + index - index = n := by omega
        rw [this]
      · rw [if_neg h2, if_neg (by omega)]
        symm
        rw [List.getElem?_eq_none_iff]; omega
    · rw [if_neg h1]
      by_cases h3 : index ≤ i ∧ i < index + n ∧ i < m.length
      · rw [if_pos h3, if_pos (by omega)]
      · rw [if_neg h3, if_neg (by omega)]

/-! ## `_alloc_area` -/

theorem alloc_area_eq (lv : logical_volume) (A pv : Nat) (a : pv_area)
    (hW : lv.le_count < U32) (hA : A ≤ lv.le_count) (hc : a.count < U32) :
    _alloc_area lv A pv a =
      { lv := lv_filled lv A pv a
        pva := (shrunk a (taken lv A a)).head?
        ret := to_int (taken lv A a) } := by
  have hrem : (lv.le_count + U32 - A) % U32 = lv.le_count - A := by
    unfold U32 at *; omega
  unfold _alloc_area shrunk lv_filled taken
  simp only [hrem]
  by_cases h : lv.le_count - A < a.count
  · have hk : min a.count (lv.le_count - A) = lv.le_count - A := by omega
    have hcnt : (a.count + U32 - (lv.le_count - A)) % U32 = a.count - (lv.le_count - A) := by
      unfold U32 at *; omega
    rw [if_pos h, hk, if_pos h, hcnt]
    rfl
  · have hk : min a.count (lv.le_count - A) = a.count := by omega
    rw [if_neg h, hk, if_neg (by omega)]
    rfl

theorem shrunk_head_toList (a : pv_area) (k : Nat) :
    (shrunk a k).head?.toList = shrunk a k := by
  unfold shrunk
  split <;> rfl

theorem alloc_simple_areas_cons (pv : Nat) (a : pv_area) (tl : List pv_area)
    (lv : logical_volume) (A : Nat)
    (hW : lv.le_count < U32) (hA : A ≤ lv.le_count) (hc : a.count < U32) :
    _alloc_simple_areas pv (a :: tl) lv A =
      if A + taken lv A a = lv.le_count then
        { lv := lv_filled lv A pv a, allocated := A + taken lv A a
          rest := shrunk a (taken lv A a) ++ tl }
      else
        { lv := (_alloc_simple_areas pv tl (lv_filled lv A pv a) (A + taken lv A a)).lv
          allocated :=
            (_alloc_simple_areas pv tl (lv_filled lv A pv a) (A + taken lv A a)).allocated
          rest := shrunk a (taken lv A a) ++
            (_alloc_simple_areas pv tl (lv_filled lv A pv a) (A + taken lv A a)).rest } := by
  have hk : taken lv A a ≤ lv.le_count - A := by unfold taken; omega
  have hA1 : add_int A (to_int (taken lv A a)) = A + taken lv A a := by
    rw [add_int_to_int]
    exact Nat.mod_eq_of_lt (by omega)
  rw [_alloc_simple_areas]
  simp only [alloc_area_eq lv A pv a hW hA hc, hA1, shrunk_head_toList]
  rfl

theorem getElem?_lv_filled (lv : logical_volume) (A pv : Nat) (a : pv_area) (i : Nat)
    (hW : lv.le_count < U32) (hA : A ≤ lv.le_count) (hlen : lv.map.length = lv.le_count) :
    (lv_filled lv A pv a).map[i]? =
      if A ≤ i ∧ i < A + taken lv A a then
        ((area_extents pv a)[i - A]?).map entry_of
      else lv.map[i]? := by
  have hk : taken lv A a ≤ lv.le_count - A ∧ taken lv A a ≤ a.count := by
    unfold taken; omega
  show (fill_map _ _ _ _ _)[i]? = _
  rw [getElem?_fill_map A pv a.start lv.map i _ (by omega)]
  by_cases h : A ≤ i ∧ i < A + taken lv A a
  · rw [if_pos (by omega), if_pos h, getElem?_area_extents pv a _ (by omega)]
    rfl
  · rw [if_neg (by omega), if_neg h]

/-! ## The inner loop of `_alloc_simple` -/

theorem alloc_simple_areas_spec (pv : Nat) :
    ∀ (areas : List pv_area) (lv : logical_volume) (A : Nat),
      lv.le_count < U32 → lv.map.length = lv.le_count → A < lv.le_count → areas_u32 areas →
      (_alloc_simple_areas pv areas lv A).lv =
          { lv with map := (_alloc_simple_areas pv areas lv A).lv.map } ∧
      (_alloc_simple_areas pv areas lv A).lv.map.length = lv.le_count ∧
      (_alloc_simple_areas pv areas lv A).allocated =
          min lv.le_count (A + areas_total areas) ∧
      (∀ i, i < A → (_alloc_simple_areas pv areas lv A).lv.map[i]? = lv.map[i]?) ∧
      (∀ i, A ≤ i → i < (_alloc_simple_areas pv areas lv A).allocated →
        (_alloc_simple_areas pv areas lv A).lv.map[i]? =
          ((areas_extents pv areas)[i - A]?).map entry_of) ∧
      areas_left lv.le_count A areas (_alloc_simple_areas pv areas lv A).rest := by
  intro areas
  induction areas with
  | nil =>
    intro lv A hW hlen hA _
    refine ⟨rfl, hlen, ?_, fun _ _ => rfl, ?_, Or.inl ⟨?_, rfl⟩⟩
    · simp only [_alloc_simple_areas, areas_total]; omega
    · intro i h1 h2
      simp only [_alloc_simple_areas] at h2
      omega
    · simp only [areas_total]; omega
  | cons a tl ih =>
    intro lv A hW hlen hA hu
    have hc : a.count < U32 := hu a (List.mem_cons_self _ _)
    have hutl : areas_u32 tl := fun x hx => hu x (List.mem_cons_of_mem _ hx)
    have hk : taken lv A a = min a.count (lv.le_count - A) := rfl
    have hfill := fun i => getElem?_lv_filled lv A pv a i hW (by omega) hlen
    have hflen : (lv_filled lv A pv a).map.length = lv.le_count := by
      show (fill_map _ _ _ _ _).length = _
      rw [length_fill_map, hlen]
    rw [alloc_simple_areas_cons pv a tl lv A hW (by omega) hc]
    by_cases hstop : A + taken lv A a = lv.le_count
    · rw [if_pos hstop]
      refine ⟨rfl, hflen, ?_, ?_, ?_, Or.inr ⟨[], a, tl, rfl, ?_, ?_, ?_⟩⟩
      · simp only [areas_total]; omega
      · intro i hi
        rw [hfill i, if_neg (by omega)]
      · intro i h1 h2
        simp only at h2
        rw [hfill i, if_pos (by omega), areas_extents,
          List.getElem?_append_left (by rw [length_area_extents]; omega)]
      · simp only [areas_total]; omega
      · simp only [areas_total]; omega
      · have : lv.le_count - (A + areas_total []) = taken lv A a := by
          simp only [areas_total]; omega
        rw [this]
    · rw [if_neg hstop]
      have hkk : taken lv A a = a.count := by omega
      obtain ⟨i1, i2, i3, i4, i5, i6⟩ := ih (lv_filled lv A pv a) (A + taken lv A a)
        hW hflen (show A + taken lv A a < lv.le_count by omega) hutl
      have hsh : shrunk a (taken lv A a) = [] := by
        unfold shrunk; rw [if_neg (by omega)]
      refine ⟨?_, i2, ?_, ?_, ?_, ?_⟩
      · show _ = { lv with map := _ }
        rw [i1]; rfl
      · show _ = min lv.le_count _
        rw [i3]
        show min lv.le_count _ = _
        simp only [areas_total]; omega
      · intro i hi
        show (_alloc_simple_areas pv tl _ _).lv.map[i]? = _
        rw [i4 i (by omega), hfill i, if_neg (by omega)]
      · intro i h1 h2
        show (_alloc_simple_areas pv tl _ _).lv.map[i]? = _
        by_cases hlt : i < A + taken lv A a
        · rw [i4 i hlt, hfill i, if_pos (by omega), areas_extents,
            List.getElem?_append_left (by rw [length_area_extents]; omega)]
        · rw [i5 i (by omega) h2, areas_extents,
            List.getElem?_append_right (by rw [length_area_extents]; omega),
            length_area_extents]
          have : i - (A + taken lv A a) = i - A - a.count := by omega
          rw [this]
      · show areas_left lv.le_count A (a :: tl) (shrunk a _ ++ _)
        rw [hsh, List.nil_append]
        rcases i6 with ⟨h1, h2⟩ | ⟨done, last, tail, h1, h2, h3, h4⟩
        · exact Or.inl ⟨by
            have : (lv_filled lv A pv a).le_count = lv.le_count := rfl
            simp only [areas_total]; omega, h2⟩
        · have e1 : (lv_filled lv A pv a).le_count = lv.le_count := rfl
          refine Or.inr ⟨a :: done, last, tail, by rw [h1]; rfl, ?_, ?_, ?_⟩
          · simp only [areas_total]; omega
          · simp only [areas_total]; omega
          · rw [h4]
            have : (lv_filled lv A pv a).le_count - (A + taken lv A a + areas_total done) =
                lv.le_count - (A + areas_total (a :: done)) := by
              simp only [areas_total]; omega
            rw [this]

/-! ## The outer loop of `_alloc_simple` -/

theorem alloc_simple_maps_spec :
    ∀ (pvms : List pv_map) (lv : logical_volume) (A : Nat),
      lv.le_count < U32 → lv.map.length = lv.le_count → A < lv.le_count → maps_u32 pvms →
      (_alloc_simple_maps pvms lv A).lv =
          { lv with map := (_alloc_simple_maps pvms lv A).lv.map } ∧
      (_alloc_simple_maps pvms lv A).lv.map.length = lv.le_count ∧
      (_alloc_simple_maps pvms lv A).allocated = min lv.le_count (A + maps_total pvms) ∧
      (∀ i, i < A → (_alloc_simple_maps pvms lv A).lv.map[i]? = lv.map[i]?) ∧
      (∀ i, A ≤ i → i < (_alloc_simple_maps pvms lv A).allocated →
        (_alloc_simple_maps pvms lv A).lv.map[i]? =
          ((maps_extents pvms)[i - A]?).map entry_of) ∧
      maps_left lv.le_count A pvms (_alloc_simple_maps pvms lv A).rest := by
  intro pvms
  induction pvms with
  | nil =>
    intro lv A hW hlen hA _
    refine ⟨rfl, hlen, ?_, fun _ _ => rfl, ?_, Or.inl ⟨?_, rfl⟩⟩
    · simp only [_alloc_simple_maps, maps_total]; omega
    · intro i h1 h2
      simp only [_alloc_simple_maps] at h2
      omega
    · simp only [maps_total]; omega
  | cons m tl ih =>
    intro lv A hW hlen hA hu
    have hum : areas_u32 m.areas := hu m (List.mem_cons_self _ _)
    have hutl : maps_u32 tl := fun x hx => hu x (List.mem_cons_of_mem _ hx)
    obtain ⟨a1, a2, a3, a4, a5, a6⟩ :=
      alloc_simple_areas_spec m.pv m.areas lv A hW hlen hA hum
    have hle : (_alloc_simple_areas m.pv m.areas lv A).lv.le_count = lv.le_count := by
      rw [a1]
    rw [_alloc_simple_maps]
    simp only [hle]
    by_cases hstop : (_alloc_simple_areas m.pv m.areas lv A).allocated = lv.le_count
    · rw [if_pos hstop]
      refine ⟨a1, a2, ?_, a4, ?_, ?_⟩
      · show (_alloc_simple_areas m.pv m.areas lv A).allocated = _
        rw [hstop]
        simp only [maps_total]; omega
      · intro i h1 h2
        show (_alloc_simple_areas m.pv m.areas lv A).lv.map[i]? = _
        have h2' : i < (_alloc_simple_areas m.pv m.areas lv A).allocated := h2
        rw [a5 i h1 h2', maps_extents,
          List.getElem?_append_left (by rw [length_areas_extents]; omega)]
      · rcases a6 with ⟨h1, _⟩ | ⟨done, last, tail, h1, h2, h3, h4⟩
        · omega
        · refine Or.inr ⟨[], m, tl, done, last, tail, rfl, h1, ?_, ?_, ?_⟩
          · simp only [maps_total]; omega
          · simp only [maps_total]; omega
          · show _ :: tl = _
            rw [h4]
            simp only [maps_total, List.map_nil, List.nil_append, Nat.add_zero]
    · rw [if_neg hstop]
      have hall : (_alloc_simple_areas m.pv m.areas lv A).allocated =
          A + areas_total m.areas := by omega
      have hrest : (_alloc_simple_areas m.pv m.areas lv A).rest = [] := by
        rcases a6 with ⟨_, h2⟩ | ⟨done, last, tail, h1, h2, h3, h4⟩
        · exact h2
        · have := areas_total_append done (last :: tail)
          rw [← h1] at this
          simp only [areas_total] at this
          omega
      obtain ⟨i1, i2, i3, i4, i5, i6⟩ := ih (_alloc_simple_areas m.pv m.areas lv A).lv
        (_alloc_simple_areas m.pv m.areas lv A).allocated
        (by rw [hle]; exact hW) (by rw [hle]; exact a2) (by rw [hle]; omega) hutl
      rw [hle] at i2 i3 i6
      refine ⟨?_, i2, ?_, ?_, ?_, ?_⟩
      · show (_alloc_simple_maps tl _ _).lv = _
        rw [i1, a1]
      · show (_alloc_simple_maps tl _ _).allocated = _
        rw [i3]
        simp only [maps_total]; omega
      · intro i hi
        show (_alloc_simple_maps tl _ _).lv.map[i]? = _
        rw [i4 i (by omega), a4 i hi]
      · intro i h1 h2
        show (_alloc_simple_maps tl _ _).lv.map[i]? = _
        have h2' : i < (_alloc_simple_maps tl (_alloc_simple_areas m.pv m.areas lv A).lv
          (_alloc_simple_areas m.pv m.areas lv A).allocated).allocated := h2
        by_cases hlt : i < (_alloc_simple_areas m.pv m.areas lv A).allocated
        · rw [i4 i hlt, a5 i h1 hlt, maps_extents,
            List.getElem?_append_left (by rw [length_areas_extents]; omega)]
        · rw [i5 i (by omega) h2', maps_extents,
            List.getElem?_append_right (by rw [length_areas_extents]; omega),
            length_areas_extents, hall]
          have : i - (A + areas_total m.areas) = i - A - areas_total m.areas := by omega
          rw [this]
      · show maps_left lv.le_count A (m :: tl) (_ :: _)
        rw [hrest]
        rcases i6 with ⟨h1, h2⟩ | ⟨pre, m1, post, done, last, tail, h1, h2, h3, h4, h5⟩
        · refine Or.inl ⟨by simp only [maps_total]; omega, ?_⟩
          rw [h2]; rfl
        · refine Or.inr ⟨m :: pre, m1, post, done, last, tail, by rw [h1]; rfl, h2, ?_, ?_, ?_⟩
          · simp only [maps_total]; omega
          · simp only [maps_total]; omega
          · rw [h5, hall]
            have : lv.le_count - (A + areas_total m.areas + maps_total pre + areas_total done) =
                lv.le_count - (A + maps_total (m :: pre) + areas_total done) := by
              simp only [maps_total]; omega
            rw [this]
            rfl

/-! ## `_alloc_simple` -/

theorem alloc_simple_spec (lv : logical_volume) (pvms : List pv_map)
    (hW : lv.le_count < U32) (h0 : 0 < lv.le_count) (hlen : lv.map.length = lv.le_count)
    (hu : maps_u32 pvms) :
    (_alloc_simple lv pvms).lv = { lv with map := (_alloc_simple lv pvms).lv.map } ∧
    (_alloc_simple lv pvms).lv.map.length = lv.le_count ∧
    ((_alloc_simple lv pvms).r = 1 ∧ (_alloc_simple lv pvms).log = [] ∧
        lv.le_count ≤ maps_total pvms ∨
      (_alloc_simple lv pvms).r = 0 ∧
        (_alloc_simple lv pvms).log = [log_msg.insufficient_free_extents_to_allocate] ∧
        maps_total pvms < lv.le_count) ∧
    (∀ i, i < min lv.le_count (maps_total pvms) →
      (_alloc_simple lv pvms).lv.map[i]? = ((maps_extents pvms)[i]?).map entry_of) ∧
    maps_left lv.le_count 0 pvms (_alloc_simple lv pvms).pvms := by
  obtain ⟨a1, a2, a3, _, a5, a6⟩ := alloc_simple_maps_spec pvms lv 0 hW hlen h0 hu
  have hle : (_alloc_simple_maps pvms lv 0).lv.le_count = lv.le_count := by rw [a1]
  rw [Nat.zero_add] at a3
  unfold _alloc_simple
  simp only [hle]
  by_cases hs : (_alloc_simple_maps pvms lv 0).allocated = lv.le_count
  · rw [if_neg (by simpa using hs)]
    refine ⟨a1, a2, Or.inl ⟨rfl, rfl, by omega⟩, ?_, a6⟩
    intro i hi
    have := a5 i (Nat.zero_le _) (by omega)
    simpa using this
  · rw [if_pos hs]
    refine ⟨a1, a2, Or.inr ⟨rfl, rfl, by omega⟩, ?_, a6⟩
    intro i hi
    have := a5 i (Nat.zero_le _) (by omega)
    simpa using this

/-! ## `lv_create` -/

theorem new_lv_le_count (name : String) (status stripes extents : Nat) (vg : volume_group) :
    (new_lv name status stripes extents vg).le_count = extents := rfl

theorem new_lv_map_length (name : String) (status stripes extents : Nat) (vg : volume_group) :
    (new_lv name status stripes extents vg).map.length = extents := by
  simp [new_lv]

/-- The call up to the choice of the policy, when nothing stops it earlier. -/
theorem lv_create_reaches (e : env) (name : String) (status stripes stripe_size extents : Nat)
    (vg : volume_group) (pvms : List pv_map)
    (hp : pools_ok e) (hc : passes_checks extents vg) (hm : e.pv_maps = some pvms) :
    lv_create e name status stripes stripe_size extents vg =
      if (alloc_by_policy e status stripes (new_lv name status stripes extents vg) pvms).r = 0
      then
        { lv := none, vg := vg
          pvms := some
            (alloc_by_policy e status stripes (new_lv name status stripes extents vg) pvms).pvms
          log :=
            (alloc_by_policy e status stripes (new_lv name status stripes extents vg) pvms).log
              ++ [log_msg.extent_allocation_failed] }
      else
        { lv := some
            (alloc_by_policy e status stripes (new_lv name status stripes extents vg) pvms).lv
          vg := { vg with
            lvs := vg.lvs ++
              [(alloc_by_policy e status stripes (new_lv name status stripes extents vg) pvms).lv]
            lv_count := vg.lv_count + 1
            free_count := vg.free_count - extents }
          pvms := some
            (alloc_by_policy e status stripes (new_lv name status stripes extents vg) pvms).pvms
          log :=
            (alloc_by_policy e status stripes (new_lv name status stripes extents vg) pvms).log }
    := by
  obtain ⟨p1, p2, p3, p4⟩ := hp
  obtain ⟨c1, c2, c3⟩ := hc
  unfold lv_create
  simp only [p1, p2, p3, p4, hm, c1, c3, Nat.not_lt.mpr c2, not_true_eq_false, if_false]

/-- A call stopped before the choice of the policy returns `NULL` and has
built no area map. -/
theorem lv_create_stopped (e : env) (name : String) (status stripes stripe_size extents : Nat)
    (vg : volume_group)
    (h : ¬ (pools_ok e ∧ passes_checks extents vg ∧ e.pv_maps ≠ none)) :
    (lv_create e name status stripes stripe_size extents vg).lv = none ∧
      (lv_create e name status stripes stripe_size extents vg).pvms = none ∧
      (lv_create e name status stripes stripe_size extents vg).vg = vg := by
  unfold lv_create
  repeat' split
  all_goals first
    | exact ⟨rfl, rfl, rfl⟩
    | (exfalso
       apply h
       unfold pools_ok passes_checks
       simp_all)

/-- A failing call leaves the volume group as it was. -/
theorem lv_create_none_vg (e : env) (name : String) (status stripes stripe_size extents : Nat)
    (vg : volume_group)
    (h : (lv_create e name status stripes stripe_size extents vg).lv = none) :
    (lv_create e name status stripes stripe_size extents vg).vg = vg := by
  by_cases hr : pools_ok e ∧ passes_checks extents vg ∧ e.pv_maps ≠ none
  · obtain ⟨hp, hc, hm⟩ := hr
    obtain ⟨pvms, hm⟩ := Option.ne_none_iff_exists'.mp hm
    rw [lv_create_reaches e name status stripes stripe_size extents vg pvms hp hc hm] at h ⊢
    by_cases h0 : (alloc_by_policy e status stripes
        (new_lv name status stripes extents vg) pvms).r = 0
    · rw [if_pos h0]
    · rw [if_neg h0] at h
      simp at h
  · exact (lv_create_stopped e name status stripes stripe_size extents vg hr).2.2

/-- A call that returns a volume has passed every check and every pool request,
and the volume is the one the chosen policy filled. -/
theorem lv_create_some (e : env) (name : String) (status stripes stripe_size extents : Nat)
    (vg : volume_group) (lv : logical_volume)
    (h : (lv_create e name status stripes stripe_size extents vg).lv = some lv) :
    pools_ok e ∧ passes_checks extents vg ∧ ∃ pvms, e.pv_maps = some pvms ∧
      (alloc_by_policy e status stripes (new_lv name status stripes extents vg) pvms).r ≠ 0 ∧
      lv = (alloc_by_policy e status stripes (new_lv name status stripes extents vg) pvms).lv
    := by
  by_cases hr : pools_ok e ∧ passes_checks extents vg ∧ e.pv_maps ≠ none
  · obtain ⟨hp, hc, hm⟩ := hr
    obtain ⟨pvms, hm⟩ := Option.ne_none_iff_exists'.mp hm
    refine ⟨hp, hc, pvms, hm, ?_⟩
    rw [lv_create_reaches e name status stripes stripe_size extents vg pvms hp hc hm] at h
    by_cases h0 : (alloc_by_policy e status stripes
        (new_lv name status stripes extents vg) pvms).r = 0
    · rw [if_pos h0] at h
      simp at h
    · rw [if_neg h0] at h
      simp only [Option.some.injEq] at h
      exact ⟨h0, h.symm⟩
  · have := (lv_create_stopped e name status stripes stripe_size extents vg hr).1
    rw [this] at h
    simp at h

theorem alloc_by_policy_r (e : env) (status stripes : Nat) (lv : logical_volume)
    (pvms : List pv_map) (h : (alloc_by_policy e status stripes lv pvms).r ≠ 0) :
    stripes ≤ 1 ∧ status &&& e.ALLOC_CONTIGUOUS = 0 ∧
      alloc_by_policy e status stripes lv pvms = _alloc_simple lv pvms := by
  revert h
  unfold alloc_by_policy
  by_cases h1 : stripes > 1
  · simp [h1, _alloc_striped]
  · by_cases h2 : status &&& e.ALLOC_CONTIGUOUS ≠ 0
    · simp [h1, h2, _alloc_contiguous]
    · intro _
      rw [if_neg h1, if_neg h2]
      exact ⟨by omega, by simpa using h2, rfl⟩

theorem alloc_by_policy_simple (e : env) (status stripes : Nat) (lv : logical_volume)
    (pvms : List pv_map) (h1 : stripes ≤ 1) (h2 : status &&& e.ALLOC_CONTIGUOUS = 0) :
    alloc_by_policy e status stripes lv pvms = _alloc_simple lv pvms := by
  unfold alloc_by_policy
  rw [if_neg (by omega), if_neg (by simpa using h2)]

theorem mem_areas_extents (pv : Nat) (p : Nat × Nat) :
    ∀ areas : List pv_area, p ∈ areas_extents pv areas →
      ∃ a ∈ areas, ∃ j, j < a.count ∧ p = (pv, a.start + j) := by
  intro areas
  induction areas with
  | nil => intro h; simp [areas_extents] at h
  | cons a tl ih =>
    intro h
    rw [areas_extents, List.mem_append] at h
    rcases h with h | h
    · simp only [area_extents, List.mem_map, List.mem_range] at h
      obtain ⟨j, hj, rfl⟩ := h
      exact ⟨a, List.mem_cons_self _ _, j, hj, rfl⟩
    · obtain ⟨b, hb, j, hj, hp⟩ := ih h
      exact ⟨b, List.mem_cons_of_mem _ hb, j, hj, hp⟩

theorem mem_maps_extents (p : Nat × Nat) :
    ∀ pvms : List pv_map, p ∈ maps_extents pvms →
      ∃ m ∈ pvms, ∃ a ∈ m.areas, ∃ j, j < a.count ∧ p = (m.pv, a.start + j) := by
  intro pvms
  induction pvms with
  | nil => intro h; simp [maps_extents] at h
  | cons m tl ih =>
    intro h
    rw [maps_extents, List.mem_append] at h
    rcases h with h | h
    · obtain ⟨a, ha, j, hj, hp⟩ := mem_areas_extents m.pv p m.areas h
      exact ⟨m, List.mem_cons_self _ _, a, ha, j, hj, hp⟩
    · obtain ⟨m1, hm1, a, ha, j, hj, hp⟩ := ih h
      exact ⟨m1, List.mem_cons_of_mem _ hm1, a, ha, j, hj, hp⟩

/-- A successful call: the policy was Simple, all of the requested extents were
found, and the volume and the area maps are those `_alloc_simple` leaves. -/
theorem lv_create_some_simple (e : env) (name : String)
    (status stripes stripe_size extents : Nat) (vg : volume_group) (lv : logical_volume)
    (pvms : List pv_map) (h32 : extents < U32) (hu : maps_u32 pvms)
    (hm : e.pv_maps = some pvms)
    (h : (lv_create e name status stripes stripe_size extents vg).lv = some lv) :
    pools_ok e ∧ passes_checks extents vg ∧ stripes ≤ 1 ∧ status &&& e.ALLOC_CONTIGUOUS = 0 ∧
    extents ≤ maps_total pvms ∧
    lv = (_alloc_simple (new_lv name status stripes extents vg) pvms).lv ∧
    lv_create e name status stripes stripe_size extents vg =
      { lv := some lv
        vg := { vg with lvs := vg.lvs ++ [lv], lv_count := vg.lv_count + 1
                        free_count := vg.free_count - extents }
        pvms := some (_alloc_simple (new_lv name status stripes extents vg) pvms).pvms
        log := [] } := by
  obtain ⟨hp, hc, pvms1, hm1, hr, hlv⟩ :=
    lv_create_some e name status stripes stripe_size extents vg lv h
  rw [hm] at hm1
  cases hm1
  obtain ⟨s1, s2, s3⟩ := alloc_by_policy_r e status stripes _ pvms hr
  obtain ⟨_, _, a3, _, _⟩ := alloc_simple_spec (new_lv name status stripes extents vg) pvms
    h32 (Nat.pos_of_ne_zero hc.1) (new_lv_map_length _ _ _ _ _) hu
  rw [s3] at hr hlv
  have hlog : (_alloc_simple (new_lv name status stripes extents vg) pvms).log = [] ∧
      extents ≤ maps_total pvms := by
    rcases a3 with ⟨_, h2, h3⟩ | ⟨h1, _, _⟩
    · exact ⟨h2, h3⟩
    · exact absurd h1 hr
  refine ⟨hp, hc, s1, s2, hlog.2, hlv, ?_⟩
  rw [lv_create_reaches e name status stripes stripe_size extents vg pvms hp hc hm, s3,
    if_neg hr, hlog.1, ← hlv]

/-! ## C1 -/

/-- C1. For every call of `lv_create` (`extents` a `uint32_t`, the areas with
32-bit counts): when it fails, the volume group, and with it `lv_count`,
`free_count` and the list of volumes, is unchanged; when it succeeds, `lv_count`
has grown by exactly 1, `free_count` has shrunk by exactly `extents`, exactly
the returned volume has been added to the list of volumes, and its map has
`extents` entries, each of them written by the allocator: entry `i` names a
physical volume of the area maps and an extent of one of its areas. -/
theorem lv_create_accounting (e : env) (name : String)
    (status stripes stripe_size extents : Nat) (vg : volume_group)
    (h32 : extents < U32) (hu : ∀ pvms, e.pv_maps = some pvms → maps_u32 pvms) :
    ((lv_create e name status stripes stripe_size extents vg).lv = none →
      (lv_create e name status stripes stripe_size extents vg).vg = vg) ∧
    ∀ lv, (lv_create e name status stripes stripe_size extents vg).lv = some lv →
      (lv_create e name status stripes stripe_size extents vg).vg.lv_count
        = vg.lv_count + 1 ∧
      (lv_create e name status stripes stripe_size extents vg).vg.free_count + extents
        = vg.free_count ∧
      (lv_create e name status stripes stripe_size extents vg).vg.lvs = vg.lvs ++ [lv] ∧
      lv.le_count = extents ∧ lv.map.length = extents ∧
      ∃ pvms, e.pv_maps = some pvms ∧
        ∀ i, i < extents → ∃ m ∈ pvms, ∃ a ∈ m.areas, ∃ j, j < a.count ∧
          lv.map[i]? = some { pv := some m.pv, pe := (a.start + j) % U32 } := by
  refine ⟨lv_create_none_vg e name status stripes stripe_size extents vg, ?_⟩
  intro lv h
  obtain ⟨_, _, pvms, hm, _, _⟩ :=
    lv_create_some e name status stripes stripe_size extents vg lv h
  have hu1 := hu pvms hm
  obtain ⟨_, hc, _, _, hcap, hlv, heq⟩ :=
    lv_create_some_simple e name status stripes stripe_size extents vg lv pvms h32 hu1 hm h
  obtain ⟨a1, a2, _, a4, _⟩ := alloc_simple_spec (new_lv name status stripes extents vg) pvms
    h32 (Nat.pos_of_ne_zero hc.1) (new_lv_map_length _ _ _ _ _) hu1
  rw [← hlv] at a1 a2 a4
  rw [heq]
  refine ⟨rfl, ?_, rfl, ?_, a2, pvms, hm, ?_⟩
  · show vg.free_count - extents + extents = vg.free_count
    have := hc.2.1
    omega
  · rw [a1]; rfl
  · intro i hi
    have hi2 : i < (maps_extents pvms).length := by
      rw [length_maps_extents]; omega
    have hget : (maps_extents pvms)[i]? = some (maps_extents pvms)[i] :=
      List.getElem?_eq_getElem hi2
    obtain ⟨m, hmm, a, ha, j, hj, hp⟩ :=
      mem_maps_extents _ pvms (List.getElem_mem hi2)
    refine ⟨m, hmm, a, ha, j, hj, ?_⟩
    rw [a4 i (by rw [new_lv_le_count]; omega), hget, hp]
    rfl

/-- C1 at the spec's example: four extents from the single area
`(start = 0, count = 10)`. -/
theorem lv_create_accounting_example :
    (lv_create (env_with one_area) "lv" 0 1 0 4 (vg_with 100 8 0)).lv = some four_extents_lv ∧
    (((lv_create (env_with one_area) "lv" 0 1 0 4 (vg_with 100 8 0)).lv = none →
      (lv_create (env_with one_area) "lv" 0 1 0 4 (vg_with 100 8 0)).vg = vg_with 100 8 0) ∧
    ∀ lv, (lv_create (env_with one_area) "lv" 0 1 0 4 (vg_with 100 8 0)).lv = some lv →
      (lv_create (env_with one_area) "lv" 0 1 0 4 (vg_with 100 8 0)).vg.lv_count
        = (vg_with 100 8 0).lv_count + 1 ∧
      (lv_create (env_with one_area) "lv" 0 1 0 4 (vg_with 100 8 0)).vg.free_count + 4
        = (vg_with 100 8 0).free_count ∧
      (lv_create (env_with one_area) "lv" 0 1 0 4 (vg_with 100 8 0)).vg.lvs
        = (vg_with 100 8 0).lvs ++ [lv] ∧
      lv.le_count = 4 ∧ lv.map.length = 4 ∧
      ∃ pvms, (env_with one_area).pv_maps = some pvms ∧
        ∀ i, i < 4 → ∃ m ∈ pvms, ∃ a ∈ m.areas, ∃ j, j < a.count ∧
          lv.map[i]? = some { pv := some m.pv, pe := (a.start + j) % U32 }) :=
  ⟨by decide,
   lv_create_accounting (env_with one_area) "lv" 0 1 0 4 (vg_with 100 8 0)
    (by unfold U32; decide)
    (by
      intro pvms h
      have : pvms = one_area := by
        simp only [env_with, Option.some.injEq] at h
        exact h.symm
      subst this
      unfold maps_u32 areas_u32 one_area U32
      decide)⟩

/-! ## C2 -/

/-- C2. For every successful `lv_create` the policy was Simple (`stripes <= 1`,
contiguous bit clear), and for every `i < extents` map entry `i` of the returned
volume is the `i`-th element of the sequence that lists, map by map in list
order and area by area in list order, the physical extents `(pv, start)`,
`(pv, start + 1)`, ..., `(pv, start + count - 1)` of each area.  The extent
number is stored in 32 bits; when no area reaches past the last 32-bit extent
number it is the listed number itself. -/
theorem lv_create_simple_map (e : env) (name : String)
    (status stripes stripe_size extents : Nat) (vg : volume_group) (lv : logical_volume)
    (pvms : List pv_map) (h32 : extents < U32) (hu : maps_u32 pvms)
    (hm : e.pv_maps = some pvms)
    (h : (lv_create e name status stripes stripe_size extents vg).lv = some lv) :
    stripes ≤ 1 ∧ status &&& e.ALLOC_CONTIGUOUS = 0 ∧
    ∀ i, i < extents → ∃ p, (maps_extents pvms)[i]? = some p ∧
      lv.map[i]? = some { pv := some p.1, pe := p.2 % U32 } ∧
      (maps_in_range pvms → lv.map[i]? = some { pv := some p.1, pe := p.2 }) := by
  obtain ⟨_, hc, s1, s2, hcap, hlv, _⟩ :=
    lv_create_some_simple e name status stripes stripe_size extents vg lv pvms h32 hu hm h
  obtain ⟨_, _, _, a4, _⟩ := alloc_simple_spec (new_lv name status stripes extents vg) pvms
    h32 (Nat.pos_of_ne_zero hc.1) (new_lv_map_length _ _ _ _ _) hu
  rw [← hlv] at a4
  refine ⟨s1, s2, ?_⟩
  intro i hi
  have hi2 : i < (maps_extents pvms).length := by
    rw [length_maps_extents]; omega
  have hget : (maps_extents pvms)[i]? = some (maps_extents pvms)[i] :=
    List.getElem?_eq_getElem hi2
  have hent : lv.map[i]? = some (entry_of (maps_extents pvms)[i]) := by
    rw [a4 i (by rw [new_lv_le_count]; omega), hget]
    rfl
  refine ⟨(maps_extents pvms)[i], hget, hent, ?_⟩
  intro hr
  obtain ⟨m, hmm, a, ha, j, hj, hp⟩ := mem_maps_extents _ pvms (List.getElem_mem hi2)
  have hlt : ((maps_extents pvms)[i]).2 < U32 := by
    rw [hp]
    have := hr m hmm a ha
    show a.start + j < U32
    omega
  rw [hent, entry_of, Nat.mod_eq_of_lt hlt]

/-- C2 at the spec's example: one physical volume holding the single area
`(start = 0, count = 10)` and `extents = 4` give the map entries 0, 1, 2, 3 of
that volume. -/
theorem lv_create_simple_map_example :
    maps_extents one_area =
      [(7, 0), (7, 1), (7, 2), (7, 3), (7, 4), (7, 5), (7, 6), (7, 7), (7, 8), (7, 9)] ∧
    four_extents_lv.map =
      [{ pv := some 7, pe := 0 }, { pv := some 7, pe := 1 },
       { pv := some 7, pe := 2 }, { pv := some 7, pe := 3 }] ∧
    ((1 : Nat) ≤ 1 ∧ 0 &&& (env_with one_area).ALLOC_CONTIGUOUS = 0 ∧
      ∀ i, i < 4 → ∃ p, (maps_extents one_area)[i]? = some p ∧
        four_extents_lv.map[i]? = some { pv := some p.1, pe := p.2 % U32 } ∧
        (maps_in_range one_area → four_extents_lv.map[i]? = some { pv := some p.1, pe := p.2 })) :=
  ⟨by decide, rfl,
   lv_create_simple_map (env_with one_area) "lv" 0 1 0 4 (vg_with 100 8 0) four_extents_lv
    one_area (by unfold U32; decide) (by unfold maps_u32 areas_u32 one_area U32; decide)
    rfl (by decide)⟩

/-! ## C3 -/

/-- C3. After every successful `lv_create` (the policy was Simple) the area
lists are the input lists with the allocated front removed: the loops stopped in
an area `last` of a map `m`; every map before `m` has lost all its areas, every
area of `m` before `last` is unlinked, and `k` extents were taken from `last`,
`k` being what was still needed.  If `k < last.count` the area `last` has become
`(start + k, count - k)` (the start in 32 bits, which is `start + k` itself when
the area does not reach past the last 32-bit extent number); if `k` is the whole
of `last` the area is unlinked, not left with a zero count.  The areas of `m`
after `last` and the maps after `m` are unchanged. -/
theorem lv_create_simple_areas (e : env) (name : String)
    (status stripes stripe_size extents : Nat) (vg : volume_group) (lv : logical_volume)
    (pvms : List pv_map) (h32 : extents < U32) (hu : maps_u32 pvms)
    (hm : e.pv_maps = some pvms)
    (h : (lv_create e name status stripes stripe_size extents vg).lv = some lv) :
    ∃ pre m post done last tail k,
      pvms = pre ++ m :: post ∧ m.areas = done ++ last :: tail ∧
      maps_total pre + areas_total done + k = extents ∧ 0 < k ∧ k ≤ last.count ∧
      (lv_create e name status stripes stripe_size extents vg).pvms =
        some (pre.map emptied ++
          { pv := m.pv
            areas := (if k < last.count then
                [{ start := (last.start + k) % U32, count := last.count - k }]
              else []) ++ tail } :: post) ∧
      (k < last.count → last.start + last.count ≤ U32 →
        (last.start + k) % U32 = last.start + k) := by
  obtain ⟨_, hc, _, _, hcap, _, heq⟩ :=
    lv_create_some_simple e name status stripes stripe_size extents vg lv pvms h32 hu hm h
  obtain ⟨_, _, _, _, a5⟩ := alloc_simple_spec (new_lv name status stripes extents vg) pvms
    h32 (Nat.pos_of_ne_zero hc.1) (new_lv_map_length _ _ _ _ _) hu
  rw [new_lv_le_count] at a5
  rcases a5 with ⟨h1, _⟩ | ⟨pre, m, post, done, last, tail, h1, h2, h3, h4, h5⟩
  · omega
  · refine ⟨pre, m, post, done, last, tail, extents - (0 + maps_total pre + areas_total done),
      h1, h2, by omega, by omega, by omega, ?_, ?_⟩
    · rw [heq, h5]
      rfl
    · intro hk hr
      exact Nat.mod_eq_of_lt (by omega)

/-- C3 at the spec's example: the single area `(start = 0, count = 10)` with
`extents = 4` becomes `(start = 4, count = 6)`. -/
theorem lv_create_simple_areas_example :
    (lv_create (env_with one_area) "lv" 0 1 0 4 (vg_with 100 8 0)).pvms =
      some [{ pv := 7, areas := [{ start := 4, count := 6 }] }] ∧
    (lv_create (env_with [{ pv := 7, areas := [{ start := 0, count := 4 }] }]) "lv" 0 1 0 4
      (vg_with 100 8 0)).pvms = some [{ pv := 7, areas := [] }] ∧
    ∃ pre m post done last tail k,
      one_area = pre ++ m :: post ∧ m.areas = done ++ last :: tail ∧
      maps_total pre + areas_total done + k = 4 ∧ 0 < k ∧ k ≤ last.count ∧
      (lv_create (env_with one_area) "lv" 0 1 0 4 (vg_with 100 8 0)).pvms =
        some (pre.map emptied ++
          { pv := m.pv
            areas := (if k < last.count then
                [{ start := (last.start + k) % U32, count := last.count - k }]
              else []) ++ tail } :: post) ∧
      (k < last.count → last.start + last.count ≤ U32 →
        (last.start + k) % U32 = last.start + k) :=
  ⟨by decide, by decide,
   lv_create_simple_areas (env_with one_area) "lv" 0 1 0 4 (vg_with 100 8 0) four_extents_lv
    one_area (by unfold U32; decide) (by unfold maps_u32 areas_u32 one_area U32; decide)
    rfl (by decide)⟩

/-! ## C4 -/

/-- C4. For every call that passes the three checks, whose pool requests and
area-map construction succeed and that selects the Simple policy (`stripes <= 1`,
contiguous bit clear), `lv_create` succeeds if and only if the sum of `count`
over all areas of all maps is at least `extents`; when the sum is smaller the
call fails with the insufficient-space outcome (CapacityError), although
`vg.free_count >= extents`, and leaves `vg.lv_count` and `vg.free_count`
unchanged. -/
theorem lv_create_simple_iff_capacity (e : env) (name : String)
    (status stripes stripe_size extents : Nat) (vg : volume_group) (pvms : List pv_map)
    (h32 : extents < U32) (hu : maps_u32 pvms)
    (hp : pools_ok e) (hc : passes_checks extents vg) (hm : e.pv_maps = some pvms)
    (hs : stripes ≤ 1) (hb : status &&& e.ALLOC_CONTIGUOUS = 0) :
    ((lv_create e name status stripes stripe_size extents vg).lv ≠ none ↔
      extents ≤ maps_total pvms) ∧
    (maps_total pvms < extents →
      fails_with (lv_create e name status stripes stripe_size extents vg)
        failure_kind.CapacityError ∧
      (lv_create e name status stripes stripe_size extents vg).log =
        [log_msg.insufficient_free_extents_to_allocate, log_msg.extent_allocation_failed] ∧
      extents ≤ vg.free_count ∧
      (lv_create e name status stripes stripe_size extents vg).vg.lv_count = vg.lv_count ∧
      (lv_create e name status stripes stripe_size extents vg).vg.free_count
        = vg.free_count) := by
  obtain ⟨_, _, a3, _, _⟩ := alloc_simple_spec (new_lv name status stripes extents vg) pvms
    h32 (Nat.pos_of_ne_zero hc.1) (new_lv_map_length _ _ _ _ _) hu
  rw [new_lv_le_count] at a3
  rw [lv_create_reaches e name status stripes stripe_size extents vg pvms hp hc hm,
    alloc_by_policy_simple e status stripes _ pvms hs hb]
  rcases a3 with ⟨h1, _, h3⟩ | ⟨h1, h2, h3⟩
  · rw [if_neg (by omega)]
    exact ⟨⟨fun _ => h3, fun _ => by simp⟩, fun hlt => by omega⟩
  · rw [if_pos h1, h2]
    refine ⟨⟨fun hne => absurd rfl hne, fun hle => by omega⟩, fun _ => ?_⟩
    exact ⟨⟨rfl, rfl⟩, rfl, hc.2.1, rfl, rfl⟩

/-- C4 on a volume group that counts 100 free extents while the one area map
holds 10: asking for 11 extents fails, asking for 4 succeeds. -/
theorem lv_create_simple_iff_capacity_example :
    (lv_create (env_with one_area) "lv" 0 1 0 4 (vg_with 100 8 0)).lv ≠ none ∧
    (lv_create (env_with one_area) "lv" 0 1 0 11 (vg_with 100 8 0)).lv = none ∧
    (((lv_create (env_with one_area) "lv" 0 1 0 11 (vg_with 100 8 0)).lv ≠ none ↔
      11 ≤ maps_total one_area) ∧
    (maps_total one_area < 11 →
      fails_with (lv_create (env_with one_area) "lv" 0 1 0 11 (vg_with 100 8 0))
        failure_kind.CapacityError ∧
      (lv_create (env_with one_area) "lv" 0 1 0 11 (vg_with 100 8 0)).log =
        [log_msg.insufficient_free_extents_to_allocate, log_msg.extent_allocation_failed] ∧
      11 ≤ (vg_with 100 8 0).free_count ∧
      (lv_create (env_with one_area) "lv" 0 1 0 11 (vg_with 100 8 0)).vg.lv_count
        = (vg_with 100 8 0).lv_count ∧
      (lv_create (env_with one_area) "lv" 0 1 0 11 (vg_with 100 8 0)).vg.free_count
        = (vg_with 100 8 0).free_count)) :=
  ⟨by decide, by decide,
   lv_create_simple_iff_capacity (env_with one_area) "lv" 0 1 0 11 (vg_with 100 8 0) one_area
    (by unfold U32; decide) (by unfold maps_u32 areas_u32 one_area U32; decide)
    (by unfold pools_ok env_with; decide) (by unfold passes_checks vg_with; decide)
    rfl (by decide) (by decide)⟩

/-! ## C5, C6, C7 -/

/-- The messages `_alloc_simple` can have logged. -/
theorem alloc_simple_log (lv : logical_volume) (pvms : List pv_map) :
    (_alloc_simple lv pvms).log = [log_msg.insufficient_free_extents_to_allocate] ∨
    (_alloc_simple lv pvms).log = [] := by
  unfold _alloc_simple
  by_cases h3 : (_alloc_simple_maps pvms lv 0).allocated ≠
      (_alloc_simple_maps pvms lv 0).lv.le_count
  · left
    show (if _ then _ else _ : alloc_result).log = _
    rw [if_pos h3]
  · right
    show (if _ then _ else _ : alloc_result).log = _
    rw [if_neg h3]

/-- A call stopped before the choice of the policy has logged one message, which
is the one of the limit check only if `max_lv == lv_count`, and is none of a
policy. -/
theorem lv_create_stopped_log (e : env) (name : String)
    (status stripes stripe_size extents : Nat) (vg : volume_group)
    (hr : ¬ (pools_ok e ∧ passes_checks extents vg ∧ e.pv_maps ≠ none)) :
    ∃ m, (lv_create e name status stripes stripe_size extents vg).log = [m] ∧
      (m = log_msg.max_lvs_reached → vg.max_lv = vg.lv_count) ∧
      kind_of_msg m ≠ some failure_kind.PolicyUnimplemented := by
  unfold lv_create
  repeat' split
  all_goals first
    | exact ⟨_, rfl, by first | (intro _; assumption) | (intro h; cases h),
        by simp [kind_of_msg]⟩
    | (exfalso
       apply hr
       unfold pools_ok passes_checks
       simp_all)

/-- The message of the limit check is logged only when `max_lv == lv_count`. -/
theorem lv_create_limit_only_at_max (e : env) (name : String)
    (status stripes stripe_size extents : Nat) (vg : volume_group)
    (hne : vg.lv_count ≠ vg.max_lv) :
    ¬ fails_with (lv_create e name status stripes stripe_size extents vg)
      failure_kind.LimitError := by
  intro hf
  by_cases hr : pools_ok e ∧ passes_checks extents vg ∧ e.pv_maps ≠ none
  · obtain ⟨hp, hc, hm⟩ := hr
    obtain ⟨pvms, hm⟩ := Option.ne_none_iff_exists'.mp hm
    rw [lv_create_reaches e name status stripes stripe_size extents vg pvms hp hc hm] at hf
    unfold fails_with at hf
    split at hf
    · unfold alloc_by_policy at hf
      split at hf
      · simp [_alloc_striped, kind_of_msg] at hf
      · split at hf
        · simp [_alloc_contiguous, kind_of_msg] at hf
        · rcases alloc_simple_log (new_lv name status stripes extents vg) pvms with h | h <;>
            rw [h] at hf <;> simp [kind_of_msg] at hf
    · simp at hf
  · obtain ⟨m, h1, h2, _⟩ :=
      lv_create_stopped_log e name status stripes stripe_size extents vg hr
    unfold fails_with at hf
    rw [h1] at hf
    have hm : m = log_msg.max_lvs_reached := by
      cases m <;> simp [kind_of_msg] at hf ⊢
    exact hne (h2 hm).symm

/-- C5, as the code has it. `lv_create` succeeds only when `vg.lv_count` differs
from `vg.max_lv`: for every call with `extents > 0` and `vg.free_count >= extents`
in which `lv_count` equals `max_lv`, the scratch pool having been created, the
call fails with the LimitError outcome and the volume group is unchanged. -/
theorem lv_create_limit_check (e : env) (name : String)
    (status stripes stripe_size extents : Nat) (vg : volume_group) :
    ((lv_create e name status stripes stripe_size extents vg).lv ≠ none →
      vg.lv_count ≠ vg.max_lv) ∧
    (e.pool_create_ok = true → 0 < extents → extents ≤ vg.free_count →
      vg.lv_count = vg.max_lv →
      fails_with (lv_create e name status stripes stripe_size extents vg)
        failure_kind.LimitError ∧
      (lv_create e name status stripes stripe_size extents vg).log =
        [log_msg.max_lvs_reached] ∧
      (lv_create e name status stripes stripe_size extents vg).vg = vg) := by
  refine ⟨?_, ?_⟩
  · intro hne heq
    cases hlv : (lv_create e name status stripes stripe_size extents vg).lv with
    | none => exact hne hlv
    | some lv =>
      have := (lv_create_some e name status stripes stripe_size extents vg lv hlv).2.1
      exact this.2.2 heq.symm
  · intro hp h0 hf heq
    unfold lv_create fails_with
    rw [if_neg (by simp [hp]), if_neg (by omega), if_neg (by omega), if_pos heq.symm]
    exact ⟨⟨rfl, rfl⟩, rfl, rfl⟩

/-- C5 fails as stated: with `lv_count = 5` above `max_lv = 3`, `extents = 4`
and 100 free extents, `lv_count < max_lv` does not hold, yet the call succeeds
and the volume group changes.  And with `lv_count = max_lv = 3`, when the scratch
pool cannot be created the call fails before any check, with no LimitError. -/
theorem lv_create_above_max_lv :
    (0 < 4 ∧ 4 ≤ (vg_with 100 3 5).free_count ∧
      ¬ (vg_with 100 3 5).lv_count < (vg_with 100 3 5).max_lv ∧
      (lv_create (env_with one_area) "lv" 0 1 0 4 (vg_with 100 3 5)).lv
        = some four_extents_lv ∧
      ¬ fails_with (lv_create (env_with one_area) "lv" 0 1 0 4 (vg_with 100 3 5))
        failure_kind.LimitError ∧
      (lv_create (env_with one_area) "lv" 0 1 0 4 (vg_with 100 3 5)).vg.lv_count = 6 ∧
      (lv_create (env_with one_area) "lv" 0 1 0 4 (vg_with 100 3 5)).vg ≠ vg_with 100 3 5) ∧
    (4 ≤ (vg_with 100 3 3).free_count ∧
      ¬ (vg_with 100 3 3).lv_count < (vg_with 100 3 3).max_lv ∧
      (lv_create (env_without_pool one_area) "lv" 0 1 0 4 (vg_with 100 3 3)).log
        = [log_msg.stack] ∧
      ¬ fails_with (lv_create (env_without_pool one_area) "lv" 0 1 0 4 (vg_with 100 3 3))
        failure_kind.LimitError) := by
  decide

/-- The limit check at `lv_count = max_lv = 3`, with room for the four extents
asked for. -/
theorem lv_create_limit_check_example :
    fails_with (lv_create (env_with one_area) "lv" 0 1 0 4 (vg_with 100 3 3))
      failure_kind.LimitError ∧
    (lv_create (env_with one_area) "lv" 0 1 0 4 (vg_with 100 3 3)).log =
      [log_msg.max_lvs_reached] ∧
    (lv_create (env_with one_area) "lv" 0 1 0 4 (vg_with 100 3 3)).vg = vg_with 100 3 3 :=
  (lv_create_limit_check (env_with one_area) "lv" 0 1 0 4 (vg_with 100 3 3)).2
    rfl (by decide) (by decide) rfl

/-- C6, as the code has it. For every volume group with `lv_count == max_lv` and
every `extents` with `0 < extents <= vg.free_count` (the scratch pool having been
created), `lv_create` fails with the LimitError outcome whatever the free-area
maps are; when `vg.free_count < extents` the capacity check comes first and the
call fails with the CapacityError outcome instead.  The volume group is
unchanged either way. -/
theorem lv_create_at_max_lv (e : env) (name : String)
    (status stripes stripe_size extents : Nat) (vg : volume_group)
    (hp : e.pool_create_ok = true) (h0 : 0 < extents) (heq : vg.lv_count = vg.max_lv) :
    (extents ≤ vg.free_count →
      fails_with (lv_create e name status stripes stripe_size extents vg)
        failure_kind.LimitError) ∧
    (vg.free_count < extents →
      fails_with (lv_create e name status stripes stripe_size extents vg)
        failure_kind.CapacityError ∧
      ¬ fails_with (lv_create e name status stripes stripe_size extents vg)
        failure_kind.LimitError) ∧
    (lv_create e name status stripes stripe_size extents vg).vg = vg := by
  refine ⟨?_, ?_, ?_⟩
  · intro hf
    unfold lv_create fails_with
    rw [if_neg (by simp [hp]), if_neg (by omega), if_neg (by omega), if_pos heq.symm]
    exact ⟨rfl, rfl⟩
  · intro hf
    unfold lv_create fails_with
    rw [if_neg (by simp [hp]), if_neg (by omega), if_pos hf]
    exact ⟨⟨rfl, rfl⟩, by simp [kind_of_msg]⟩
  · by_cases hf : vg.free_count < extents
    · unfold lv_create
      rw [if_neg (by simp [hp]), if_neg (by omega), if_pos hf]
    · unfold lv_create
      rw [if_neg (by simp [hp]), if_neg (by omega), if_neg hf, if_pos heq.symm]

/-- C6 fails as stated: with `lv_count == max_lv = 3`, `extents = 4` and
`vg.free_count = 2` the call fails with CapacityError, not with LimitError.  And
with 100 free extents, when the scratch pool cannot be created the call fails
before any check, with no LimitError. -/
theorem lv_create_capacity_before_limit :
    ((vg_with 2 3 3).lv_count = (vg_with 2 3 3).max_lv ∧ 0 < 4 ∧
      fails_with (lv_create (env_with one_area) "lv" 0 1 0 4 (vg_with 2 3 3))
        failure_kind.CapacityError ∧
      (lv_create (env_with one_area) "lv" 0 1 0 4 (vg_with 2 3 3)).log =
        [log_msg.insufficient_free_extents_in_vg] ∧
      ¬ fails_with (lv_create (env_with one_area) "lv" 0 1 0 4 (vg_with 2 3 3))
        failure_kind.LimitError) ∧
    ((vg_with 100 3 3).lv_count = (vg_with 100 3 3).max_lv ∧
      (lv_create (env_without_pool one_area) "lv" 0 1 0 4 (vg_with 100 3 3)).log
        = [log_msg.stack] ∧
      ¬ fails_with (lv_create (env_without_pool one_area) "lv" 0 1 0 4 (vg_with 100 3 3))
        failure_kind.LimitError) := by
  decide

/-- C6 at `lv_count == max_lv = 3` with four extents asked for: LimitError when
the group counts 100 free extents, whatever the area maps are (here none has a
free extent). -/
theorem lv_create_at_max_lv_example :
    (4 ≤ (vg_with 100 3 3).free_count →
      fails_with (lv_create (env_with []) "lv" 0 1 0 4 (vg_with 100 3 3))
        failure_kind.LimitError) ∧
    ((vg_with 100 3 3).free_count < 4 →
      fails_with (lv_create (env_with []) "lv" 0 1 0 4 (vg_with 100 3 3))
        failure_kind.CapacityError ∧
      ¬ fails_with (lv_create (env_with []) "lv" 0 1 0 4 (vg_with 100 3 3))
        failure_kind.LimitError) ∧
    (lv_create (env_with []) "lv" 0 1 0 4 (vg_with 100 3 3)).vg = vg_with 100 3 3 :=
  lv_create_at_max_lv (env_with []) "lv" 0 1 0 4 (vg_with 100 3 3) rfl (by decide) rfl

/-- C7, as the code has it. Policy selection. For every call that passes the
three checks: if `stripes > 1` (whatever the status bits) or if `stripes <= 1`
and `status` has the contiguous bit set, `lv_create` returns `NULL`, leaves the
volume group unchanged and modifies no area of any map, and, when the pool
requests and the construction of the area maps succeed, the outcome is
PolicyUnimplemented.  With `stripes <= 1` and the contiguous bit clear the
result is that of `_alloc_simple` and the outcome is not PolicyUnimplemented.
The policy chosen is `_alloc_simple` exactly when `stripes <= 1` and the
contiguous bit is clear. -/
theorem lv_create_policy_selection (e : env) (name : String)
    (status stripes stripe_size extents : Nat) (vg : volume_group)
    (hc : passes_checks extents vg) :
    (1 < stripes ∨ (stripes ≤ 1 ∧ status &&& e.ALLOC_CONTIGUOUS ≠ 0) →
      (lv_create e name status stripes stripe_size extents vg).lv = none ∧
      (lv_create e name status stripes stripe_size extents vg).vg = vg ∧
      ((lv_create e name status stripes stripe_size extents vg).pvms = none ∨
        (lv_create e name status stripes stripe_size extents vg).pvms = e.pv_maps) ∧
      (pools_ok e → e.pv_maps ≠ none →
        fails_with (lv_create e name status stripes stripe_size extents vg)
          failure_kind.PolicyUnimplemented ∧
        (lv_create e name status stripes stripe_size extents vg).pvms = e.pv_maps ∧
        (lv_create e name status stripes stripe_size extents vg).log =
          [if 1 < stripes then log_msg.striped_not_implemented
            else log_msg.contiguous_not_implemented,
           log_msg.extent_allocation_failed])) ∧
    (stripes ≤ 1 ∧ status &&& e.ALLOC_CONTIGUOUS = 0 →
      ¬ fails_with (lv_create e name status stripes stripe_size extents vg)
        failure_kind.PolicyUnimplemented ∧
      (pools_ok e → ∀ pvms, e.pv_maps = some pvms →
        (lv_create e name status stripes stripe_size extents vg).pvms =
          some (_alloc_simple (new_lv name status stripes extents vg) pvms).pvms ∧
        (lv_create e name status stripes stripe_size extents vg).lv =
          if (_alloc_simple (new_lv name status stripes extents vg) pvms).r = 0 then none
          else some (_alloc_simple (new_lv name status stripes extents vg) pvms).lv)) ∧
    (∀ lv pvms, alloc_by_policy e status stripes lv pvms = _alloc_simple lv pvms ↔
      stripes ≤ 1 ∧ status &&& e.ALLOC_CONTIGUOUS = 0) := by
  have hsel : 1 < stripes ∨ (stripes ≤ 1 ∧ status &&& e.ALLOC_CONTIGUOUS ≠ 0) →
      ∀ lv pvms, alloc_by_policy e status stripes lv pvms =
        { lv := lv, pvms := pvms, r := 0
          log := [if 1 < stripes then log_msg.striped_not_implemented
            else log_msg.contiguous_not_implemented] } := by
    intro h lv pvms
    unfold alloc_by_policy
    rcases h with h | ⟨h1, h2⟩
    · rw [if_pos h, if_pos h]; rfl
    · rw [if_neg (by omega), if_pos h2, if_neg (by omega)]; rfl
  refine ⟨?_, ?_, ?_⟩
  · intro h
    have key : pools_ok e → ∀ pvms, e.pv_maps = some pvms →
        lv_create e name status stripes stripe_size extents vg =
          { lv := none, vg := vg, pvms := some pvms
            log := [if 1 < stripes then log_msg.striped_not_implemented
              else log_msg.contiguous_not_implemented, log_msg.extent_allocation_failed] } := by
      intro hp pvms hm
      rw [lv_create_reaches e name status stripes stripe_size extents vg pvms hp hc hm,
        hsel h]
      rfl
    by_cases hr : pools_ok e ∧ passes_checks extents vg ∧ e.pv_maps ≠ none
    · obtain ⟨hp, _, hm⟩ := hr
      obtain ⟨pvms, hm⟩ := Option.ne_none_iff_exists'.mp hm
      rw [key hp pvms hm, hm]
      refine ⟨rfl, rfl, Or.inr rfl, fun _ _ => ⟨⟨rfl, ?_⟩, rfl, rfl⟩⟩
      by_cases h1 : 1 < stripes
      · simp [h1, kind_of_msg]
      · simp [h1, kind_of_msg]
    · obtain ⟨s1, s2, s3⟩ := lv_create_stopped e name status stripes stripe_size extents vg hr
      refine ⟨s1, s3, Or.inl s2, fun hp hm => absurd ⟨hp, hc, hm⟩ hr⟩
  · intro ⟨h1, h2⟩
    refine ⟨?_, ?_⟩
    · intro hf
      by_cases hr : pools_ok e ∧ passes_checks extents vg ∧ e.pv_maps ≠ none
      · obtain ⟨hp, _, hm⟩ := hr
        obtain ⟨pvms, hm⟩ := Option.ne_none_iff_exists'.mp hm
        rw [lv_create_reaches e name status stripes stripe_size extents vg pvms hp hc hm,
          alloc_by_policy_simple e status stripes _ pvms h1 h2] at hf
        unfold fails_with at hf
        split at hf
        · rcases alloc_simple_log (new_lv name status stripes extents vg) pvms with h | h <;>
            rw [h] at hf <;> simp [kind_of_msg] at hf
        · simp at hf
      · obtain ⟨m, l1, _, l3⟩ :=
          lv_create_stopped_log e name status stripes stripe_size extents vg hr
        unfold fails_with at hf
        rw [l1] at hf
        apply l3
        cases hk : kind_of_msg m <;> simp [hk] at hf ⊢
        exact hf.2
    · intro hp pvms hm
      rw [lv_create_reaches e name status stripes stripe_size extents vg pvms hp hc hm,
        alloc_by_policy_simple e status stripes _ pvms h1 h2]
      split <;> exact ⟨rfl, rfl⟩
  · intro lv pvms
    constructor
    · intro heq
      by_contra hn
      have hns : 1 < stripes ∨ (stripes ≤ 1 ∧ status &&& e.ALLOC_CONTIGUOUS ≠ 0) := by
        by_cases h1 : 1 < stripes
        · exact Or.inl h1
        · refine Or.inr ⟨by omega, fun h2 => hn ⟨by omega, h2⟩⟩
      rw [hsel hns] at heq
      have hlog := congrArg alloc_result.log heq
      rcases alloc_simple_log lv pvms with h | h <;> rw [h] at hlog
      · by_cases h1 : 1 < stripes <;> simp [h1] at hlog
      · simp at hlog
    · intro ⟨h1, h2⟩
      exact alloc_by_policy_simple e status stripes lv pvms h1 h2

/-- C7 fails as stated: a call with `stripes = 2` that passes the three checks
but gets no area maps from `create_pv_maps` fails with AllocationError, not with
PolicyUnimplemented. -/
theorem lv_create_striped_without_maps :
    passes_checks 4 (vg_with 100 8 0) ∧ 1 < 2 ∧
    fails_with (lv_create env_without_maps "lv" 0 2 0 4 (vg_with 100 8 0))
      failure_kind.AllocationError ∧
    (lv_create env_without_maps "lv" 0 2 0 4 (vg_with 100 8 0)).log
      = [log_msg.no_extent_mappings] ∧
    ¬ fails_with (lv_create env_without_maps "lv" 0 2 0 4 (vg_with 100 8 0))
      failure_kind.PolicyUnimplemented := by
  unfold passes_checks
  decide

/-- C7 at `stripes = 2`, at `stripes = 1` with the contiguous bit set, and at
`stripes = 1` with the bit clear, four extents asked of the single area
`(start = 0, count = 10)`. -/
theorem lv_create_policy_selection_example :
    fails_with (lv_create (env_with one_area) "lv" 0 2 0 4 (vg_with 100 8 0))
      failure_kind.PolicyUnimplemented ∧
    (lv_create (env_with one_area) "lv" 0 2 0 4 (vg_with 100 8 0)).pvms = some one_area ∧
    fails_with (lv_create (env_with one_area) "lv" 4096 1 0 4 (vg_with 100 8 0))
      failure_kind.PolicyUnimplemented ∧
    (lv_create (env_with one_area) "lv" 4096 1 0 4 (vg_with 100 8 0)).pvms = some one_area ∧
    (lv_create (env_with one_area) "lv" 0 1 0 4 (vg_with 100 8 0)).lv = some four_extents_lv ∧
    (1 < 2 ∨ (2 ≤ 1 ∧ 0 &&& (env_with one_area).ALLOC_CONTIGUOUS ≠ 0) →
      (lv_create (env_with one_area) "lv" 0 2 0 4 (vg_with 100 8 0)).lv = none ∧
      (lv_create (env_with one_area) "lv" 0 2 0 4 (vg_with 100 8 0)).vg = vg_with 100 8 0 ∧
      ((lv_create (env_with one_area) "lv" 0 2 0 4 (vg_with 100 8 0)).pvms = none ∨
        (lv_create (env_with one_area) "lv" 0 2 0 4 (vg_with 100 8 0)).pvms
          = (env_with one_area).pv_maps) ∧
      (pools_ok (env_with one_area) → (env_with one_area).pv_maps ≠ none →
        fails_with (lv_create (env_with one_area) "lv" 0 2 0 4 (vg_with 100 8 0))
          failure_kind.PolicyUnimplemented ∧
        (lv_create (env_with one_area) "lv" 0 2 0 4 (vg_with 100 8 0)).pvms
          = (env_with one_area).pv_maps ∧
        (lv_create (env_with one_area) "lv" 0 2 0 4 (vg_with 100 8 0)).log =
          [if 1 < 2 then log_msg.striped_not_implemented
            else log_msg.contiguous_not_implemented,
           log_msg.extent_allocation_failed])) :=
  ⟨by decide, by decide, by decide, by decide, by decide,
   (lv_create_policy_selection (env_with one_area) "lv" 0 2 0 4 (vg_with 100 8 0)
    (by unfold passes_checks vg_with; decide)).1⟩

end LvManip

namespace DevMgr

/-! ## Records and chains -/

theorem S_ISDIR_of_S_ISBLK (mode : Nat) (h : S_ISBLK mode = true) : S_ISDIR mode = false := by
  unfold S_ISBLK at h
  unfold S_ISDIR
  rw [beq_iff_eq] at h
  rw [h]
  decide

theorem S_ISBLK_of_check_dev (dm : dev_mgr) (st : stat_t) (h : _check_dev dm st = 0) :
    S_ISBLK st.st_mode = true := by
  by_contra hn
  unfold _check_dev at h
  rw [if_pos hn] at h
  revert h
  decide

theorem find?_congr_mem {α : Type} (p q : α → Bool) :
    ∀ l : List α, (∀ x ∈ l, p x = q x) → l.find? p = l.find? q := by
  intro l
  induction l with
  | nil => intro _; rfl
  | cons a tl ih =>
    intro h
    rw [List.find?_cons, List.find?_cons, h a (List.mem_cons_self _ _),
      ih fun x hx => h x (List.mem_cons_of_mem _ hx)]

theorem mem_flatten_of_mem_getD (slots : List (List Nat)) (h c : Nat)
    (hc : c ∈ slots.getD h []) : c ∈ slots.flatten := by
  rw [List.getD_eq_getElem?_getD] at hc
  cases hs : slots[h]? with
  | none => rw [hs] at hc; simp at hc
  | some chain =>
    rw [hs] at hc
    exact List.mem_flatten.mpr ⟨chain, List.getElem?_mem hs, hc⟩

theorem deref_append (dm : dev_mgr) (x : Option device) (c : Nat) (hc : c < dm.pool.length) :
    deref { dm with pool := dm.pool ++ [x] } c = deref dm c := by
  unfold deref
  simp only [List.getD_eq_getElem?_getD]
  rw [List.getElem?_append_left hc]

theorem deref_append_new (dm : dev_mgr) (x : Option device) :
    deref { dm with pool := dm.pool ++ [x] } dm.pool.length = x := by
  unfold deref
  simp

theorem deref_set_dev (dm : dev_mgr) (c n c1 : Nat) :
    deref (set_dev dm c n) c1 =
      if c = c1 then (deref dm c1).map fun d => { d with dev := n } else deref dm c1 := by
  unfold deref set_dev
  simp only [List.getD_eq_getElem?_getD, List.getElem?_modify]
  cases h : dm.pool[c1]? with
  | none => by_cases hcc : c = c1 <;> simp [hcc]
  | some o => by_cases hcc : c = c1 <;> simp [hcc]

theorem names_of_set_dev (dm : dev_mgr) (c n : Nat) (l : List Nat) :
    names_of (set_dev dm c n) l = names_of dm l := by
  unfold names_of
  congr 1
  funext c1
  rw [deref_set_dev]
  by_cases hcc : c = c1
  · rw [if_pos hcc]
    cases deref dm c1 <;> rfl
  · rw [if_neg hcc]

/-! ## The tables stay in order -/

theorem mem_flatten_push_slot (d c : Nat) :
    ∀ (slots : List (List Nat)) (h : Nat),
      c ∈ (push_slot slots h d).flatten → c = d ∨ c ∈ slots.flatten := by
  intro slots
  induction slots with
  | nil => intro h hc; simp [push_slot] at hc
  | cons s tl ih =>
    intro h hc
    cases h with
    | zero =>
      have : c ∈ d :: (s ++ tl.flatten) := hc
      rcases List.mem_cons.mp this with h1 | h1
      · exact Or.inl h1
      · exact Or.inr (by simpa using h1)
    | succ h =>
      have : c ∈ s ++ (push_slot tl h d).flatten := hc
      rcases List.mem_append.mp this with h1 | h1
      · exact Or.inr (by simp [h1])
      · rcases ih h h1 with h2 | h2
        · exact Or.inl h2
        · exact Or.inr (by simp [h2])

theorem wf_set_dev (dm : dev_mgr) (c n : Nat) (hwf : wf dm) : wf (set_dev dm c n) := by
  obtain ⟨h1, h2, h3, h4, h5, h6, h7, h8⟩ := hwf
  have hl : (set_dev dm c n).pool.length = dm.pool.length := by simp [set_dev]
  refine ⟨h1, h2, h3, h4, h5, ?_, ?_, ?_⟩
  · intro x hx; rw [hl]; exact h6 x hx
  · intro x hx; rw [hl]; exact h7 x hx
  · intro x hx; rw [hl]; exact h8 x hx

theorem wf_pool_append (dm : dev_mgr) (x : Option device) (hwf : wf dm) :
    wf { dm with pool := dm.pool ++ [x] } := by
  obtain ⟨h1, h2, h3, h4, h5, h6, h7, h8⟩ := hwf
  refine ⟨h1, h2, h3, h4, h5, ?_, ?_, ?_⟩
  · intro c hc
    have := h6 c hc
    simp only [List.length_append, List.length_singleton]
    omega
  · intro c hc
    have := h7 c hc
    simp only [List.length_append, List.length_singleton]
    omega
  · intro c hc
    have := h8 c hc
    simp only [List.length_append, List.length_singleton]
    omega

theorem wf_name_insert (hash : String → Nat) (dm : dev_mgr) (device : Nat)
    (hlt : device < dm.pool.length) (hwf : wf dm) : wf (_name_insert hash dm device) := by
  unfold _name_insert
  split
  · exact hwf
  · split
    · exact wf_set_dev dm _ _ hwf
    · obtain ⟨h1, h2, h3, h4, h5, h6, h7, h8⟩ := hwf
      refine ⟨h1, h2, h3, ?_, h5, ?_, h7, h8⟩
      · show (push_slot _ _ _).length = _
        unfold push_slot
        rw [List.length_modify]
        exact h4
      · intro c hc
        rcases mem_flatten_push_slot _ _ _ _ hc with h | h
        · rw [h]; exact hlt
        · exact h6 c h

theorem wf_dev_insert (dm : dev_mgr) (device : Nat)
    (hlt : device < dm.pool.length) (hwf : wf dm) : wf (_dev_insert dm device) := by
  unfold _dev_insert
  split
  · exact hwf
  · obtain ⟨h1, h2, h3, h4, h5, h6, h7, h8⟩ := hwf
    refine ⟨h1, h2, h3, h4, ?_, h6, ?_, h8⟩
    · show (push_slot _ _ _).length = _
      unfold push_slot
      rw [List.length_modify]
      exact h5
    · intro c hc
      rcases mem_flatten_push_slot _ _ _ _ hc with h | h
      · rw [h]; exact hlt
      · exact h7 c h

theorem wf_list_insert (dm : dev_mgr) (device : Nat)
    (hlt : device < dm.pool.length) (hwf : wf dm) : wf (_list_insert dm device) := by
  obtain ⟨h1, h2, h3, h4, h5, h6, h7, h8⟩ := hwf
  refine ⟨h1, h2, h3, h4, h5, h6, h7, ?_⟩
  intro c hc
  rcases List.mem_cons.mp hc with h | h
  · rw [h]; exact hlt
  · exact h8 c h

theorem name_insert_pool_length (hash : String → Nat) (dm : dev_mgr) (device : Nat) :
    (_name_insert hash dm device).pool.length = dm.pool.length := by
  unfold _name_insert
  split
  · rfl
  · split
    · simp [set_dev]
    · rfl

theorem dev_insert_pool_length (dm : dev_mgr) (device : Nat) :
    (_dev_insert dm device).pool.length = dm.pool.length := by
  unfold _dev_insert
  split <;> rfl

/-- The body of `_add_named_device` keeps the tables in order if `_dir_scan`
does. -/
theorem add_named_with_wf (hash : String → Nat) (w : world)
    (dir_scan : dev_mgr → String → Option dev_mgr)
    (hds : ∀ dm p dm1, wf dm → dir_scan dm p = some dm1 → wf dm1)
    (dm : dev_mgr) (path : String) (r : add_result) (hwf : wf dm)
    (h : add_named_with hash w dir_scan dm path = some r) : wf r.dm := by
  unfold add_named_with at h
  cases hst : w.stat path with
  | none =>
    simp only [hst] at h
    cases h; exact hwf
  | some st =>
    simp only [hst] at h
    by_cases hck : _check_dev dm st ≠ 0
    · rw [if_pos hck] at h
      cases h; exact hwf
    · rw [if_neg hck] at h
      by_cases hdir : S_ISDIR st.st_mode = true
      · rw [if_pos hdir] at h
        by_cases hdot : path.data.head? ≠ some '.'
        · rw [if_pos hdot] at h
          cases hd : dir_scan dm path with
          | none => rw [hd] at h; simp at h
          | some dm1 =>
            rw [hd] at h
            simp only [Option.map_some', Option.some.injEq] at h
            rw [← h]
            exact hds dm path dm1 hwf hd
        · rw [if_neg hdot] at h
          cases h; exact hwf
      · rw [if_neg hdir] at h
        cases hnm : _is_name_present hash dm path with
        | some c =>
          simp only [hnm] at h
          cases h; exact wf_set_dev dm _ _ hwf
        | none =>
          simp only [hnm] at h
          by_cases hpa : ¬ w.pool_alloc_ok dm.pool.length = true
          · rw [if_pos hpa] at h
            cases h; exact hwf
          · rw [if_neg hpa] at h
            by_cases hps : ¬ w.pool_strdup_ok path = true
            · rw [if_pos hps] at h
              cases h; exact wf_pool_append dm none hwf
            · rw [if_neg hps] at h
              have hw1 : wf (with_record dm path st.st_rdev) := wf_pool_append dm _ hwf
              have hlt : dm.pool.length < (with_record dm path st.st_rdev).pool.length := by
                simp [with_record]
              have hw2 := wf_name_insert hash _ dm.pool.length hlt hw1
              have hlt2 : dm.pool.length <
                  (_name_insert hash (with_record dm path st.st_rdev) dm.pool.length).pool.length
                := by rw [name_insert_pool_length]; exact hlt
              have hw3 := wf_dev_insert _ dm.pool.length hlt2 hw2
              have hlt3 : dm.pool.length <
                  (_dev_insert (_name_insert hash (with_record dm path st.st_rdev)
                    dm.pool.length) dm.pool.length).pool.length
                := by rw [dev_insert_pool_length]; exact hlt2
              have hw4 := wf_list_insert _ dm.pool.length hlt3 hw3
              split at h
              · cases h; exact hw2
              · cases h; exact hw4

theorem dir_scan_entries_wf (add_named : dev_mgr → String → Option add_result)
    (han : ∀ dm p r, wf dm → add_named dm p = some r → wf r.dm) (dirname : String) :
    ∀ (entries : List String) (dm dm1 : dev_mgr), wf dm →
      dir_scan_entries add_named dirname entries dm = some dm1 → wf dm1 := by
  intro entries
  induction entries with
  | nil =>
    intro dm dm1 hwf h
    simp only [dir_scan_entries, Option.some.injEq] at h
    rw [← h]; exact hwf
  | cons d tl ih =>
    intro dm dm1 hwf h
    rw [dir_scan_entries] at h
    cases ha : add_with add_named dm dirname d with
    | none => rw [ha] at h; simp at h
    | some r =>
      rw [ha] at h
      exact ih r.dm dm1 (han dm _ r hwf ha) h

theorem dir_scan_with_wf (w : world) (add_named : dev_mgr → String → Option add_result)
    (han : ∀ dm p r, wf dm → add_named dm p = some r → wf r.dm)
    (dm : dev_mgr) (dirname : String) (dm1 : dev_mgr) (hwf : wf dm)
    (h : dir_scan_with w add_named dm dirname = some dm1) : wf dm1 := by
  unfold dir_scan_with at h
  split at h
  · cases h; exact hwf
  · exact dir_scan_entries_wf add_named han dirname _ dm dm1 hwf h

/-- Every discovery keeps the tables in order. -/
theorem add_named_device_wf (hash : String → Nat) (w : world) :
    ∀ (depth : Nat) (dm : dev_mgr) (path : String) (r : add_result), wf dm →
      _add_named_device hash w depth dm path = some r → wf r.dm := by
  intro depth
  induction depth with
  | zero =>
    intro dm path r hwf h
    exact add_named_with_wf hash w _ (fun _ _ _ _ hn => by simp at hn) dm path r hwf h
  | succ depth ih =>
    intro dm path r hwf h
    exact add_named_with_wf hash w _
      (fun dm0 p dm1 hw0 hd => dir_scan_with_wf w _ ih dm0 p dm1 hw0 hd) dm path r hwf h

/-- The cache `init_dev_manager` sets up, before the valid majors are read:
128 empty slots in each table, no record. -/
theorem init_tables_eq (base_dir : String) :
    init_tables base_dir = some
      { has_scanned := 0, dev_list := [], num_slots := 128, mask := 127, pool := []
        dev_slots := List.replicate 128 [], name_slots := List.replicate 128 [], all := []
        devdir := [base_dir] } := rfl

theorem flatten_replicate_nil (n : Nat) :
    (List.replicate n ([] : List Nat)).flatten = [] := by
  induction n with
  | zero => rfl
  | succ n ih => rw [List.replicate_succ, List.flatten_cons, ih]; rfl

/-- A cache without records, with 128 empty slots in each table, has its
tables in order. -/
theorem wf_of_empty (has_scanned : Nat) (dev_list : List Int) (devdir : List String) :
    wf { has_scanned := has_scanned, dev_list := dev_list, num_slots := 128, mask := 127
         pool := [], dev_slots := List.replicate 128 [], name_slots := List.replicate 128 []
         all := [], devdir := devdir } := by
  refine ⟨show 0 < 128 by decide, show 128 ≤ U32 by unfold U32; decide, rfl,
    List.length_replicate _ _, List.length_replicate _ _, ?_, ?_, ?_⟩
  · intro c hc
    have hc1 : c ∈ (List.replicate 128 ([] : List Nat)).flatten := hc
    rw [flatten_replicate_nil] at hc1
    cases hc1
  · intro c hc
    have hc1 : c ∈ (List.replicate 128 ([] : List Nat)).flatten := hc
    rw [flatten_replicate_nil] at hc1
    cases hc1
  · intro c hc
    cases hc

/-! ## `_add_named_device` on an accepted path -/

/-- An accepted path that is in the by-name index: the record found gets the
device number `stat` reports, at every depth allowed for directories. -/
theorem add_named_device_known (hash : String → Nat) (w : world) (depth : Nat)
    (dm : dev_mgr) (path : String) (st : stat_t) (c : Nat)
    (ha : accepted w dm path st) (hc : _is_name_present hash dm path = some c) :
    _add_named_device hash w depth dm path =
      some { dm := set_dev dm c st.st_rdev, dev := some c } := by
  obtain ⟨h1, h2⟩ := ha
  have hdir := S_ISDIR_of_S_ISBLK _ (S_ISBLK_of_check_dev dm st h2)
  cases depth <;>
    simp [_add_named_device, add_named_with, h1, h2, hdir, hc]

/-- An accepted path that is not in the by-name index, the pool yielding the
record and the copy of the name: the new record is put into the by-name index,
and into the by-number index and the list if `_is_device_present` does not find
its device number. -/
theorem add_named_device_new (hash : String → Nat) (w : world) (depth : Nat)
    (dm : dev_mgr) (path : String) (st : stat_t)
    (ha : accepted w dm path st) (hc : _is_name_present hash dm path = none)
    (hp : w.pool_alloc_ok dm.pool.length = true) (hs : w.pool_strdup_ok path = true) :
    _add_named_device hash w depth dm path =
      match _is_device_present (_name_insert hash (with_record dm path st.st_rdev)
          dm.pool.length) st.st_rdev with
      | some _ =>
        some { dm := _name_insert hash (with_record dm path st.st_rdev) dm.pool.length,
               dev := some dm.pool.length }
      | none =>
        some { dm := _list_insert (_dev_insert (_name_insert hash
                  (with_record dm path st.st_rdev) dm.pool.length) dm.pool.length)
                dm.pool.length,
               dev := some dm.pool.length } := by
  obtain ⟨h1, h2⟩ := ha
  have hdir := S_ISDIR_of_S_ISBLK _ (S_ISBLK_of_check_dev dm st h2)
  cases depth <;>
    simp [_add_named_device, add_named_with, h1, h2, hdir, hc, hp, hs, with_record]

/-! ## C9 -/

/-- C9. For every cache state and every accepted path (a block device with a
valid major) that `_is_name_present` finds in the by-name index, with the record
`c`, `_add_named_device` returns `c`, sets the device number of `c` to the number
`stat` reports and leaves its path alone, leaves every other record as it was,
creates no record, and leaves the chains of the by-name index as they were: the
index holds the same paths, each as often as before (so exactly once if it did
before), and has the same size.  The by-number chains and the list are not
relinked either. -/
theorem add_named_device_known_path (hash : String → Nat) (w : world) (depth : Nat)
    (dm : dev_mgr) (path : String) (st : stat_t) (c : Nat)
    (ha : accepted w dm path st) (hc : _is_name_present hash dm path = some c) :
    ∃ dm1, _add_named_device hash w depth dm path = some { dm := dm1, dev := some c } ∧
      deref dm1 c = some { name := path, dev := st.st_rdev } ∧
      (∀ c1, c1 ≠ c → deref dm1 c1 = deref dm c1) ∧
      dm1.pool.length = dm.pool.length ∧
      dm1.name_slots = dm.name_slots ∧
      names_of dm1 (by_name dm1) = names_of dm (by_name dm) ∧
      (by_name dm1).length = (by_name dm).length ∧
      ((names_of dm (by_name dm)).Nodup → (names_of dm1 (by_name dm1)).Nodup) ∧
      dm1.dev_slots = dm.dev_slots ∧ dm1.all = dm.all := by
  refine ⟨set_dev dm c st.st_rdev, add_named_device_known hash w depth dm path st c ha hc,
    ?_, ?_, ?_, rfl, ?_, rfl, ?_, rfl, rfl⟩
  · have hp := List.find?_some hc
    rw [deref_set_dev, if_pos rfl]
    cases hd : deref dm c with
    | none => simp [hd] at hp
    | some d =>
      simp only [hd, beq_iff_eq] at hp
      rw [← hp]
      rfl
  · intro c1 hne
    rw [deref_set_dev, if_neg (Ne.symm hne)]
  · simp [set_dev]
  · exact names_of_set_dev dm c st.st_rdev _
  · intro hn
    have : by_name (set_dev dm c st.st_rdev) = by_name dm := rfl
    rw [this, names_of_set_dev]
    exact hn

/-- C9 on the cache that knows `/dev/a` as 8:1 and `/dev/b` as 8:2, when
`/dev/b` is discovered again as 8:1. -/
theorem add_named_device_known_path_example :
    accepted fs2 cache_ab "/dev/b" (blk 2049) ∧
    _is_name_present name_hash cache_ab "/dev/b" = some 1 ∧
    deref cache_ab 1 = some { name := "/dev/b", dev := 2050 } ∧
    names_of cache_ab (by_name cache_ab) = ["/dev/b", "/dev/a"] ∧
    ∃ dm1, _add_named_device name_hash fs2 0 cache_ab "/dev/b"
        = some { dm := dm1, dev := some 1 } ∧
      deref dm1 1 = some { name := "/dev/b", dev := (blk 2049).st_rdev } ∧
      (∀ c1, c1 ≠ 1 → deref dm1 c1 = deref cache_ab c1) ∧
      dm1.pool.length = cache_ab.pool.length ∧
      dm1.name_slots = cache_ab.name_slots ∧
      names_of dm1 (by_name dm1) = names_of cache_ab (by_name cache_ab) ∧
      (by_name dm1).length = (by_name cache_ab).length ∧
      ((names_of cache_ab (by_name cache_ab)).Nodup → (names_of dm1 (by_name dm1)).Nodup) ∧
      dm1.dev_slots = cache_ab.dev_slots ∧ dm1.all = cache_ab.all :=
  ⟨by decide, by decide, by decide, by decide,
   add_named_device_known_path name_hash fs2 0 cache_ab "/dev/b" (blk 2049) 1
    (by decide) (by decide)⟩

/-! ## Linking a new record -/

theorem flatten_push_slot (d : Nat) :
    ∀ (slots : List (List Nat)) (h : Nat), h < slots.length →
      (push_slot slots h d).flatten.Perm (d :: slots.flatten) := by
  intro slots
  induction slots with
  | nil => intro h hh; simp at hh
  | cons s tl ih =>
    intro h hh
    cases h with
    | zero => exact List.Perm.refl _
    | succ h =>
      have := ih h (by simpa using hh)
      show (s ++ (push_slot tl h d).flatten).Perm (d :: (s ++ tl.flatten))
      exact (List.Perm.append_left s this).trans List.perm_middle

theorem getD_push_slot (d : Nat) (slots : List (List Nat)) (h : Nat) (hh : h < slots.length) :
    (push_slot slots h d).getD h [] = d :: slots.getD h [] := by
  unfold push_slot
  simp only [List.getD_eq_getElem?_getD, List.getElem?_modify_eq,
    List.getElem?_eq_getElem hh]
  rfl

theorem slot_lt (x : Nat) (dm : dev_mgr) (hwf : wf dm) :
    x &&& (dm.mask % U32) < dm.num_slots ∧
      (dm.num_slots + U32 - 1) % U32 = dm.mask % U32 := by
  obtain ⟨h1, h2, h3, _⟩ := hwf
  have hm : dm.mask % U32 = dm.mask := Nat.mod_eq_of_lt (by omega)
  have := @Nat.and_le_right x dm.mask
  refine ⟨by rw [hm]; omega, ?_⟩
  rw [hm]
  unfold U32 at *
  omega

theorem is_name_present_with_record (hash : String → Nat) (dm : dev_mgr) (hwf : wf dm)
    (path : String) (rdev : Nat) (name : String) :
    _is_name_present hash (with_record dm path rdev) name = _is_name_present hash dm name := by
  unfold _is_name_present
  apply find?_congr_mem
  intro c hc
  have hlt : c < dm.pool.length :=
    hwf.2.2.2.2.2.1 c (mem_flatten_of_mem_getD _ _ c hc)
  have : deref (with_record dm path rdev) c = deref dm c := deref_append dm _ c hlt
  rw [this]

theorem is_device_present_congr (dm dm1 : dev_mgr) (hwf : wf dm)
    (hs : dm1.dev_slots = dm.dev_slots) (hn : dm1.num_slots = dm.num_slots)
    (hd : ∀ c, c < dm.pool.length → deref dm1 c = deref dm c) (n : Nat) :
    _is_device_present dm1 n = _is_device_present dm n := by
  unfold _is_device_present
  rw [hs, hn]
  apply find?_congr_mem
  intro c hc
  have hlt : c < dm.pool.length :=
    hwf.2.2.2.2.2.2.1 c (mem_flatten_of_mem_getD _ _ c hc)
  rw [hd c hlt]

/-- The by-name insertion of a new record whose path is not in the index. -/
theorem name_insert_new (hash : String → Nat) (dm : dev_mgr) (hwf : wf dm)
    (path : String) (rdev : Nat) (hc : _is_name_present hash dm path = none) :
    _name_insert hash (with_record dm path rdev) dm.pool.length =
      { with_record dm path rdev with
        name_slots := push_slot dm.name_slots (hash path &&& (dm.mask % U32)) dm.pool.length }
    := by
  have hd : deref (with_record dm path rdev) dm.pool.length
      = some { name := path, dev := rdev } := deref_append_new dm _
  unfold _name_insert
  simp only [hd, is_name_present_with_record hash dm hwf path rdev path, hc]
  rfl

/-! ## A new path, as the lookup by number sees it -/

/-- First discovered wins, where `dev_by_dev` is the judge of which numbers the
by-number index holds.  For every cache state with its tables in order,
inserting an accepted path that `_is_name_present` does not find (the pool
yielding the record and the copy of the name) creates one record, with that path
and the device number `stat` reports, leaves the older records as they were and
adds the new record to the by-name index.  If `dev_by_dev` finds a record `c0`
with that device number, nothing else happens: the chains of the by-number index
and the list are unchanged and `dev_by_dev` of the number still returns `c0`.
If `dev_by_dev` finds none, the new record is also added to the by-number index,
where `dev_by_dev` of the number now finds it, and becomes the head of the
list. -/
theorem add_named_device_new_path (hash : String → Nat) (w : world) (depth : Nat)
    (dm : dev_mgr) (path : String) (st : stat_t)
    (hwf : wf dm) (ha : accepted w dm path st)
    (hc : _is_name_present hash dm path = none)
    (hp : w.pool_alloc_ok dm.pool.length = true) (hs : w.pool_strdup_ok path = true) :
    ∃ dm1, _add_named_device hash w depth dm path
        = some { dm := dm1, dev := some dm.pool.length } ∧
      dm1.pool.length = dm.pool.length + 1 ∧
      deref dm1 dm.pool.length = some { name := path, dev := st.st_rdev } ∧
      (∀ c, c < dm.pool.length → deref dm1 c = deref dm c) ∧
      (by_name dm1).Perm (dm.pool.length :: by_name dm) ∧
      (∀ c0, dev_by_dev dm st.st_rdev = some c0 →
        dm1.dev_slots = dm.dev_slots ∧ dm1.all = dm.all ∧
        dev_by_dev dm1 st.st_rdev = some c0) ∧
      (dev_by_dev dm st.st_rdev = none →
        (by_number dm1).Perm (dm.pool.length :: by_number dm) ∧
        dm1.all = dm.pool.length :: dm.all ∧
        dev_by_dev dm1 st.st_rdev = some dm.pool.length) := by
  have hnew := add_named_device_new hash w depth dm path st ha hc hp hs
  have hins := name_insert_new hash dm hwf path st.st_rdev hc
  rw [hins] at hnew
  have hslot := fun x => slot_lt x dm hwf
  have hderef : ∀ c, c < dm.pool.length →
      deref { with_record dm path st.st_rdev with
        name_slots := push_slot dm.name_slots (hash path &&& (dm.mask % U32)) dm.pool.length }
        c = deref dm c := fun c hlt => deref_append dm _ c hlt
  have hdn : deref { with_record dm path st.st_rdev with
        name_slots := push_slot dm.name_slots (hash path &&& (dm.mask % U32)) dm.pool.length }
        dm.pool.length = some { name := path, dev := st.st_rdev } := deref_append_new dm _
  have hpres := is_device_present_congr dm
    { with_record dm path st.st_rdev with
      name_slots := push_slot dm.name_slots (hash path &&& (dm.mask % U32)) dm.pool.length }
    hwf rfl rfl hderef st.st_rdev
  have hname : (push_slot dm.name_slots (hash path &&& (dm.mask % U32))
      dm.pool.length).flatten.Perm (dm.pool.length :: dm.name_slots.flatten) :=
    flatten_push_slot _ _ _ (by rw [hwf.2.2.2.1]; exact (hslot _).1)
  rw [hpres] at hnew
  cases hdev : _is_device_present dm st.st_rdev with
  | some c0 =>
    rw [hdev] at hnew hpres
    refine ⟨_, hnew, ?_, hdn, hderef, hname, ?_, ?_⟩
    · simp [with_record]
    · intro c1 hc1
      have : c1 = c0 := by
        unfold dev_by_dev at hc1
        rw [hdev] at hc1
        exact (Option.some.inj hc1).symm
      subst this
      exact ⟨rfl, rfl, hpres⟩
    · intro hnone
      unfold dev_by_dev at hnone
      rw [hdev] at hnone
      cases hnone
  | none =>
    rw [hdev] at hnew
    have hdi : _dev_insert { with_record dm path st.st_rdev with
          name_slots := push_slot dm.name_slots (hash path &&& (dm.mask % U32))
            dm.pool.length } dm.pool.length =
        { with_record dm path st.st_rdev with
          name_slots := push_slot dm.name_slots (hash path &&& (dm.mask % U32))
            dm.pool.length
          dev_slots := push_slot dm.dev_slots (_hash_dev st.st_rdev &&& (dm.mask % U32))
            dm.pool.length } := by
      unfold _dev_insert
      simp only [hdn]
      rfl
    rw [hdi] at hnew
    refine ⟨_, hnew, ?_, hdn, hderef, hname, ?_, ?_⟩
    · simp [_list_insert, with_record]
    · intro c0 hc0
      unfold dev_by_dev at hc0
      rw [hdev] at hc0
      cases hc0
    · intro _
      refine ⟨flatten_push_slot _ _ _ (by rw [hwf.2.2.2.2.1]; exact (hslot _).1), rfl, ?_⟩
      unfold dev_by_dev _is_device_present
      show List.find? _ ((push_slot dm.dev_slots _ dm.pool.length).getD
        (_hash_dev st.st_rdev &&& ((dm.num_slots + U32 - 1) % U32)) []) = _
      rw [(hslot (_hash_dev st.st_rdev)).2,
        getD_push_slot _ _ _ (by rw [hwf.2.2.2.2.1]; exact (hslot _).1), List.find?_cons]
      have hd2 : deref (_list_insert
          { with_record dm path st.st_rdev with
            name_slots := push_slot dm.name_slots (hash path &&& (dm.mask % U32))
              dm.pool.length
            dev_slots := push_slot dm.dev_slots (_hash_dev st.st_rdev &&& (dm.mask % U32))
              dm.pool.length } dm.pool.length) dm.pool.length
          = some { name := path, dev := st.st_rdev } := deref_append_new dm _
      simp only [hd2, beq_self_eq_true]

set_option maxRecDepth 100000 in
/-- The same twice: on the cache that knows `/dev/a` as 8:1, the new path `/dev/b`
with the new number 8:2 becomes the head of the list, and the new path `/dev/b`
with the known number 8:1 goes to the by-name index only. -/
theorem add_named_device_new_path_example :
    wf cache_a ∧ accepted fs2 cache_a "/dev/b" (blk 2049) ∧
    _is_name_present name_hash cache_a "/dev/b" = none ∧
    dev_by_dev cache_a 2049 = some 0 ∧ dev_by_dev cache_a 2050 = none ∧
    (discover fs2 cache_a "/dev/b").all = [0] ∧
    names_of (discover fs2 cache_a "/dev/b") (by_name (discover fs2 cache_a "/dev/b"))
      = ["/dev/b", "/dev/a"] ∧
    by_number (discover fs2 cache_a "/dev/b") = [0] ∧
    cache_ab.all = [1, 0] ∧ by_number cache_ab = [0, 1] ∧
    ∃ dm1, _add_named_device name_hash fs2 0 cache_a "/dev/b"
        = some { dm := dm1, dev := some cache_a.pool.length } ∧
      dm1.pool.length = cache_a.pool.length + 1 ∧
      deref dm1 cache_a.pool.length = some { name := "/dev/b", dev := (blk 2049).st_rdev } ∧
      (∀ c, c < cache_a.pool.length → deref dm1 c = deref cache_a c) ∧
      (by_name dm1).Perm (cache_a.pool.length :: by_name cache_a) ∧
      (∀ c0, dev_by_dev cache_a (blk 2049).st_rdev = some c0 →
        dm1.dev_slots = cache_a.dev_slots ∧ dm1.all = cache_a.all ∧
        dev_by_dev dm1 (blk 2049).st_rdev = some c0) ∧
      (dev_by_dev cache_a (blk 2049).st_rdev = none →
        (by_number dm1).Perm (cache_a.pool.length :: by_number cache_a) ∧
        dm1.all = cache_a.pool.length :: cache_a.all ∧
        dev_by_dev dm1 (blk 2049).st_rdev = some cache_a.pool.length) :=
  ⟨by unfold wf U32; decide, by decide, by decide, by decide, by decide, by decide, by decide,
   by decide, by decide, by decide,
   add_named_device_new_path name_hash fs2 0 cache_a "/dev/b" (blk 2049)
    (by unfold wf U32; decide) (by decide) (by decide) rfl rfl⟩

/-! ## C8 -/

set_option maxRecDepth 100000 in
/-- C8 fails on the code. The cache discovers `/dev/a` as 8:1, `/dev/b` as 8:2,
and `/dev/b` again after it has become 8:1: up to the second discovery each
device number is carried by one record of the list and of the by-number index;
the third changes the number of the record of `/dev/b` in place, and then both
records of the list, and both of the by-number index, carry the number 8:1, one
of them on the chain of 8:2, and no record carries 8:2. -/
theorem rediscovery_duplicates_number :
    init_tables "/dev" = some { empty_cache with dev_list := [] } ∧
    _add_named_device name_hash fs1 0 empty_cache "/dev/a"
      = some { dm := cache_a, dev := some 0 } ∧
    _add_named_device name_hash fs1 0 cache_a "/dev/b"
      = some { dm := cache_ab, dev := some 1 } ∧
    numbers_of cache_ab cache_ab.all = [2050, 2049] ∧
    numbers_of cache_ab (by_number cache_ab) = [2049, 2050] ∧
    _add_named_device name_hash fs2 0 cache_ab "/dev/b"
      = some { dm := cache_abb, dev := some 1 } ∧
    cache_abb.all = [1, 0] ∧
    numbers_of cache_abb cache_abb.all = [2049, 2049] ∧
    numbers_of cache_abb (by_number cache_abb) = [2049, 2049] ∧
    ¬ (numbers_of cache_abb cache_abb.all).Nodup ∧
    ¬ (numbers_of cache_abb (by_number cache_abb)).Nodup ∧
    cache_abb.dev_slots.getD 1 [] = [0] ∧ cache_abb.dev_slots.getD 2 [] = [1] := by
  decide

end DevMgr

namespace LvManip

/-! ## C18 -/

/-- When the areas hold fewer extents than are still needed, the loops of
`_alloc_simple` unlink every area. -/
theorem maps_left_short (W A : Nat) (pvms rest : List pv_map)
    (h : maps_left W A pvms rest) (hlt : A + maps_total pvms < W) :
    rest = pvms.map emptied := by
  rcases h with ⟨_, h2⟩ | ⟨pre, m, post, done, last, tail, h1, h2, _, h4, _⟩
  · exact h2
  · exfalso
    have e1 := maps_total_append pre (m :: post)
    have e2 := areas_total_append done (last :: tail)
    rw [← h1] at e1
    rw [← h2] at e2
    simp only [maps_total, areas_total] at e1 e2
    omega

/-- C18. Whenever a call of `lv_create` that has reached the Simple policy
fails, it fails for insufficient space (the areas hold fewer than `extents`
extents, CapacityError), and every area of every map has been unlinked, none
shrunk: on return all area lists are empty.  Hence if there was at least one
area, the area maps after the call differ from the area maps before it, although
failure is reported. -/
theorem lv_create_failure_unlinks_all (e : env) (name : String)
    (status stripes stripe_size extents : Nat) (vg : volume_group) (pvms : List pv_map)
    (h32 : extents < U32) (hu : maps_u32 pvms)
    (hp : pools_ok e) (hc : passes_checks extents vg) (hm : e.pv_maps = some pvms)
    (hs : stripes ≤ 1) (hb : status &&& e.ALLOC_CONTIGUOUS = 0)
    (hf : (lv_create e name status stripes stripe_size extents vg).lv = none) :
    maps_total pvms < extents ∧
    fails_with (lv_create e name status stripes stripe_size extents vg)
      failure_kind.CapacityError ∧
    (_alloc_simple (new_lv name status stripes extents vg) pvms).r = 0 ∧
    (_alloc_simple (new_lv name status stripes extents vg) pvms).pvms = pvms.map emptied ∧
    (lv_create e name status stripes stripe_size extents vg).pvms
      = some (pvms.map emptied) ∧
    (∀ m ∈ pvms.map emptied, m.areas = []) ∧
    ((∃ m ∈ pvms, m.areas ≠ []) →
      (lv_create e name status stripes stripe_size extents vg).pvms ≠ some pvms) := by
  obtain ⟨c1, c2⟩ := lv_create_simple_iff_capacity e name status stripes stripe_size extents
    vg pvms h32 hu hp hc hm hs hb
  have hlt : maps_total pvms < extents := by
    by_contra hn
    exact (c1.mpr (by omega)) hf
  obtain ⟨_, _, a3, _, a5⟩ := alloc_simple_spec (new_lv name status stripes extents vg) pvms
    h32 (Nat.pos_of_ne_zero hc.1) (new_lv_map_length _ _ _ _ _) hu
  rw [new_lv_le_count] at a3 a5
  have hr : (_alloc_simple (new_lv name status stripes extents vg) pvms).r = 0 := by
    rcases a3 with ⟨_, _, h3⟩ | ⟨h1, _, _⟩
    · omega
    · exact h1
  have hrest := maps_left_short extents 0 pvms _ a5 (by omega)
  have hout : (lv_create e name status stripes stripe_size extents vg).pvms
      = some (pvms.map emptied) := by
    rw [lv_create_reaches e name status stripes stripe_size extents vg pvms hp hc hm,
      alloc_by_policy_simple e status stripes _ pvms hs hb, if_pos hr, ← hrest]
  refine ⟨hlt, (c2 hlt).1, hr, hrest, hout, ?_, ?_⟩
  · intro m hmem
    obtain ⟨m0, _, rfl⟩ := List.mem_map.mp hmem
    rfl
  · intro ⟨m, hmem, hne⟩ heq
    rw [hout] at heq
    have hpm : pvms.map emptied = pvms := Option.some.inj heq
    rw [← hpm] at hmem
    obtain ⟨m0, _, rfl⟩ := List.mem_map.mp hmem
    exact hne rfl

/-- C18 on two maps with nine free extents in three areas, ten being asked
for: the call fails and leaves both maps without an area. -/
theorem lv_create_failure_unlinks_all_example :
    (lv_create (env_with two_maps) "lv" 0 1 0 10 (vg_with 100 8 0)).lv = none ∧
    (lv_create (env_with two_maps) "lv" 0 1 0 10 (vg_with 100 8 0)).pvms
      = some [{ pv := 7, areas := [] }, { pv := 8, areas := [] }] ∧
    (maps_total two_maps < 10 ∧
    fails_with (lv_create (env_with two_maps) "lv" 0 1 0 10 (vg_with 100 8 0))
      failure_kind.CapacityError ∧
    (_alloc_simple (new_lv "lv" 0 1 10 (vg_with 100 8 0)) two_maps).r = 0 ∧
    (_alloc_simple (new_lv "lv" 0 1 10 (vg_with 100 8 0)) two_maps).pvms
      = two_maps.map emptied ∧
    (lv_create (env_with two_maps) "lv" 0 1 0 10 (vg_with 100 8 0)).pvms
      = some (two_maps.map emptied) ∧
    (∀ m ∈ two_maps.map emptied, m.areas = []) ∧
    ((∃ m ∈ two_maps, m.areas ≠ []) →
      (lv_create (env_with two_maps) "lv" 0 1 0 10 (vg_with 100 8 0)).pvms ≠ some two_maps)) :=
  ⟨by decide, by decide,
   lv_create_failure_unlinks_all (env_with two_maps) "lv" 0 1 0 10 (vg_with 100 8 0) two_maps
    (by unfold U32; decide) (by unfold maps_u32 areas_u32 two_maps U32; decide)
    (by unfold pools_ok env_with; decide) (by unfold passes_checks vg_with; decide)
    rfl (by decide) (by decide) (by decide)⟩


/-! ## C17 -/

theorem areas_extents_append (pv : Nat) (xs ys : List pv_area) :
    areas_extents pv (xs ++ ys) = areas_extents pv xs ++ areas_extents pv ys := by
  induction xs with
  | nil => rfl
  | cons a tl ih =>
    show area_extents pv a ++ areas_extents pv (tl ++ ys) = _
    rw [ih, areas_extents, List.append_assoc]

theorem maps_extents_append (xs ys : List pv_map) :
    maps_extents (xs ++ ys) = maps_extents xs ++ maps_extents ys := by
  induction xs with
  | nil => rfl
  | cons a tl ih =>
    show areas_extents a.pv a.areas ++ maps_extents (tl ++ ys) = _
    rw [ih, maps_extents, List.append_assoc]

theorem maps_extents_emptied (pre : List pv_map) : maps_extents (pre.map emptied) = [] := by
  induction pre with
  | nil => rfl
  | cons a tl ih => simp only [List.map_cons, maps_extents, emptied, areas_extents, ih,
      List.append_nil]

theorem getElem?_area_extents_none (pv : Nat) (a : pv_area) (j : Nat) (hj : a.count ≤ j) :
    (area_extents pv a)[j]? = none := by
  rw [List.getElem?_eq_none_iff, length_area_extents]
  exact hj

/-- The extents of what is left of an area once `k` extents are taken from its
front are the extents of the area without the first `k`. -/
theorem areas_extents_shrunk (pv : Nat) (a : pv_area) (k : Nat) (hk : k ≤ a.count)
    (hr : a.start + a.count ≤ U32) :
    areas_extents pv (shrunk a k) = (area_extents pv a).drop k := by
  unfold shrunk
  by_cases hlt : k < a.count
  · rw [if_pos hlt]
    simp only [areas_extents, List.append_nil]
    apply List.ext_getElem?
    intro i
    rw [List.getElem?_drop]
    by_cases hi : i < a.count - k
    · rw [getElem?_area_extents pv _ i hi, getElem?_area_extents pv a (k + i) (by omega)]
      have : (a.start + k) % U32 = a.start + k := Nat.mod_eq_of_lt (by omega)
      simp only [this]
      rw [Nat.add_assoc]
    · rw [getElem?_area_extents_none pv _ i (by simpa using hi),
        getElem?_area_extents_none pv a (k + i) (by omega)]
  · rw [if_neg hlt]
    have : a.count ≤ k := by omega
    rw [List.drop_of_length_le (by rw [length_area_extents]; exact this)]
    rfl

/-- The extents left in the area maps by the loops of `_alloc_simple` when they
stop with the volume filled: the listing without its first `W` extents. -/
theorem maps_extents_left (W : Nat) (pvms rest : List pv_map)
    (h : maps_left W 0 pvms rest) (hle : W ≤ maps_total pvms) (hr : maps_in_range pvms) :
    maps_extents rest = (maps_extents pvms).drop W := by
  rcases h with ⟨h1, _⟩ | ⟨pre, m, post, done, last, tail, h1, h2, h3, h4, h5⟩
  · omega
  · have hlast : last.start + last.count ≤ U32 :=
      hr m (by rw [h1]; simp) last (by rw [h2]; simp)
    have hk : W - (0 + maps_total pre + areas_total done) ≤ last.count := by omega
    rw [h5, h1, maps_extents_append, maps_extents_append, maps_extents_emptied]
    simp only [maps_extents, h2, areas_extents_append, areas_extents,
      areas_extents_shrunk m.pv last _ hk hlast, List.nil_append, List.append_assoc]
    have hW : W = (maps_extents pre).length + ((areas_extents m.pv done).length +
        (W - (0 + maps_total pre + areas_total done))) := by
      rw [length_maps_extents, length_areas_extents]; omega
    conv_rhs => rw [hW]
    rw [List.drop_append, List.drop_append, List.drop_append_of_le_length
      (by rw [length_area_extents]; exact hk)]

theorem mem_maps_extents_of (pvms : List pv_map) (m : pv_map) (a : pv_area) (j : Nat)
    (hm : m ∈ pvms) (ha : a ∈ m.areas) (hj : j < a.count) :
    (m.pv, a.start + j) ∈ maps_extents pvms := by
  obtain ⟨l1, l2, rfl⟩ := List.append_of_mem hm
  obtain ⟨a1, a2, h2⟩ := List.append_of_mem ha
  rw [maps_extents_append]
  simp only [maps_extents, h2, areas_extents_append, areas_extents]
  have : (m.pv, a.start + j) ∈ area_extents m.pv a :=
    List.getElem?_mem (getElem?_area_extents m.pv a j hj)
  simp [this]

/-- The extent map of a filled volume is the front of the listing. -/
theorem map_eq_take (lv : logical_volume) (pvms : List pv_map) (W : Nat)
    (hlen : lv.map.length = W)
    (hmap : ∀ i, i < W → lv.map[i]? = ((maps_extents pvms)[i]?).map entry_of) :
    lv.map = ((maps_extents pvms).take W).map entry_of := by
  apply List.ext_getElem?
  intro i
  by_cases hi : i < W
  · rw [hmap i hi, List.getElem?_map, List.getElem?_take_of_lt hi]
  · have h1 : lv.map[i]? = none := by rw [List.getElem?_eq_none_iff]; omega
    have h2 : (((maps_extents pvms).take W).map entry_of)[i]? = none := by
      rw [List.getElem?_eq_none_iff, List.length_map, List.length_take]; omega
    rw [h1, h2]

/-- C17. No double allocation. If the areas of the maps are pairwise disjoint
(no pair of a physical volume and a physical extent lies in two areas) and none
reaches past the last 32-bit extent number, then after every successful
`lv_create` (the policy was Simple) the entries of the extent map of the volume
are pairwise distinct, and no entry names an extent of an area that remains in
the area maps. -/
theorem lv_create_no_double_allocation (e : env) (name : String)
    (status stripes stripe_size extents : Nat) (vg : volume_group) (lv : logical_volume)
    (pvms : List pv_map) (h32 : extents < U32) (hu : maps_u32 pvms)
    (hr : maps_in_range pvms) (hd : maps_disjoint pvms)
    (hm : e.pv_maps = some pvms)
    (h : (lv_create e name status stripes stripe_size extents vg).lv = some lv) :
    lv.map.Nodup ∧
    ∃ rest, (lv_create e name status stripes stripe_size extents vg).pvms = some rest ∧
      ∀ x ∈ lv.map, ∀ m ∈ rest, ∀ a ∈ m.areas, ¬ in_area m.pv a x := by
  obtain ⟨_, hc, _, _, hcap, hlv, heq⟩ :=
    lv_create_some_simple e name status stripes stripe_size extents vg lv pvms h32 hu hm h
  obtain ⟨_, a2, _, a4, a5⟩ := alloc_simple_spec (new_lv name status stripes extents vg) pvms
    h32 (Nat.pos_of_ne_zero hc.1) (new_lv_map_length _ _ _ _ _) hu
  rw [new_lv_le_count] at a2 a4 a5
  rw [← hlv] at a2 a4
  have hmap := map_eq_take lv pvms extents a2
    (fun i hi => a4 i (by omega))
  have hrest := maps_extents_left extents pvms _ a5 hcap hr
  have hin : ∀ p ∈ maps_extents pvms, entry_of p = { pv := some p.1, pe := p.2 } := by
    intro p hp
    obtain ⟨m, hmm, a, ha, j, hj, rfl⟩ := mem_maps_extents p pvms hp
    have := hr m hmm a ha
    unfold entry_of
    rw [Nat.mod_eq_of_lt (show a.start + j < U32 by omega)]
  have htake : ∀ p ∈ (maps_extents pvms).take extents, p ∈ maps_extents pvms :=
    fun p hp => List.mem_of_mem_take hp
  refine ⟨?_, _, by rw [heq], ?_⟩
  · rw [hmap]
    apply List.Nodup.map_on
    · intro x hx y hy hxy
      rw [hin x (htake x hx), hin y (htake y hy)] at hxy
      have h1 : x.1 = y.1 := by
        have := congrArg pe_specifier.pv hxy
        exact Option.some.inj this
      have h2 : x.2 = y.2 := congrArg pe_specifier.pe hxy
      exact Prod.ext h1 h2
    · exact List.Nodup.sublist (List.take_sublist _ _) hd
  · intro x hx m hmm a ha ⟨i1, i2, i3⟩
    rw [hmap] at hx
    obtain ⟨p, hp, rfl⟩ := List.mem_map.mp hx
    rw [hin p (htake p hp)] at i1 i2 i3
    have hp1 : p.1 = m.pv := Option.some.inj i1
    have hp2 : p = (m.pv, a.start + (p.2 - a.start)) := by
      apply Prod.ext
      · exact hp1
      · show p.2 = a.start + (p.2 - a.start)
        have : a.start ≤ p.2 := i2
        omega
    have hmem := mem_maps_extents_of _ m a (p.2 - a.start) hmm ha (by
      have h2 : a.start ≤ p.2 := i2
      have h3 : p.2 < a.start + a.count := i3
      omega)
    rw [← hp2, hrest] at hmem
    exact List.disjoint_take_drop hd (Nat.le_refl _) hp hmem

/-- C17 on two maps with disjoint areas, six extents being asked for: the six
entries are distinct and none lies in the area `(1, 3)` that remains. -/
theorem lv_create_no_double_allocation_example :
    maps_disjoint two_maps ∧ maps_in_range two_maps ∧
    (lv_create (env_with two_maps) "lv" 0 1 0 6 (vg_with 100 8 0)).pvms
      = some [{ pv := 7, areas := [] }, { pv := 8, areas := [{ start := 1, count := 3 }] }] ∧
    (six_extents_lv.map.Nodup ∧
    ∃ rest, (lv_create (env_with two_maps) "lv" 0 1 0 6 (vg_with 100 8 0)).pvms = some rest ∧
      ∀ x ∈ six_extents_lv.map, ∀ m ∈ rest, ∀ a ∈ m.areas, ¬ in_area m.pv a x) :=
  ⟨by unfold maps_disjoint; decide, by unfold maps_in_range two_maps U32; decide, by decide,
   lv_create_no_double_allocation (env_with two_maps) "lv" 0 1 0 6 (vg_with 100 8 0)
    six_extents_lv two_maps (by unfold U32; decide)
    (by unfold maps_u32 areas_u32 two_maps U32; decide)
    (by unfold maps_in_range two_maps U32; decide) (by unfold maps_disjoint; decide)
    rfl (by decide)⟩


/-! ## C20 -/

/-- The inner loop of `_alloc_simple` keeps `le_count` and keeps `allocated`
between its starting value and `le_count`. -/
theorem alloc_simple_areas_bounds (pv : Nat) :
    ∀ (areas : List pv_area) (lv : logical_volume) (A : Nat),
      lv.le_count < U32 → A ≤ lv.le_count → areas_u32 areas →
      (_alloc_simple_areas pv areas lv A).lv.le_count = lv.le_count ∧
      A ≤ (_alloc_simple_areas pv areas lv A).allocated ∧
      (_alloc_simple_areas pv areas lv A).allocated ≤ lv.le_count := by
  intro areas
  induction areas with
  | nil =>
    intro lv A _ hA _
    exact ⟨rfl, Nat.le_refl _, hA⟩
  | cons a tl ih =>
    intro lv A hW hA hu
    have hc : a.count < U32 := hu a (List.mem_cons_self _ _)
    have hutl : areas_u32 tl := fun x hx => hu x (List.mem_cons_of_mem _ hx)
    have hk : taken lv A a ≤ lv.le_count - A := by unfold taken; omega
    rw [alloc_simple_areas_cons pv a tl lv A hW hA hc]
    by_cases hstop : A + taken lv A a = lv.le_count
    · rw [if_pos hstop]
      exact ⟨rfl, by show A ≤ A + taken lv A a; omega, by show A + taken lv A a ≤ _; omega⟩
    · rw [if_neg hstop]
      obtain ⟨i1, i2, i3⟩ := ih (lv_filled lv A pv a) (A + taken lv A a) hW
        (show A + taken lv A a ≤ lv.le_count by omega) hutl
      exact ⟨i1, by
        show A ≤ (_alloc_simple_areas pv tl _ _).allocated
        omega, i3⟩

/-- The calls the inner loop makes: each on a volume with the same `le_count`,
with an index between the starting value of `allocated` and `le_count`, for an
area of the list. -/
theorem areas_calls_spec (pv : Nat) :
    ∀ (areas : List pv_area) (lv : logical_volume) (A : Nat),
      lv.le_count < U32 → A ≤ lv.le_count → areas_u32 areas →
      ∀ c ∈ areas_calls pv areas lv A,
        c.lv.le_count = lv.le_count ∧ A ≤ c.index ∧ c.index ≤ lv.le_count ∧
        c.pva ∈ areas := by
  intro areas
  induction areas with
  | nil =>
    intro lv A _ _ _ c hc
    simp [areas_calls] at hc
  | cons a tl ih =>
    intro lv A hW hA hu c hcm
    have hc : a.count < U32 := hu a (List.mem_cons_self _ _)
    have hutl : areas_u32 tl := fun x hx => hu x (List.mem_cons_of_mem _ hx)
    have hk : taken lv A a ≤ lv.le_count - A := by unfold taken; omega
    have hA1 : add_int A (to_int (taken lv A a)) = A + taken lv A a := by
      rw [add_int_to_int]
      exact Nat.mod_eq_of_lt (by omega)
    rw [areas_calls] at hcm
    simp only [alloc_area_eq lv A pv a hW hA hc, hA1] at hcm
    rcases List.mem_cons.mp hcm with h1 | h1
    · rw [h1]
      exact ⟨rfl, Nat.le_refl _, hA, List.mem_cons_self _ _⟩
    · by_cases hstop : A + taken lv A a = (lv_filled lv A pv a).le_count
      · rw [if_pos hstop] at h1
        cases h1
      · rw [if_neg hstop] at h1
        have hstop1 : A + taken lv A a ≠ lv.le_count := hstop
        obtain ⟨i1, i2, i3, i4⟩ := ih (lv_filled lv A pv a) (A + taken lv A a) hW
          (show A + taken lv A a ≤ lv.le_count by omega) hutl c h1
        exact ⟨i1, by omega, i3, List.mem_cons_of_mem _ i4⟩

/-- The calls the loops of `_alloc_simple` make, and the value of `allocated`
they end with. -/
theorem maps_calls_spec :
    ∀ (pvms : List pv_map) (lv : logical_volume) (A : Nat),
      lv.le_count < U32 → A ≤ lv.le_count → maps_u32 pvms →
      (_alloc_simple_maps pvms lv A).allocated ≤ lv.le_count ∧
      ∀ c ∈ maps_calls pvms lv A,
        c.lv.le_count = lv.le_count ∧ c.index ≤ lv.le_count ∧
        ∃ m ∈ pvms, c.pva ∈ m.areas := by
  intro pvms
  induction pvms with
  | nil =>
    intro lv A _ hA _
    refine ⟨hA, ?_⟩
    intro c hc
    simp [maps_calls] at hc
  | cons m tl ih =>
    intro lv A hW hA hu
    have hum : areas_u32 m.areas := hu m (List.mem_cons_self _ _)
    have hutl : maps_u32 tl := fun x hx => hu x (List.mem_cons_of_mem _ hx)
    obtain ⟨b1, b2, b3⟩ := alloc_simple_areas_bounds m.pv m.areas lv A hW hA hum
    have hih := ih (_alloc_simple_areas m.pv m.areas lv A).lv
      (_alloc_simple_areas m.pv m.areas lv A).allocated (by rw [b1]; exact hW)
      (by rw [b1]; exact b3) hutl
    rw [b1] at hih
    refine ⟨?_, ?_⟩
    · rw [_alloc_simple_maps]
      by_cases hstop : (_alloc_simple_areas m.pv m.areas lv A).allocated =
          (_alloc_simple_areas m.pv m.areas lv A).lv.le_count
      · simp only [hstop, if_true]
        rw [← hstop]; exact b3
      · simp only [hstop, if_false]
        exact hih.1
    · intro c hcm
      rw [maps_calls] at hcm
      rcases List.mem_append.mp hcm with h1 | h1
      · obtain ⟨i1, _, i3, i4⟩ := areas_calls_spec m.pv m.areas lv A hW hA hum c h1
        exact ⟨i1, i3, m, List.mem_cons_self _ _, i4⟩
      · by_cases hstop : (_alloc_simple_areas m.pv m.areas lv A).allocated =
            (_alloc_simple_areas m.pv m.areas lv A).lv.le_count
        · simp only [hstop, if_true] at h1
          cases h1
        · simp only [hstop, if_false] at h1
          obtain ⟨i1, i2, m1, hm1, i3⟩ := hih.2 c h1
          exact ⟨i1, i2, m1, List.mem_cons_of_mem _ hm1, i3⟩

/-- What one call of `_alloc_area` does when its index is within `le_count`. -/
theorem call_facts (c : area_call) (hW : c.lv.le_count < U32)
    (hi : c.index ≤ c.lv.le_count) :
    call_remaining c = c.lv.le_count - c.index ∧
    call_count c = min c.pva.count (c.lv.le_count - c.index) ∧
    (_alloc_area c.lv c.index c.pv c.pva).ret = to_int (call_count c) ∧
    (_alloc_area c.lv c.index c.pv c.pva).lv.map
      = fill_map c.index c.pv c.pva.start (call_count c) c.lv.map ∧
    add_int c.index (_alloc_area c.lv c.index c.pv c.pva).ret
      = (c.index + call_count c) % U32 ∧
    (c.index + call_count c) % U32 = c.index + call_count c ∧
    c.index + call_count c ≤ c.lv.le_count ∧
    call_indices c = (List.range (call_count c)).map (fun i => i + c.index) ∧
    ∀ x ∈ call_indices c, x < c.lv.le_count := by
  have hrem : call_remaining c = c.lv.le_count - c.index := by
    unfold call_remaining U32 at *; omega
  have hcnt : call_count c = min c.pva.count (c.lv.le_count - c.index) := by
    unfold call_count
    rw [hrem]
    split <;> omega
  have hret : (_alloc_area c.lv c.index c.pv c.pva).ret = to_int (call_count c) ∧
      (_alloc_area c.lv c.index c.pv c.pva).lv.map
        = fill_map c.index c.pv c.pva.start (call_count c) c.lv.map := by
    unfold _alloc_area call_count call_remaining
    by_cases h : (c.lv.le_count + U32 - c.index) % U32 < c.pva.count
    · simp only [h, if_true, and_self]
    · simp only [h, if_false, and_self]
  have hle : c.index + call_count c ≤ c.lv.le_count := by rw [hcnt]; omega
  have hidx : call_indices c = (List.range (call_count c)).map (fun i => i + c.index) := by
    unfold call_indices
    apply List.map_congr_left
    intro i hi2
    have := List.mem_range.mp hi2
    exact Nat.mod_eq_of_lt (by omega)
  refine ⟨hrem, hcnt, hret.1, hret.2, ?_, Nat.mod_eq_of_lt (by omega), hle, hidx, ?_⟩
  · rw [hret.1, add_int_to_int]
  · intro x hx
    rw [hidx] at hx
    obtain ⟨i, hi2, rfl⟩ := List.mem_map.mp hx
    have := List.mem_range.mp hi2
    omega

/-- C20. Map writes stay in bounds. Throughout every run of `_alloc_simple` on a
volume with a 32-bit `le_count` and areas with 32-bit counts, the running total
`allocated` never exceeds `le_count`: every call of `_alloc_area` gets an index
that is at most `le_count`, so `remaining = le_count - index` does not
underflow; the call returns `min(count, le_count - index)` as an `int`, which
added back into the 32-bit total gives the total plus that value, without a
wrap and still at most `le_count`; it writes that many map entries, and every
index `i + index` it writes is strictly less than `le_count`. -/
theorem alloc_simple_in_bounds (lv : logical_volume) (pvms : List pv_map)
    (hW : lv.le_count < U32) (hu : maps_u32 pvms) :
    (_alloc_simple_maps pvms lv 0).allocated ≤ lv.le_count ∧
    ∀ c ∈ _alloc_simple_calls lv pvms,
      c.lv.le_count = lv.le_count ∧ c.index ≤ lv.le_count ∧
      call_remaining c = lv.le_count - c.index ∧
      (_alloc_area c.lv c.index c.pv c.pva).ret
        = to_int (min c.pva.count (lv.le_count - c.index)) ∧
      (_alloc_area c.lv c.index c.pv c.pva).lv.map
        = fill_map c.index c.pv c.pva.start (min c.pva.count (lv.le_count - c.index))
            c.lv.map ∧
      add_int c.index (_alloc_area c.lv c.index c.pv c.pva).ret
        = (c.index + min c.pva.count (lv.le_count - c.index)) % U32 ∧
      add_int c.index (_alloc_area c.lv c.index c.pv c.pva).ret
        = c.index + min c.pva.count (lv.le_count - c.index) ∧
      c.index + min c.pva.count (lv.le_count - c.index) ≤ lv.le_count ∧
      call_indices c
        = (List.range (min c.pva.count (lv.le_count - c.index))).map (fun i => i + c.index) ∧
      ∀ x ∈ call_indices c, x < lv.le_count := by
  obtain ⟨m1, m2⟩ := maps_calls_spec pvms lv 0 hW (Nat.zero_le _) hu
  refine ⟨m1, ?_⟩
  intro c hc
  obtain ⟨i1, i2, _⟩ := m2 c hc
  obtain ⟨f1, f2, f3, f4, f5, f6, f7, f8, f9⟩ :=
    call_facts c (by rw [i1]; exact hW) (by rw [i1]; exact i2)
  rw [i1] at f1 f2 f7 f9
  rw [f2] at f3 f4 f5 f6 f7 f8
  exact ⟨i1, i2, f1, f3, f4, f5, by rw [f5, f6], f7, f8, f9⟩

/-- C20 on the run that takes six extents from two maps with nine: the three
calls have the indices 0, 2 and 5 and write the map entries 0 to 5. -/
theorem alloc_simple_in_bounds_example :
    (_alloc_simple_calls (new_lv "lv" 0 1 6 (vg_with 100 8 0)) two_maps).map
        (fun c => (c.index, call_count c, call_indices c))
      = [(0, 2, [0, 1]), (2, 3, [2, 3, 4]), (5, 1, [5])] ∧
    ((_alloc_simple_maps two_maps (new_lv "lv" 0 1 6 (vg_with 100 8 0)) 0).allocated
      ≤ (new_lv "lv" 0 1 6 (vg_with 100 8 0)).le_count ∧
    ∀ c ∈ _alloc_simple_calls (new_lv "lv" 0 1 6 (vg_with 100 8 0)) two_maps,
      c.lv.le_count = (new_lv "lv" 0 1 6 (vg_with 100 8 0)).le_count ∧
      c.index ≤ (new_lv "lv" 0 1 6 (vg_with 100 8 0)).le_count ∧
      call_remaining c = (new_lv "lv" 0 1 6 (vg_with 100 8 0)).le_count - c.index ∧
      (_alloc_area c.lv c.index c.pv c.pva).ret
        = to_int (min c.pva.count
            ((new_lv "lv" 0 1 6 (vg_with 100 8 0)).le_count - c.index)) ∧
      (_alloc_area c.lv c.index c.pv c.pva).lv.map
        = fill_map c.index c.pv c.pva.start
            (min c.pva.count ((new_lv "lv" 0 1 6 (vg_with 100 8 0)).le_count - c.index))
            c.lv.map ∧
      add_int c.index (_alloc_area c.lv c.index c.pv c.pva).ret
        = (c.index + min c.pva.count
            ((new_lv "lv" 0 1 6 (vg_with 100 8 0)).le_count - c.index)) % U32 ∧
      add_int c.index (_alloc_area c.lv c.index c.pv c.pva).ret
        = c.index + min c.pva.count
            ((new_lv "lv" 0 1 6 (vg_with 100 8 0)).le_count - c.index) ∧
      c.index + min c.pva.count ((new_lv "lv" 0 1 6 (vg_with 100 8 0)).le_count - c.index)
        ≤ (new_lv "lv" 0 1 6 (vg_with 100 8 0)).le_count ∧
      call_indices c
        = (List.range (min c.pva.count
            ((new_lv "lv" 0 1 6 (vg_with 100 8 0)).le_count - c.index))).map
            (fun i => i + c.index) ∧
      ∀ x ∈ call_indices c, x < (new_lv "lv" 0 1 6 (vg_with 100 8 0)).le_count) :=
  ⟨by decide,
   alloc_simple_in_bounds (new_lv "lv" 0 1 6 (vg_with 100 8 0)) two_maps
    (by unfold U32; decide) (by unfold maps_u32 areas_u32 two_maps U32; decide)⟩

end LvManip

namespace DevMgr

/-! ## Directories and the depth of the scan -/

theorem check_dev_of_not_blk (dm : dev_mgr) (st : stat_t) (h : S_ISBLK st.st_mode = false) :
    _check_dev dm st ≠ 0 := by
  unfold _check_dev
  rw [if_pos (by simp [h])]
  decide

theorem S_ISBLK_of_S_ISDIR (mode : Nat) (h : S_ISDIR mode = true) : S_ISBLK mode = false := by
  cases hb : S_ISBLK mode with
  | false => rfl
  | true =>
    rw [S_ISDIR_of_S_ISBLK mode hb] at h
    cases h

/-- What `_add_named_device` does is the same whatever `_dir_scan` would do:
the branch for directories is never reached, `_check_dev` having sent every
path that is not a block device to the exit. -/
theorem add_named_with_indep (hash : String → Nat) (w : world)
    (ds1 ds2 : dev_mgr → String → Option dev_mgr) (dm : dev_mgr) (path : String) :
    add_named_with hash w ds1 dm path = add_named_with hash w ds2 dm path := by
  unfold add_named_with
  cases hst : w.stat path with
  | none => rfl
  | some st =>
    simp only []
    by_cases hck : _check_dev dm st ≠ 0
    · rw [if_pos hck, if_pos hck]
    · rw [if_neg hck, if_neg hck]
      have hz : _check_dev dm st = 0 := by
        by_contra hne
        exact hck hne
      have hdir := S_ISDIR_of_S_ISBLK _ (S_ISBLK_of_check_dev dm st hz)
      simp only [hdir, Bool.false_eq_true, if_false]

/-- The depth allowed for directories makes no difference. -/
theorem add_named_device_depth (hash : String → Nat) (w : world) (depth : Nat)
    (dm : dev_mgr) (path : String) :
    _add_named_device hash w depth dm path = _add_named_device hash w 0 dm path := by
  cases depth with
  | zero => rfl
  | succ n =>
    rw [_add_named_device, _add_named_device]
    exact add_named_with_indep hash w _ _ dm path

/-- A path that `stat` does not find or `_check_dev` does not pass leaves the
cache as it is. -/
theorem add_named_device_rejected (hash : String → Nat) (w : world) (depth : Nat)
    (dm : dev_mgr) (path : String)
    (h : ∀ st, w.stat path = some st → _check_dev dm st ≠ 0) :
    _add_named_device hash w depth dm path = some { dm := dm, dev := none } := by
  rw [add_named_device_depth, _add_named_device]
  unfold add_named_with
  cases hst : w.stat path with
  | none => rfl
  | some st =>
    simp only []
    rw [if_pos (h st hst)]

/-- A directory is not entered: `_add_named_device` leaves the cache as it is. -/
theorem add_named_device_directory (hash : String → Nat) (w : world) (depth : Nat)
    (dm : dev_mgr) (path : String) (st : stat_t)
    (h1 : w.stat path = some st) (h2 : S_ISDIR st.st_mode = true) :
    _add_named_device hash w depth dm path = some { dm := dm, dev := none } := by
  apply add_named_device_rejected
  intro st1 hst1
  rw [h1] at hst1
  cases hst1
  exact check_dev_of_not_blk dm st (S_ISBLK_of_S_ISDIR _ h2)

/-- The function `_add_named_device` returns at every depth. -/
theorem add_named_device_some (hash : String → Nat) (w : world) (depth : Nat)
    (dm : dev_mgr) (path : String) :
    ∃ r, _add_named_device hash w depth dm path = some r := by
  rw [add_named_device_depth, _add_named_device]
  unfold add_named_with
  cases hst : w.stat path with
  | none => exact ⟨_, rfl⟩
  | some st =>
    simp only []
    by_cases hck : _check_dev dm st ≠ 0
    · rw [if_pos hck]; exact ⟨_, rfl⟩
    · rw [if_neg hck]
      have hz : _check_dev dm st = 0 := by
        by_contra hne
        exact hck hne
      have hdir := S_ISDIR_of_S_ISBLK _ (S_ISBLK_of_check_dev dm st hz)
      simp only [hdir, Bool.false_eq_true, if_false]
      cases hnm : _is_name_present hash dm path with
      | some c => exact ⟨_, rfl⟩
      | none =>
        simp only []
        split
        · exact ⟨_, rfl⟩
        · split
          · exact ⟨_, rfl⟩
          · split <;> exact ⟨_, rfl⟩

theorem dir_scan_entries_some (add_named : dev_mgr → String → Option add_result)
    (han : ∀ dm p, ∃ r, add_named dm p = some r) (dirname : String) :
    ∀ (entries : List String) (dm : dev_mgr),
      ∃ dm1, dir_scan_entries add_named dirname entries dm = some dm1 := by
  intro entries
  induction entries with
  | nil => intro dm; exact ⟨dm, rfl⟩
  | cons d tl ih =>
    intro dm
    obtain ⟨r, hr⟩ := han dm (devpath_of dirname d)
    obtain ⟨dm1, h1⟩ := ih r.dm
    refine ⟨dm1, ?_⟩
    rw [dir_scan_entries]
    unfold add_with
    rw [hr]
    exact h1

/-- The function `_dir_scan` returns at every depth. -/
theorem dir_scan_some (hash : String → Nat) (w : world) (depth : Nat)
    (dm : dev_mgr) (dirname : String) :
    ∃ dm1, _dir_scan hash w depth dm dirname = some dm1 := by
  unfold _dir_scan dir_scan_with
  cases w.scandir dirname with
  | none => exact ⟨dm, rfl⟩
  | some entries =>
    exact dir_scan_entries_some _ (add_named_device_some hash w depth) dirname entries dm

/-- Once `ret` is 1 the loop of `_full_dev_scan` scans nothing more. -/
theorem full_dev_scan_loop_skips (dir_scan : dev_mgr → String → Option dev_mgr) :
    ∀ (dirs : List String) (dm : dev_mgr),
      full_dev_scan_loop dir_scan dirs dm 1 = some (dm, 1) := by
  intro dirs
  induction dirs with
  | nil => intro dm; rfl
  | cons d tl ih =>
    intro dm
    rw [full_dev_scan_loop, if_pos (by decide)]
    exact ih dm

/-- With no directory configured `_full_dev_scan` only sets `has_scanned`. -/
theorem full_dev_scan_nil (hash : String → Nat) (w : world) (depth : Nat) (dm : dev_mgr)
    (h : dm.devdir = []) :
    _full_dev_scan hash w depth dm =
      some { dm := { dm with has_scanned := 1 }, ret := 0 } := by
  unfold _full_dev_scan
  conv_lhs => rw [h]
  rfl

/-- The function `_full_dev_scan` scans the first directory of `devdir` and no
other, and sets `has_scanned`. -/
theorem full_dev_scan_cons (hash : String → Nat) (w : world) (depth : Nat) (dm : dev_mgr)
    (d : String) (tl : List String) (h : dm.devdir = d :: tl) :
    _full_dev_scan hash w depth dm =
      match _dir_scan hash w depth dm d with
      | none => none
      | some dm1 => some { dm := { dm1 with has_scanned := 1 }, ret := 1 } := by
  unfold _full_dev_scan
  conv_lhs => rw [h]
  simp only [full_dev_scan_loop, if_neg (show ¬ (0 : Nat) ≠ 0 by decide)]
  cases hs : _dir_scan hash w depth dm d with
  | none => rfl
  | some dm1 =>
    simp only [full_dev_scan_loop_skips]

/-- The function `_full_dev_scan` returns, with `has_scanned` set. -/
theorem full_dev_scan_some (hash : String → Nat) (w : world) (depth : Nat) (dm : dev_mgr) :
    ∃ r, _full_dev_scan hash w depth dm = some r ∧ r.dm.has_scanned = 1 := by
  cases hd : dm.devdir with
  | nil =>
    rw [full_dev_scan_nil hash w depth dm hd]
    exact ⟨_, rfl, rfl⟩
  | cons d tl =>
    rw [full_dev_scan_cons hash w depth dm d tl hd]
    obtain ⟨dm1, h1⟩ := dir_scan_some hash w depth dm d
    simp only [h1]
    exact ⟨_, rfl, rfl⟩


/-! ## The scan is done once -/

theorem dir_scan_depth (hash : String → Nat) (w : world) (depth : Nat) :
    _dir_scan hash w depth = _dir_scan hash w 0 := by
  funext dm dirname
  unfold _dir_scan
  have h : _add_named_device hash w depth = _add_named_device hash w 0 := by
    funext dm1 p
    exact add_named_device_depth hash w depth dm1 p
  rw [h]

theorem init_dev_scan_depth (hash : String → Nat) (w : world) (depth : Nat) (dm : dev_mgr) :
    init_dev_scan hash w depth dm = init_dev_scan hash w 0 dm := by
  unfold init_dev_scan _full_dev_scan
  rw [dir_scan_depth]

/-- The function `init_dev_scan` returns, with `has_scanned` set and with the
list `all` as the counter. -/
theorem init_dev_scan_some (hash : String → Nat) (w : world) (depth : Nat) (dm : dev_mgr) :
    ∃ r, init_dev_scan hash w depth dm = some r ∧ r.dm.has_scanned ≠ 0 ∧
      r.counter = r.dm.all := by
  unfold init_dev_scan
  by_cases h : dm.has_scanned = 0
  · rw [if_pos h]
    obtain ⟨r, hr, hs⟩ := full_dev_scan_some hash w depth dm
    rw [hr]
    refine ⟨_, rfl, ?_, rfl⟩
    show r.dm.has_scanned ≠ 0
    rw [hs]
    decide
  · rw [if_neg h]
    exact ⟨_, rfl, h, rfl⟩

/-- C11: `init_dev_scan` returns for every cache and system and leaves
`has_scanned` set.  For a cache with `has_scanned` set, whatever the system, the
depth and the path: `dev_by_name` returns the cache as it was together with
the result of the by-name lookup `_is_name_present` (so `NULL` for a path
that is not in the index), and `init_dev_scan` returns the cache as it was
together with its list `all`; neither result changes with the system. -/
theorem scanned_cache_is_frozen (hash : String → Nat) (w : world) (depth : Nat)
    (dm0 : dev_mgr) :
    (∃ r, init_dev_scan hash w depth dm0 = some r ∧ r.dm.has_scanned ≠ 0) ∧
    ∀ dm : dev_mgr, dm.has_scanned ≠ 0 → ∀ name : String,
      dev_by_name hash w depth dm name =
        some { dm := dm, dev := _is_name_present hash dm name } ∧
      (_is_name_present hash dm name = none →
        dev_by_name hash w depth dm name = some { dm := dm, dev := none }) ∧
      init_dev_scan hash w depth dm = some { dm := dm, counter := dm.all } ∧
      ∀ (w2 : world) (depth2 : Nat),
        dev_by_name hash w2 depth2 dm name = dev_by_name hash w depth dm name ∧
        init_dev_scan hash w2 depth2 dm = init_dev_scan hash w depth dm := by
  constructor
  · obtain ⟨r, hr, hs, _⟩ := init_dev_scan_some hash w depth dm0
    exact ⟨r, hr, hs⟩
  · intro dm hdm name
    have hname : ∀ (w1 : world) (d1 : Nat), dev_by_name hash w1 d1 dm name =
        some { dm := dm, dev := _is_name_present hash dm name } := by
      intro w1 d1
      unfold dev_by_name
      cases hc : _is_name_present hash dm name with
      | some c => rfl
      | none =>
        simp only []
        rw [if_neg hdm]
    have hscan : ∀ (w1 : world) (d1 : Nat), init_dev_scan hash w1 d1 dm =
        some { dm := dm, counter := dm.all } := by
      intro w1 d1
      unfold init_dev_scan
      rw [if_neg hdm]
    refine ⟨hname w depth, ?_, hscan w depth, ?_⟩
    · intro hnone
      rw [hname w depth, hnone]
    · intro w2 depth2
      rw [hname w2 depth2, hname w depth, hscan w2 depth2, hscan w depth]
      exact ⟨rfl, rfl⟩

/-- C11, an instance: the cache scanned for `/dev` in `fs_dirs` is frozen;
the lookup of `/dev2/b`, a block device 8:2 that the cache does not hold, is a
miss and leaves the cache as it was. -/
theorem scanned_cache_is_frozen_example :
    (scanned fs_dirs empty_cache).has_scanned ≠ 0 ∧
    accepted fs_dirs (scanned fs_dirs empty_cache) "/dev2/b" (blk 2050) ∧
    dev_by_name name_hash fs_dirs 3 (scanned fs_dirs empty_cache) "/dev2/b" =
      some { dm := scanned fs_dirs empty_cache, dev := none } :=
  ⟨by decide, by decide,
   ((scanned_cache_is_frozen name_hash fs_dirs 3 empty_cache).2
      (scanned fs_dirs empty_cache) (by decide) "/dev2/b").2.1 (by decide)⟩

/-! ## The enumeration -/

theorem next_devices_all :
    ∀ (counter : List Nat) (k : Nat),
      next_devices (counter.length + k) counter =
        (counter.map some ++ List.replicate k none, []) := by
  intro counter
  induction counter with
  | nil =>
    intro k
    induction k with
    | zero => rfl
    | succ k ih =>
      have h := ih
      simp only [List.length_nil, Nat.zero_add, List.map_nil, List.nil_append] at h ⊢
      rw [next_devices, next_device]
      simp only [h, List.replicate_succ]
  | cons di tl ih =>
    intro k
    have h := ih k
    rw [List.length_cons, Nat.add_right_comm, next_devices, next_device]
    simp only [h, List.map_cons, List.cons_append]

theorem foldl_list_insert_all :
    ∀ (ds : List Nat) (dm : dev_mgr),
      (ds.foldl _list_insert dm).all = ds.reverse ++ dm.all := by
  intro ds
  induction ds with
  | nil => intro dm; rfl
  | cons d tl ih =>
    intro dm
    rw [List.foldl_cons, ih, List.reverse_cons, List.append_assoc]
    rfl

/-- C12: for every cache and system `init_dev_scan` returns, and its counter
is the list `all` of the cache it leaves.  Calling `next_device` on a counter
as many times as the list is long, and `k` times more, yields the records of
the list in order, each at its place, then `k` times `NULL`, and leaves the
empty counter; on the empty counter `next_device` yields `NULL` and leaves it
empty.  The list is in reverse order of insertion: after `_list_insert` of the
records `ds` one after the other the list is `ds` reversed, followed by what
it held before. -/
theorem enumeration_is_list (hash : String → Nat) (w : world) (depth : Nat) (dm : dev_mgr) :
    ∃ r, init_dev_scan hash w depth dm = some r ∧ r.counter = r.dm.all ∧
      (∀ k, next_devices (r.counter.length + k) r.counter =
        (r.dm.all.map some ++ List.replicate k none, [])) ∧
      (next_devices r.counter.length r.counter).2 = [] ∧
      next_device [] = (none, []) ∧
      (∀ (di : Nat) (next : List Nat), next_device (di :: next) = (some di, next)) ∧
      ∀ (ds : List Nat) (dm1 : dev_mgr),
        (ds.foldl _list_insert dm1).all = ds.reverse ++ dm1.all := by
  obtain ⟨r, hr, _, hc⟩ := init_dev_scan_some hash w depth dm
  refine ⟨r, hr, hc, ?_, ?_, rfl, fun _ _ => rfl, foldl_list_insert_all⟩
  · intro k
    rw [next_devices_all, hc]
  · have h := next_devices_all r.counter 0
    rw [Nat.add_zero] at h
    rw [h]

/-! ## What the scan does not reach -/

set_option maxRecDepth 100000 in
/-- C13, as the code behaves: in `fs_dirs` the path `/dev/sub` is a directory
whose name does not begin with a dot and which holds the block device `c`
with the valid major 8.  At every depth `_add_named_device` on `/dev/sub`,
and `dev_by_name` on it before any scan, return `NULL` and leave the empty cache
as it is, and after `init_dev_scan`
for the base directory `/dev` the path `/dev/sub/c` is not in the by-name
index. -/
theorem subdirectory_not_scanned :
    fs_dirs.stat "/dev/sub" = some dir_stat ∧ S_ISDIR dir_stat.st_mode = true ∧
    fs_dirs.scandir "/dev" = some ["a", "f", "sub", "x"] ∧
    fs_dirs.scandir "/dev/sub" = some ["c"] ∧
    devpath_of "/dev/sub" "c" = "/dev/sub/c" ∧
    accepted fs_dirs empty_cache "/dev/sub/c" (blk 2051) ∧
    (∀ depth, _add_named_device name_hash fs_dirs depth empty_cache "/dev/sub" =
      some { dm := empty_cache, dev := none }) ∧
    (∀ depth, dev_by_name name_hash fs_dirs depth empty_cache "/dev/sub" =
      some { dm := empty_cache, dev := none }) ∧
    (∀ depth, init_dev_scan name_hash fs_dirs depth empty_cache =
      some { dm := scanned fs_dirs empty_cache, counter := [0] }) ∧
    (scanned fs_dirs empty_cache).has_scanned = 1 ∧
    names_of (scanned fs_dirs empty_cache) (by_name (scanned fs_dirs empty_cache)) =
      ["/dev/a"] ∧
    _is_name_present name_hash (scanned fs_dirs empty_cache) "/dev/sub/c" = none := by
  refine ⟨rfl, by decide, rfl, rfl, by decide, by decide, ?_, ?_, ?_, by decide, by decide,
    by decide⟩
  · intro depth
    exact add_named_device_directory name_hash fs_dirs depth empty_cache "/dev/sub"
      dir_stat rfl (by decide)
  · intro depth
    unfold dev_by_name
    rw [show _is_name_present name_hash empty_cache "/dev/sub" = none by decide]
    simp only []
    rw [if_pos (show empty_cache.has_scanned = 0 from rfl)]
    exact add_named_device_directory name_hash fs_dirs depth empty_cache "/dev/sub"
      dir_stat rfl (by decide)
  · intro depth
    rw [init_dev_scan_depth]
    decide

set_option maxRecDepth 100000 in
/-- C19, as the code behaves: `cache_aa` is reached from the empty cache by
discovering `/dev/a` as 8:1 and then again as 8:2.  Its list `all` holds the
one record, whose device number is now 2050, and `dev_by_dev` of 2050 is a
miss: the record is still on the chain of the slot of 2049. -/
theorem changed_number_lookup_misses :
    cache_aa = discover fs3 (discover fs1 empty_cache "/dev/a") "/dev/a" ∧
    cache_aa.all = [0] ∧
    deref cache_aa 0 = some { name := "/dev/a", dev := 2050 } ∧
    numbers_of cache_aa cache_aa.all = [2050] ∧
    dev_by_dev cache_aa 2050 = none ∧
    cache_aa.dev_slots.getD (_hash_dev 2049 &&& 127) [] = [0] ∧
    cache_aa.dev_slots.getD (_hash_dev 2050 &&& 127) [] = [] := by
  refine ⟨rfl, by decide, by decide, by decide, by decide, by decide, by decide⟩


/-! ## What a scan of one directory collects -/

theorem foldl_check_eq_zero (s : Int) :
    ∀ (l : List Int) (r : Int),
      l.foldl (fun ret major => if major = s then 0 else ret) r = 0 ↔ r = 0 ∨ s ∈ l := by
  intro l
  induction l with
  | nil => intro r; simp
  | cons a tl ih =>
    intro r
    rw [List.foldl_cons, ih]
    by_cases ha : a = s
    · simp [ha]
    · rw [if_neg ha]
      simp only [List.mem_cons]
      constructor
      · rintro (h | h)
        · exact Or.inl h
        · exact Or.inr (Or.inr h)
      · rintro (h | h | h)
        · exact Or.inl h
        · exact absurd h.symm ha
        · exact Or.inr h

/-- The function `_check_dev` returns 0 for the block devices whose major is
on the list of valid majors, and for nothing else. -/
theorem check_dev_eq_zero_iff (dm : dev_mgr) (st : stat_t) :
    _check_dev dm st = 0 ↔ S_ISBLK st.st_mode = true ∧ MAJOR st.st_rdev ∈ dm.dev_list := by
  constructor
  · intro h
    have hb := S_ISBLK_of_check_dev dm st h
    refine ⟨hb, ?_⟩
    unfold _check_dev at h
    rw [if_neg (by simp [hb])] at h
    have h2 := (foldl_check_eq_zero (MAJOR st.st_rdev) dm.dev_list 1).1 h
    rcases h2 with h2 | h2
    · cases h2
    · exact h2
  · rintro ⟨hb, hm⟩
    unfold _check_dev
    rw [if_neg (by simp [hb])]
    exact (foldl_check_eq_zero (MAJOR st.st_rdev) dm.dev_list 1).2 (Or.inr hm)

theorem check_dev_congr (dm dm1 : dev_mgr) (st : stat_t) (h : dm1.dev_list = dm.dev_list) :
    _check_dev dm1 st = _check_dev dm st := by
  unfold _check_dev
  rw [h]

theorem numbers_of_congr (dm dm1 : dev_mgr) :
    ∀ l : List Nat, (∀ c ∈ l, deref dm1 c = deref dm c) →
      numbers_of dm1 l = numbers_of dm l := by
  intro l
  induction l with
  | nil => intro _; rfl
  | cons a tl ih =>
    intro h
    unfold numbers_of at ih ⊢
    rw [List.filterMap_cons, List.filterMap_cons, h a (List.mem_cons_self _ _),
      ih fun c hc => h c (List.mem_cons_of_mem _ hc)]

theorem mem_numbers_of (dm : dev_mgr) (l : List Nat) (n : Nat) :
    n ∈ numbers_of dm l ↔ ∃ c ∈ l, ∃ d, deref dm c = some d ∧ d.dev = n := by
  unfold numbers_of
  simp only [List.mem_filterMap, Option.map_eq_some']

theorem is_device_present_some (dm : dev_mgr) (n c : Nat)
    (h : _is_device_present dm n = some c) :
    c ∈ by_number dm ∧ ∃ d, deref dm c = some d ∧ d.dev = n := by
  unfold _is_device_present at h
  have hmem := List.mem_of_find?_eq_some h
  have hp := List.find?_some h
  refine ⟨mem_flatten_of_mem_getD _ _ _ hmem, ?_⟩
  cases hd : deref dm c with
  | none => rw [hd] at hp; cases hp
  | some d =>
    rw [hd] at hp
    exact ⟨d, rfl, by simpa using hp⟩

theorem is_name_present_some (hash : String → Nat) (dm : dev_mgr) (name : String) (c : Nat)
    (h : _is_name_present hash dm name = some c) :
    c ∈ by_name dm ∧ ∃ d, deref dm c = some d ∧ d.name = name := by
  unfold _is_name_present at h
  have hmem := List.mem_of_find?_eq_some h
  have hp := List.find?_some h
  refine ⟨mem_flatten_of_mem_getD _ _ _ hmem, ?_⟩
  cases hd : deref dm c with
  | none => rw [hd] at hp; cases hp
  | some d =>
    rw [hd] at hp
    exact ⟨d, rfl, by simpa using hp⟩

/-- Writing to a record the device number it already carries changes nothing. -/
theorem set_dev_same (dm : dev_mgr) (c n : Nat) (d : device)
    (hd : deref dm c = some d) (hn : d.dev = n) : set_dev dm c n = dm := by
  have hpool : dm.pool.modify (Option.map fun d => { d with dev := n }) c = dm.pool := by
    apply List.ext_getElem?
    intro m
    rw [List.getElem?_modify]
    by_cases hcm : c = m
    · subst hcm
      unfold deref at hd
      rw [List.getD_eq_getElem?_getD] at hd
      cases hg : dm.pool[c]? with
      | none => rfl
      | some x =>
        rw [hg] at hd
        simp only [Option.getD_some] at hd
        subst hd
        subst hn
        simp
    · cases hg : dm.pool[m]? with
      | none => rfl
      | some x => simp [hcm]
  unfold set_dev
  rw [hpool]

theorem deref_lt (dm : dev_mgr) (c : Nat) (d : device) (h : deref dm c = some d) :
    c < dm.pool.length := by
  by_contra hn
  unfold deref at h
  rw [List.getD_eq_getElem?_getD, List.getElem?_eq_none (Nat.le_of_not_lt hn)] at h
  cases h

theorem deref_of_pool_append (dm dm1 : dev_mgr) (x : Option device)
    (hp : dm1.pool = dm.pool ++ [x]) :
    (∀ c, c < dm.pool.length → deref dm1 c = deref dm c) ∧
    deref dm1 dm.pool.length = x := by
  constructor
  · intro c hc
    have h := deref_append dm x c hc
    unfold deref at h ⊢
    rw [hp]
    exact h
  · have h := deref_append_new dm x
    unfold deref at h ⊢
    rw [hp]
    exact h

/-- The shape of the cache after a new path was added, the pool yielding the
record and the copy of the name. -/
theorem add_named_device_new_shape (hash : String → Nat) (w : world) (depth : Nat)
    (dm : dev_mgr) (path : String) (st : stat_t)
    (hwf : wf dm) (ha : accepted w dm path st)
    (hc : _is_name_present hash dm path = none)
    (hp : w.pool_alloc_ok dm.pool.length = true) (hs : w.pool_strdup_ok path = true) :
    ∃ dm1, _add_named_device hash w depth dm path
        = some { dm := dm1, dev := some dm.pool.length } ∧
      dm1.dev_list = dm.dev_list ∧
      dm1.pool = dm.pool ++ [some { name := path, dev := st.st_rdev }] ∧
      ((∃ c0, _is_device_present dm st.st_rdev = some c0 ∧
          dm1.dev_slots = dm.dev_slots ∧ dm1.all = dm.all) ∨
       (_is_device_present dm st.st_rdev = none ∧
          dm1.dev_slots = push_slot dm.dev_slots (_hash_dev st.st_rdev &&& (dm.mask % U32))
            dm.pool.length ∧
          dm1.all = dm.pool.length :: dm.all)) := by
  have hnew := add_named_device_new hash w depth dm path st ha hc hp hs
  have hins := name_insert_new hash dm hwf path st.st_rdev hc
  rw [hins] at hnew
  have hderef : ∀ c, c < dm.pool.length →
      deref { with_record dm path st.st_rdev with
        name_slots := push_slot dm.name_slots (hash path &&& (dm.mask % U32)) dm.pool.length }
        c = deref dm c := fun c hlt => deref_append dm _ c hlt
  have hdn : deref { with_record dm path st.st_rdev with
        name_slots := push_slot dm.name_slots (hash path &&& (dm.mask % U32)) dm.pool.length }
        dm.pool.length = some { name := path, dev := st.st_rdev } := deref_append_new dm _
  have hpres := is_device_present_congr dm
    { with_record dm path st.st_rdev with
      name_slots := push_slot dm.name_slots (hash path &&& (dm.mask % U32)) dm.pool.length }
    hwf rfl rfl hderef st.st_rdev
  rw [hpres] at hnew
  cases hdev : _is_device_present dm st.st_rdev with
  | some c0 =>
    rw [hdev] at hnew
    exact ⟨_, hnew, rfl, rfl, Or.inl ⟨c0, rfl, rfl, rfl⟩⟩
  | none =>
    rw [hdev] at hnew
    have hdi : _dev_insert { with_record dm path st.st_rdev with
          name_slots := push_slot dm.name_slots (hash path &&& (dm.mask % U32))
            dm.pool.length } dm.pool.length =
        { with_record dm path st.st_rdev with
          name_slots := push_slot dm.name_slots (hash path &&& (dm.mask % U32))
            dm.pool.length
          dev_slots := push_slot dm.dev_slots (_hash_dev st.st_rdev &&& (dm.mask % U32))
            dm.pool.length } := by
      unfold _dev_insert
      simp only [hdn]
      rfl
    rw [hdi] at hnew
    exact ⟨_, hnew, rfl, rfl, Or.inr ⟨rfl, rfl, rfl⟩⟩

/-- One step of a scan: the state of the scan is kept, and the device numbers
on the list are those it held and, if the path is accepted, the number of the
path. -/
theorem add_named_device_scan_step (hash : String → Nat) (w : world) (majors : List Int)
    (depth : Nat) (dm : dev_mgr) (path : String)
    (hpa : ∀ n, w.pool_alloc_ok n = true) (hps : ∀ s, w.pool_strdup_ok s = true)
    (hinv : scan_inv w majors dm) :
    ∃ r, _add_named_device hash w depth dm path = some r ∧ scan_inv w majors r.dm ∧
      ∀ n, n ∈ numbers_of r.dm r.dm.all ↔
        n ∈ numbers_of dm dm.all ∨
          ∃ st, w.stat path = some st ∧ _check_dev dm st = 0 ∧ st.st_rdev = n := by
  obtain ⟨hwf, hmaj, hsub, hrec⟩ := hinv
  have hrej : (∀ st, w.stat path = some st → _check_dev dm st ≠ 0) →
      ∃ r, _add_named_device hash w depth dm path = some r ∧ scan_inv w majors r.dm ∧
        ∀ n, n ∈ numbers_of r.dm r.dm.all ↔
          n ∈ numbers_of dm dm.all ∨
            ∃ st, w.stat path = some st ∧ _check_dev dm st = 0 ∧ st.st_rdev = n := by
    intro h
    refine ⟨_, add_named_device_rejected hash w depth dm path h, ⟨hwf, hmaj, hsub, hrec⟩, ?_⟩
    intro n
    constructor
    · exact Or.inl
    · rintro (hn | ⟨st, hst, hck, _⟩)
      · exact hn
      · exact absurd hck (h st hst)
  have hopt : w.stat path = none ∨ ∃ st, w.stat path = some st := by
    cases w.stat path with
    | none => exact Or.inl rfl
    | some st => exact Or.inr ⟨st, rfl⟩
  rcases hopt with hst | ⟨st, hst⟩
  · apply hrej
    intro st h
    rw [hst] at h
    cases h
  · by_cases hck : _check_dev dm st = 0
    · have ha : accepted w dm path st := ⟨hst, hck⟩
      cases hnm : _is_name_present hash dm path with
      | some c =>
        obtain ⟨_, d, hd, hdn⟩ := is_name_present_some hash dm path c hnm
        obtain ⟨⟨st1, hst1, hr1⟩, hmem⟩ := hrec c d hd
        rw [hdn, hst] at hst1
        cases hst1
        have hsame := set_dev_same dm c st.st_rdev d hd hr1.symm
        have hk := add_named_device_known hash w depth dm path st c ha hnm
        rw [hsame] at hk
        refine ⟨_, hk, ⟨hwf, hmaj, hsub, hrec⟩, ?_⟩
        intro n
        constructor
        · exact Or.inl
        · rintro (hn | ⟨st2, hst2, _, hn2⟩)
          · exact hn
          · rw [hst] at hst2
            cases hst2
            rw [← hn2, hr1]
            exact hmem
      | none =>
        obtain ⟨dm1, hres, hl1, hp1, hcase⟩ := add_named_device_new_shape hash w depth dm path st
          hwf ha hnm (hpa _) (hps _)
        have hwf1 : wf dm1 := add_named_device_wf hash w depth dm path _ hwf hres
        obtain ⟨hold, hnewrec⟩ := deref_of_pool_append dm dm1 _ hp1
        have hnum : numbers_of dm1 dm.all = numbers_of dm dm.all :=
          numbers_of_congr dm dm1 dm.all fun c hc => hold c (hwf.2.2.2.2.2.2.2 c hc)
        have hlen1 : dm1.pool.length = dm.pool.length + 1 := by
          rw [hp1, List.length_append, List.length_singleton]
        have hsplit : ∀ c d, deref dm1 c = some d →
            (c < dm.pool.length ∧ deref dm c = some d) ∨
            (c = dm.pool.length ∧ d = { name := path, dev := st.st_rdev }) := by
          intro c d hd
          have hlt := deref_lt dm1 c d hd
          rw [hlen1] at hlt
          by_cases hc : c < dm.pool.length
          · left
            rw [hold c hc] at hd
            exact ⟨hc, hd⟩
          · right
            have hce : c = dm.pool.length := by omega
            subst hce
            rw [hnewrec] at hd
            exact ⟨rfl, (Option.some.inj hd).symm⟩
        rcases hcase with ⟨c0, hc0, hds, hall⟩ | ⟨hnone, hds, hall⟩
        · obtain ⟨hc0mem, d0, hd0, hd0n⟩ := is_device_present_some dm st.st_rdev c0 hc0
          have hin : st.st_rdev ∈ numbers_of dm dm.all :=
            (mem_numbers_of dm dm.all st.st_rdev).2 ⟨c0, hsub c0 hc0mem, d0, hd0, hd0n⟩
          refine ⟨_, hres, ⟨hwf1, hl1.trans hmaj, ?_, ?_⟩, ?_⟩
          · intro c hc
            show c ∈ dm1.all
            rw [hall]
            apply hsub
            show c ∈ dm.dev_slots.flatten
            rw [← hds]
            exact hc
          · intro c d hd
            show _ ∧ d.dev ∈ numbers_of dm1 dm1.all
            rw [hall, hnum]
            rcases hsplit c d hd with ⟨_, hd1⟩ | ⟨_, hd1⟩
            · exact hrec c d hd1
            · subst hd1
              exact ⟨⟨st, hst, rfl⟩, hin⟩
          · intro n
            show n ∈ numbers_of dm1 dm1.all ↔ _
            rw [hall, hnum]
            constructor
            · exact Or.inl
            · rintro (hn | ⟨st2, hst2, _, hn2⟩)
              · exact hn
              · rw [hst] at hst2
                cases hst2
                rw [← hn2]
                exact hin
        · have hnum1 : numbers_of dm1 dm1.all = st.st_rdev :: numbers_of dm dm.all := by
            rw [hall]
            unfold numbers_of
            rw [List.filterMap_cons, hnewrec]
            simp only [Option.map_some']
            exact congrArg _ hnum
          refine ⟨_, hres, ⟨hwf1, hl1.trans hmaj, ?_, ?_⟩, ?_⟩
          · intro c hc
            show c ∈ dm1.all
            rw [hall]
            have hc1 : c ∈ dm1.dev_slots.flatten := hc
            rw [hds] at hc1
            rcases mem_flatten_push_slot _ _ _ _ hc1 with h | h
            · rw [h]
              exact List.mem_cons_self _ _
            · exact List.mem_cons_of_mem _ (hsub c h)
          · intro c d hd
            show _ ∧ d.dev ∈ numbers_of dm1 dm1.all
            rw [hnum1]
            rcases hsplit c d hd with ⟨_, hd1⟩ | ⟨_, hd1⟩
            · exact ⟨(hrec c d hd1).1, List.mem_cons_of_mem _ (hrec c d hd1).2⟩
            · subst hd1
              exact ⟨⟨st, hst, rfl⟩, List.mem_cons_self _ _⟩
          · intro n
            show n ∈ numbers_of dm1 dm1.all ↔ _
            rw [hnum1, List.mem_cons]
            constructor
            · rintro (hn | hn)
              · exact Or.inr ⟨st, hst, hck, hn.symm⟩
              · exact Or.inl hn
            · rintro (hn | ⟨st2, hst2, _, hn2⟩)
              · exact Or.inr hn
              · rw [hst] at hst2
                cases hst2
                exact Or.inl hn2.symm
    · apply hrej
      intro st1 h
      rw [hst] at h
      cases h
      exact hck


/-! ## C14 -/

theorem dir_scan_entries_numbers (hash : String → Nat) (w : world) (majors : List Int)
    (depth : Nat) (dir : String)
    (hpa : ∀ n, w.pool_alloc_ok n = true) (hps : ∀ s, w.pool_strdup_ok s = true) :
    ∀ (entries : List String) (dm : dev_mgr), scan_inv w majors dm →
      ∃ dm1, dir_scan_entries (_add_named_device hash w depth) dir entries dm = some dm1 ∧
        scan_inv w majors dm1 ∧
        ∀ n, n ∈ numbers_of dm1 dm1.all ↔
          n ∈ numbers_of dm dm.all ∨
            ∃ e ∈ entries, ∃ st, w.stat (devpath_of dir e) = some st ∧
              _check_dev dm st = 0 ∧ st.st_rdev = n := by
  intro entries
  induction entries with
  | nil =>
    intro dm hinv
    refine ⟨dm, rfl, hinv, ?_⟩
    intro n
    constructor
    · exact Or.inl
    · rintro (h | ⟨e, he, _⟩)
      · exact h
      · cases he
  | cons e tl ih =>
    intro dm hinv
    obtain ⟨r, hr, hinv1, hnum1⟩ :=
      add_named_device_scan_step hash w majors depth dm (devpath_of dir e) hpa hps hinv
    obtain ⟨dm2, h2, hinv2, hnum2⟩ := ih r.dm hinv1
    have hck : ∀ st, _check_dev r.dm st = _check_dev dm st := fun st =>
      check_dev_congr dm r.dm st (hinv1.2.1.trans hinv.2.1.symm)
    refine ⟨dm2, ?_, hinv2, ?_⟩
    · rw [dir_scan_entries]
      unfold add_with
      rw [hr]
      exact h2
    · intro n
      rw [hnum2, hnum1]
      constructor
      · rintro ((h | ⟨st, hst, hc, hn⟩) | ⟨e1, he1, st, hst, hc, hn⟩)
        · exact Or.inl h
        · exact Or.inr ⟨e, List.mem_cons_self _ _, st, hst, hc, hn⟩
        · exact Or.inr ⟨e1, List.mem_cons_of_mem _ he1, st, hst, (hck st).symm.trans hc, hn⟩
      · rintro (h | ⟨e1, he1, st, hst, hc, hn⟩)
        · exact Or.inl (Or.inl h)
        · rcases List.mem_cons.1 he1 with h1 | h1
          · subst h1
            exact Or.inl (Or.inr ⟨st, hst, hc, hn⟩)
          · exact Or.inr ⟨e1, h1, st, hst, (hck st).trans hc, hn⟩

/-- A joined path of fewer than 128 characters is not cut by `snprintf`. -/
theorem devpath_of_short (directory devname : String)
    (h : (directory ++ "/" ++ devname).length < 128) :
    devpath_of directory devname = _collapse_slashes (directory ++ "/" ++ devname) := by
  unfold devpath_of
  have hl : (directory ++ "/" ++ devname).data.length ≤ 127 := by
    have h1 : (directory ++ "/" ++ devname).data.length < 128 := h
    omega
  rw [List.take_of_length_le hl]

/-- A cache with its tables in order and no record is in the state of a scan. -/
theorem scan_inv_of_empty (w : world) (dm : dev_mgr) (hwf : wf dm) (hempty : dm.pool = []) :
    scan_inv w dm.dev_list dm ∧ dm.all = [] := by
  have hlen : dm.pool.length = 0 := by rw [hempty]; rfl
  refine ⟨⟨hwf, rfl, ?_, ?_⟩, ?_⟩
  · intro c hc
    have := hwf.2.2.2.2.2.2.1 c hc
    omega
  · intro c d hd
    have := deref_lt dm c d hd
    omega
  · cases hall : dm.all with
    | nil => rfl
    | cons a tl =>
      have := hwf.2.2.2.2.2.2.2 a (by rw [hall]; exact List.mem_cons_self _ _)
      omega

/-- C14: let a cache have its tables in order, no record, `has_scanned` clear
and the one base directory `dir`; let `scandir` report `entries` for `dir`,
every joined path `dir/e` being shorter than 128 characters, and let the pool
yield every record and every copy of a name.  Then `init_dev_scan` returns with
`has_scanned` set, the calls of `next_device` on its counter yield the records
of the list `all`, and a number is carried by one of these records if and only
if it is the `st_rdev` of an entry `e` for which `stat` of the joined path
(its slashes collapsed) succeeds with a block device whose major is on the list
of valid majors.  Entries for which `stat` fails, which are no block device or
whose major is not on the list thus contribute nothing. -/
theorem scan_yields_block_devices (hash : String → Nat) (w : world) (depth : Nat)
    (dm : dev_mgr) (dir : String) (entries : List String)
    (hwf : wf dm) (hempty : dm.pool = []) (hns : dm.has_scanned = 0)
    (hdir : dm.devdir = [dir]) (hents : w.scandir dir = some entries)
    (hlen : ∀ e ∈ entries, (dir ++ "/" ++ e).length < 128)
    (hpa : ∀ n, w.pool_alloc_ok n = true) (hps : ∀ s, w.pool_strdup_ok s = true) :
    ∃ r, init_dev_scan hash w depth dm = some r ∧ r.dm.has_scanned = 1 ∧
      (next_devices r.counter.length r.counter).1 = r.dm.all.map some ∧
      ∀ n, n ∈ numbers_of r.dm r.dm.all ↔
        ∃ e ∈ entries, ∃ st, w.stat (_collapse_slashes (dir ++ "/" ++ e)) = some st ∧
          S_ISBLK st.st_mode = true ∧ MAJOR st.st_rdev ∈ dm.dev_list ∧ st.st_rdev = n := by
  obtain ⟨hinv, hall⟩ := scan_inv_of_empty w dm hwf hempty
  obtain ⟨dm1, h1, _, hnum⟩ :=
    dir_scan_entries_numbers hash w dm.dev_list depth dir hpa hps entries dm hinv
  have hscan : _dir_scan hash w depth dm dir = some dm1 := by
    unfold _dir_scan dir_scan_with
    rw [hents]
    exact h1
  have hres : init_dev_scan hash w depth dm =
      some { dm := { dm1 with has_scanned := 1 }, counter := dm1.all } := by
    unfold init_dev_scan
    rw [if_pos hns, full_dev_scan_cons hash w depth dm dir [] hdir, hscan]
  refine ⟨_, hres, rfl, ?_, ?_⟩
  · have h := next_devices_all dm1.all 0
    rw [Nat.add_zero, List.replicate_zero, List.append_nil] at h
    show (next_devices dm1.all.length dm1.all).1 = dm1.all.map some
    rw [h]
  · intro n
    show n ∈ numbers_of dm1 dm1.all ↔ _
    rw [hnum, hall]
    constructor
    · rintro (h | ⟨e, he, st, hst, hc, hn⟩)
      · cases h
      · rw [devpath_of_short dir e (hlen e he)] at hst
        obtain ⟨hb, hm⟩ := (check_dev_eq_zero_iff dm st).1 hc
        exact ⟨e, he, st, hst, hb, hm, hn⟩
    · rintro ⟨e, he, st, hst, hb, hm, hn⟩
      refine Or.inr ⟨e, he, st, ?_, (check_dev_eq_zero_iff dm st).2 ⟨hb, hm⟩, hn⟩
      rw [devpath_of_short dir e (hlen e he)]
      exact hst

set_option maxRecDepth 100000 in
/-- C14 on the directory `/dev` of `fs_dirs`, which holds the block device `a`
(8:1), the regular file `f`, the directory `sub` and the block device `x` of
the major 3, major 8 alone being valid: the enumeration yields the one number
2049. -/
theorem scan_yields_block_devices_example :
    numbers_of (scanned fs_dirs empty_cache) (scanned fs_dirs empty_cache).all = [2049] ∧
    ∃ r, init_dev_scan name_hash fs_dirs 1 empty_cache = some r ∧ r.dm.has_scanned = 1 ∧
      (next_devices r.counter.length r.counter).1 = r.dm.all.map some ∧
      ∀ n, n ∈ numbers_of r.dm r.dm.all ↔
        ∃ e ∈ ["a", "f", "sub", "x"], ∃ st,
          fs_dirs.stat (_collapse_slashes ("/dev" ++ "/" ++ e)) = some st ∧
          S_ISBLK st.st_mode = true ∧ MAJOR st.st_rdev ∈ empty_cache.dev_list ∧
          st.st_rdev = n :=
  ⟨by decide,
   scan_yields_block_devices name_hash fs_dirs 1 empty_cache "/dev" ["a", "f", "sub", "x"]
    (by unfold wf U32; decide) rfl rfl rfl rfl (by decide) (fun _ => rfl) (fun _ => rfl)⟩


/-! ## The scan of `/proc/devices` -/

theorem text_lines_long :
    ∀ (cs acc : List Char), cs ≠ [] →
      ∃ l ∈ text_lines cs acc, acc.length + 1 ≤ l.length := by
  intro cs
  induction cs with
  | nil => intro acc h; exact absurd rfl h
  | cons c cs ih =>
    intro acc _
    rw [text_lines]
    by_cases hc : c = NL
    · rw [if_pos hc]
      exact ⟨_, List.mem_cons_self _ _, by simp⟩
    · rw [if_neg hc]
      cases cs with
      | nil =>
        refine ⟨(c :: acc).reverse, ?_, by simp⟩
        simp [text_lines]
      | cons c2 cs2 =>
        obtain ⟨l, hl, hlen⟩ := ih (c :: acc) (by simp)
        refine ⟨l, hl, ?_⟩
        simp only [List.length_cons] at hlen
        omega

/-- The buffers `fgets` fills are the lines of the text, when every line, its
newline counted, is shorter than 80 characters. -/
theorem fgets_lines_eq :
    ∀ (cs : List Char) (room : Nat) (acc : List Char), room + acc.length = 79 →
      (∀ l ∈ text_lines cs acc, l.length < 80) →
      fgets_lines cs room acc = text_lines cs acc := by
  intro cs
  induction cs with
  | nil => intro room acc _ _; rfl
  | cons c cs ih =>
    intro room acc hroom hlen
    rw [fgets_lines, text_lines]
    rw [text_lines] at hlen
    by_cases hc : c = NL
    · rw [if_pos hc] at hlen
      rw [if_pos (Or.inl hc), if_pos hc]
      rw [ih 79 [] rfl fun l hl => hlen l (List.mem_cons_of_mem _ hl)]
    · rw [if_neg hc] at hlen
      rw [if_neg hc]
      by_cases hr : room ≤ 1
      · rw [if_pos (Or.inr hr)]
        cases cs with
        | nil => simp [fgets_lines, text_lines]
        | cons c2 cs2 =>
          obtain ⟨l, hl, hll⟩ := text_lines_long (c2 :: cs2) (c :: acc) (by simp)
          have := hlen l hl
          simp only [List.length_cons] at hll
          omega
      · rw [if_neg (by
          intro h
          rcases h with h | h
          · exact hc h
          · exact hr h)]
        exact ih (room - 1) (c :: acc) (by simp only [List.length_cons]; omega) hlen

theorem mem_text_lines :
    ∀ (cs acc l : List Char), l ∈ text_lines cs acc → ∀ c ∈ l, c ∈ acc ∨ c ∈ cs := by
  intro cs
  induction cs with
  | nil =>
    intro acc l hl c hc
    rw [text_lines] at hl
    by_cases he : acc.isEmpty = true
    · rw [if_pos he] at hl
      cases hl
    · rw [if_neg he] at hl
      rw [List.mem_singleton] at hl
      subst hl
      exact Or.inl (List.mem_reverse.1 hc)
  | cons a cs ih =>
    intro acc l hl c hc
    rw [text_lines] at hl
    by_cases ha : a = NL
    · rw [if_pos ha] at hl
      rcases List.mem_cons.1 hl with h | h
      · subst h
        rcases List.mem_cons.1 (List.mem_reverse.1 hc) with h1 | h1
        · exact Or.inr (by rw [h1]; exact List.mem_cons_self _ _)
        · exact Or.inl h1
      · rcases ih [] l h c hc with h1 | h1
        · cases h1
        · exact Or.inr (List.mem_cons_of_mem _ h1)
    · rw [if_neg ha] at hl
      rcases ih (a :: acc) l hl c hc with h1 | h1
      · rcases List.mem_cons.1 h1 with h2 | h2
        · exact Or.inr (by rw [h2]; exact List.mem_cons_self _ _)
        · exact Or.inl h2
      · exact Or.inr (List.mem_cons_of_mem _ h1)

theorem c_str_eq (buf : List Char) (h : NUL ∉ buf) : c_str buf = buf := by
  unfold c_str
  rw [List.takeWhile_eq_self_iff]
  intro c hc
  have : c ≠ NUL := fun he => h (he ▸ hc)
  simpa using this

theorem prefix_takeWhile (p : Char → Bool) :
    ∀ (e l : List Char), (∀ c ∈ e, p c = true) → (e <+: l ↔ e <+: l.takeWhile p) := by
  intro e
  induction e with
  | nil => intro l _; simp
  | cons a e ih =>
    intro l hp
    cases l with
    | nil => simp
    | cons b l =>
      have hpa : p a = true := hp a (List.mem_cons_self _ _)
      have ih1 := ih l fun c hc => hp c (List.mem_cons_of_mem _ hc)
      by_cases hab : a = b
      · subst hab
        rw [List.takeWhile_cons, hpa]
        simp only [if_true, List.cons_prefix_cons, true_and]
        exact ih1
      · rw [List.takeWhile_cons]
        constructor
        · intro h
          exact absurd (List.cons_prefix_cons.1 h).1 hab
        · intro h
          by_cases hpb : p b = true
          · rw [hpb] at h
            exact absurd (List.cons_prefix_cons.1 h).1 hab
          · have hpb1 : p b = false := by simpa using hpb
            rw [hpb1] at h
            simp at h

theorem device_names_no_space :
    ∀ name ∈ device_names, ∀ c ∈ name.data, (!c.isWhitespace) = true := by
  decide

/-- The loop over `device_names` finds a name exactly when the line has a name
of the whitelist. -/
theorem name_matches_iff (line : List Char) :
    name_matches (skip_blanks (skip_word (skip_blanks line))) = true ↔
      has_listed_name line := by
  unfold name_matches has_listed_name name_token
  simp only [List.any_eq_true, Bool.and_eq_true, decide_eq_true_eq, beq_iff_eq]
  constructor
  · rintro ⟨name, hmem, _, htake⟩
    refine ⟨name, hmem, ?_⟩
    rw [← prefix_takeWhile _ _ _ (device_names_no_space name hmem), List.prefix_iff_eq_take]
    exact htake.symm
  · rintro ⟨name, hmem, hpre⟩
    rw [← prefix_takeWhile _ _ _ (device_names_no_space name hmem)] at hpre
    exact ⟨name, hmem, hpre.length_le, (List.prefix_iff_eq_take.1 hpre).symm⟩

theorem in_block_section_cons_header (atoi : List Char → Int) (l : List Char)
    (before : List (List Char)) (hl : leading_number atoi l = 0) :
    in_block_section atoi (l :: before) ↔
      in_block_section atoi before ∨
        (first_nonspace l = some 'B' ∧ ∀ x ∈ before, leading_number atoi x ≠ 0) := by
  constructor
  · rintro ⟨p1, h, p2, heq, hh, hB, hno⟩
    cases p1 with
    | nil =>
      simp only [List.nil_append, List.cons.injEq] at heq
      obtain ⟨h1, h2⟩ := heq
      subst h1
      subst h2
      exact Or.inr ⟨hB, hno⟩
    | cons a p1 =>
      simp only [List.cons_append, List.cons.injEq] at heq
      exact Or.inl ⟨p1, h, p2, heq.2, hh, hB, hno⟩
  · rintro (⟨p1, h, p2, heq, hh, hB, hno⟩ | ⟨hB, hno⟩)
    · exact ⟨l :: p1, h, p2, by rw [heq]; rfl, hh, hB, hno⟩
    · exact ⟨[], l, before, rfl, hl, hB, hno⟩

theorem in_block_section_cons_data (atoi : List Char → Int) (l : List Char)
    (before : List (List Char)) (hl : leading_number atoi l ≠ 0) :
    in_block_section atoi (l :: before) ↔ in_block_section atoi before := by
  constructor
  · rintro ⟨p1, h, p2, heq, hh, hB, hno⟩
    cases p1 with
    | nil =>
      simp only [List.nil_append, List.cons.injEq] at heq
      obtain ⟨h1, _⟩ := heq
      subst h1
      exact absurd hh hl
    | cons a p1 =>
      simp only [List.cons_append, List.cons.injEq] at heq
      exact ⟨p1, h, p2, heq.2, hh, hB, hno⟩
  · rintro ⟨p1, h, p2, heq, hh, hB, hno⟩
    exact ⟨l :: p1, h, p2, by rw [heq]; rfl, hh, hB, hno⟩

theorem not_in_block_section_nil (atoi : List Char → Int) :
    ¬ in_block_section atoi [] := by
  rintro ⟨p1, h, p2, heq, _⟩
  cases p1 <;> cases heq

theorem lists_major_from_nil (atoi : List Char → Int) (flag m : Int) :
    ¬ lists_major_from atoi flag [] m := by
  rintro ⟨before, line, after, heq, _⟩
  cases before <;> cases heq

theorem lists_major_from_cons_header (atoi : List Char → Int) (flag m : Int)
    (l : List Char) (tl : List (List Char)) (hl : leading_number atoi l = 0) :
    lists_major_from atoi flag (l :: tl) m ↔
      lists_major_from atoi (if first_nonspace l = some 'B' then 1 else 0) tl m := by
  constructor
  · rintro ⟨before, line, after, heq, hnum, hm, hcond, hname⟩
    cases before with
    | nil =>
      simp only [List.nil_append, List.cons.injEq] at heq
      obtain ⟨h1, _⟩ := heq
      subst h1
      rw [hl] at hnum
      exact absurd hnum.symm hm
    | cons a before =>
      simp only [List.cons_append, List.cons.injEq] at heq
      obtain ⟨h1, h2⟩ := heq
      subst h1
      refine ⟨before, line, after, h2, hnum, hm, ?_, hname⟩
      rcases hcond with hb | ⟨_, hno⟩
      · rcases (in_block_section_cons_header atoi l before hl).1 hb with h | ⟨hB, hno⟩
        · exact Or.inl h
        · refine Or.inr ⟨?_, hno⟩
          rw [if_pos hB]
          decide
      · exact absurd hl (hno l (List.mem_cons_self _ _))
  · rintro ⟨before, line, after, heq, hnum, hm, hcond, hname⟩
    refine ⟨l :: before, line, after, by rw [heq]; rfl, hnum, hm, Or.inl ?_, hname⟩
    rw [in_block_section_cons_header atoi l before hl]
    rcases hcond with hb | ⟨hflag, hno⟩
    · exact Or.inl hb
    · refine Or.inr ⟨?_, hno⟩
      by_contra hB
      rw [if_neg hB] at hflag
      exact hflag rfl

theorem lists_major_from_cons_data (atoi : List Char → Int) (flag m : Int)
    (l : List Char) (tl : List (List Char)) (hl : leading_number atoi l ≠ 0) :
    lists_major_from atoi flag (l :: tl) m ↔
      (leading_number atoi l = m ∧ flag ≠ 0 ∧ has_listed_name l) ∨
        lists_major_from atoi flag tl m := by
  constructor
  · rintro ⟨before, line, after, heq, hnum, hm, hcond, hname⟩
    cases before with
    | nil =>
      simp only [List.nil_append, List.cons.injEq] at heq
      obtain ⟨h1, _⟩ := heq
      subst h1
      rcases hcond with hb | ⟨hflag, _⟩
      · exact absurd hb (not_in_block_section_nil atoi)
      · exact Or.inl ⟨hnum, hflag, hname⟩
    | cons a before =>
      simp only [List.cons_append, List.cons.injEq] at heq
      obtain ⟨h1, h2⟩ := heq
      subst h1
      refine Or.inr ⟨before, line, after, h2, hnum, hm, ?_, hname⟩
      rcases hcond with hb | ⟨hflag, hno⟩
      · exact Or.inl ((in_block_section_cons_data atoi l before hl).1 hb)
      · exact Or.inr ⟨hflag, fun x hx => hno x (List.mem_cons_of_mem _ hx)⟩
  · rintro (⟨hnum, hflag, hname⟩ | ⟨before, line, after, heq, hnum, hm, hcond, hname⟩)
    · refine ⟨[], l, tl, rfl, hnum, ?_, Or.inr ⟨hflag, ?_⟩, hname⟩
      · rw [← hnum]
        exact hl
      · intro x hx
        cases hx
    · refine ⟨l :: before, line, after, by rw [heq]; rfl, hnum, hm, ?_, hname⟩
      rcases hcond with hb | ⟨hflag, hno⟩
      · exact Or.inl ((in_block_section_cons_data atoi l before hl).2 hb)
      · refine Or.inr ⟨hflag, ?_⟩
        intro x hx
        rcases List.mem_cons.1 hx with h | h
        · rw [h]
          exact hl
        · exact hno x h

/-- The loop of `_scan_proc_dev` ends when the pool yields every node, and the
majors on the list are then those it held and those the lines list. -/
theorem scan_lines_spec (atoi : List Char → Int) (pool_ok : Nat → Bool)
    (hpool : ∀ n, pool_ok n = true) :
    ∀ (ls : List (List Char)) (s : proc_scan), (∀ buf ∈ ls, NUL ∉ buf) →
      ∃ s1, scan_lines atoi pool_ok ls s = some s1 ∧
        ∀ m, m ∈ s1.dev_list ↔
          m ∈ s.dev_list ∨ lists_major_from atoi s.blocksection ls m := by
  intro ls
  induction ls with
  | nil =>
    intro s _
    refine ⟨s, rfl, fun m => ?_⟩
    constructor
    · exact Or.inl
    · rintro (h | h)
      · exact h
      · exact absurd h (lists_major_from_nil atoi _ m)
  | cons l tl ih =>
    intro s hnul
    have hl : c_str l = l := c_str_eq l (hnul l (List.mem_cons_self _ _))
    have htl : ∀ buf ∈ tl, NUL ∉ buf := fun buf hb => hnul buf (List.mem_cons_of_mem _ hb)
    rw [scan_lines, hl]
    by_cases hnum : leading_number atoi l = 0
    · have hstep : scan_line atoi pool_ok s l =
          some { s with blocksection := if first_nonspace l = some 'B' then 1 else 0 } := by
        unfold scan_line
        simp only []
        rw [if_pos (show atoi (skip_blanks l) = 0 from hnum)]
        rfl
      rw [hstep]
      obtain ⟨s1, h1, hmem⟩ := ih _ htl
      refine ⟨s1, h1, fun m => ?_⟩
      rw [hmem m, lists_major_from_cons_header atoi s.blocksection m l tl hnum]
    · by_cases hflag : s.blocksection = 0
      · have hstep : scan_line atoi pool_ok s l = some s := by
          unfold scan_line
          simp only []
          rw [if_neg (show ¬ atoi (skip_blanks l) = 0 from hnum), if_pos hflag]
        rw [hstep]
        obtain ⟨s1, h1, hmem⟩ := ih s htl
        refine ⟨s1, h1, fun m => ?_⟩
        rw [hmem m, lists_major_from_cons_data atoi s.blocksection m l tl hnum]
        constructor
        · rintro (h | h)
          · exact Or.inl h
          · exact Or.inr (Or.inr h)
        · rintro (h | ⟨_, hf, _⟩ | h)
          · exact Or.inl h
          · exact absurd hflag hf
          · exact Or.inr h
      · by_cases hname : name_matches (skip_blanks (skip_word (skip_blanks l))) = true
        · have hstep : scan_line atoi pool_ok s l =
              some { s with dev_list := leading_number atoi l :: s.dev_list
                            ret := to_int ((s.ret + 1) % 4294967296).toNat } := by
            unfold scan_line
            simp only []
            rw [if_neg (show ¬ atoi (skip_blanks l) = 0 from hnum), if_neg hflag, if_pos hname, if_pos (hpool _)]
            rfl
          rw [hstep]
          obtain ⟨s1, h1, hmem⟩ := ih _ htl
          refine ⟨s1, h1, fun m => ?_⟩
          rw [hmem m, lists_major_from_cons_data atoi s.blocksection m l tl hnum]
          simp only [List.mem_cons]
          constructor
          · rintro ((h | h) | h)
            · exact Or.inr (Or.inl ⟨h.symm, hflag, (name_matches_iff l).1 hname⟩)
            · exact Or.inl h
            · exact Or.inr (Or.inr h)
          · rintro (h | ⟨h, _, _⟩ | h)
            · exact Or.inl (Or.inr h)
            · exact Or.inl (Or.inl h.symm)
            · exact Or.inr h
        · have hstep : scan_line atoi pool_ok s l = some s := by
            unfold scan_line
            simp only []
            rw [if_neg (show ¬ atoi (skip_blanks l) = 0 from hnum), if_neg hflag, if_neg hname]
          rw [hstep]
          obtain ⟨s1, h1, hmem⟩ := ih s htl
          refine ⟨s1, h1, fun m => ?_⟩
          rw [hmem m, lists_major_from_cons_data atoi s.blocksection m l tl hnum]
          constructor
          · rintro (h | h)
            · exact Or.inl h
            · exact Or.inr (Or.inr h)
          · rintro (h | ⟨_, _, hn⟩ | h)
            · exact Or.inl h
            · exact absurd ((name_matches_iff l).2 hn) hname
            · exact Or.inr h

theorem lists_major_from_zero (atoi : List Char → Int) (text : List Char) (m : Int) :
    lists_major_from atoi 0 (lines_of text) m ↔ lists_major atoi text m := by
  unfold lists_major_from lists_major
  constructor
  · rintro ⟨before, line, after, heq, hnum, hm, hcond, hname⟩
    rcases hcond with hb | ⟨hf, _⟩
    · exact ⟨before, line, after, heq, hnum, hm, hb, hname⟩
    · exact absurd rfl hf
  · rintro ⟨before, line, after, heq, hnum, hm, hb, hname⟩
    exact ⟨before, line, after, heq, hnum, hm, Or.inl hb, hname⟩


/-! ## C15 -/

/-- C15, amended: for every registry text without a `NUL` whose lines, the
newline that ends a line counted, are shorter than 80 characters, and a pool that
yields every node, `_scan_proc_dev` returns, and a major `m` is then on the list
of valid majors if and only if it was on it before or the text lists it: the
text has a line whose leading number `atoi` parses to `m`, not zero, such that
the last line before it whose leading number is zero has `B` as its first
character that is not a blank, and such that some entry of `device_names` is the
start of its name token. -/
theorem scan_proc_dev_majors (atoi : List Char → Int) (pool_ok : Nat → Bool)
    (dm : dev_mgr) (text : List Char)
    (hpool : ∀ n, pool_ok n = true) (hnul : NUL ∉ text)
    (hlen : ∀ l ∈ lines_of text, l.length < 80) :
    ∃ dm1 ret, _scan_proc_dev atoi pool_ok dm (some text) = some (dm1, ret) ∧
      ∀ m, m ∈ dm1.dev_list ↔ m ∈ dm.dev_list ∨ lists_major atoi text m := by
  have hfg : fgets_lines text 79 [] = lines_of text := fgets_lines_eq text 79 [] rfl hlen
  have hbuf : ∀ buf ∈ lines_of text, NUL ∉ buf := by
    intro buf hb hc
    rcases mem_text_lines text [] buf hb NUL hc with h | h
    · cases h
    · exact hnul h
  obtain ⟨s1, h1, hmem⟩ := scan_lines_spec atoi pool_ok hpool (lines_of text)
    { dev_list := dm.dev_list, blocksection := 0, ret := 0 } hbuf
  refine ⟨{ dm with dev_list := s1.dev_list }, s1.ret, ?_, ?_⟩
  · unfold _scan_proc_dev
    simp only [hfg, h1]
  · intro m
    show m ∈ s1.dev_list ↔ _
    rw [hmem m, lists_major_from_zero]

set_option maxRecDepth 100000 in
/-- C15 on the registry with the character device 1 and the block devices 8
`sd` and 9 `md`: the valid majors are 8 and 9. -/
theorem scan_proc_dev_majors_example :
    NUL ∉ registry ∧ (∀ l ∈ lines_of registry, l.length < 80) ∧
    _scan_proc_dev c_atoi (fun _ => true) no_majors (some registry) =
      some ({ no_majors with dev_list := [9, 8] }, 2) ∧
    (∀ m : Int, m ∈ [9, 8] ↔ m = 8 ∨ m = 9) ∧
    ∃ dm1 ret, _scan_proc_dev c_atoi (fun _ => true) no_majors (some registry) =
        some (dm1, ret) ∧
      ∀ m, m ∈ dm1.dev_list ↔ m ∈ no_majors.dev_list ∨ lists_major c_atoi registry m :=
  ⟨by decide, by decide, by decide, by intro m; simp [or_comm],
   scan_proc_dev_majors c_atoi (fun _ => true) no_majors registry (fun _ => rfl)
    (by decide) (by decide)⟩

set_option maxRecDepth 100000 in
/-- C15 fails for a line of 79 characters before its newline.  In
`long_registry` no line has 80 characters before its newline, and the line of
the major 9 follows the header `Block devices:` without another line of leading
number zero between them and has the name `md`; `fgets` reads the line of the
major 8 in two rounds, the second of which reads the newline alone and clears
`blocksection`, and `_scan_proc_dev` leaves 8 as the one valid major. -/
theorem scan_proc_dev_long_line :
    NUL ∉ long_registry ∧
    (∀ l ∈ lines_of long_registry, (l.filter fun c => c ≠ NL).length < 80) ∧
    (lines_of long_registry).map List.length = [15, 80, 7] ∧
    (fgets_lines long_registry 79 []).map List.length = [15, 79, 1, 7] ∧
    lists_major c_atoi long_registry 9 ∧
    _scan_proc_dev c_atoi (fun _ => true) no_majors (some long_registry) =
      some ({ no_majors with dev_list := [8] }, 1) := by
  refine ⟨by decide, by decide, by decide, by decide, ?_, by decide⟩
  refine ⟨["Block devices:\n".data, "  8 sd".data ++ List.replicate 73 'x' ++ [NL]],
    "  9 md\n".data, [], by decide, by decide, by decide, ?_, ?_⟩
  · exact ⟨[], "Block devices:\n".data, ["  8 sd".data ++ List.replicate 73 'x' ++ [NL]],
      rfl, by decide, by decide, by decide⟩
  · exact ⟨"md", by decide, by decide⟩


/-! ## C10 -/

set_option maxRecDepth 100000 in
/-- C10 fails on the code.  `dev_by_name` discovers `/dev/a` as 8:1; then, in
`fs4`, both `/dev/a` and `/dev/c` are nodes of 8:2 and `init_dev_scan` meets
first `a`, then `c`.  After `a` (the cache `cache_aa`) the one record of the
by-number index and of the list carries 2050, and `/dev/c` is accepted and not
in the by-name index.  Adding `/dev/c` nevertheless links its record into the
by-number index and at the head of the list: both now hold two records that
carry 2050, and `dev_by_dev` of 2050 returns the later one. -/
theorem known_number_linked_again :
    dev_by_name name_hash fs1 0 empty_cache "/dev/a" = some { dm := cache_a, dev := some 0 } ∧
    _add name_hash fs4 0 cache_a "/dev" "a" = some { dm := cache_aa, dev := some 0 } ∧
    wf cache_aa ∧
    by_number cache_aa = [0] ∧ cache_aa.all = [0] ∧
    numbers_of cache_aa (by_number cache_aa) = [2050] ∧
    accepted fs4 cache_aa "/dev/c" (blk 2050) ∧
    _is_name_present name_hash cache_aa "/dev/c" = none ∧
    _add name_hash fs4 0 cache_aa "/dev" "c" = some { dm := cache_aac, dev := some 1 } ∧
    names_of cache_aac (by_name cache_aac) = ["/dev/c", "/dev/a"] ∧
    by_number cache_aac = [0, 1] ∧ cache_aac.all = [1, 0] ∧
    numbers_of cache_aac (by_number cache_aac) = [2050, 2050] ∧
    numbers_of cache_aac cache_aac.all = [2050, 2050] ∧
    dev_by_dev cache_aac 2050 = some 1 ∧
    ∀ depth, init_dev_scan name_hash fs4 depth cache_a =
      some { dm := { cache_aac with has_scanned := 1 }, counter := [1, 0] } := by
  refine ⟨by decide, by decide, by unfold wf U32; decide, by decide, by decide, by decide,
    by decide, by decide, by decide, by decide, by decide, by decide, by decide, by decide,
    by decide, ?_⟩
  intro depth
  rw [init_dev_scan_depth]
  decide

/-! ## C16 -/

end DevMgr

